import Mathlib

/-!
# ADS_set: a linear-hashing set (src/ADS_set.h)

Shallow embedding of the class template `ADS_set<Key, N>`.

* A `Bucket` is one chain segment: the occupied prefix `contents[0 .. currentBucketSize-1]`
  of its `N`-slot array (slots at or beyond `currentBucketSize` are never read by the
  source) and its `overflowBucket` link, which is either `nullptr` or the next segment.
* The table is the list of the `currentTableSize` chain heads `table[0 .. currentTableSize-1]`;
  the backing array's physical size is kept in `allocSize`.
* `size_type` values are natural numbers; `1ul << d` is `2 ^ d`.
* An access that is undefined behaviour in C++ (an index outside `table`, a write to
  `contents` at or beyond slot `N`, dereferencing `nullptr`) makes the operation return `none`.
-/

set_option autoImplicit false
set_option linter.unusedSectionVars false
set_option linter.unnecessarySimpa false

namespace ADS

/-- Class `Bucket` (lines 31-43): `last c` is a segment whose `overflowBucket` is `nullptr`,
`link c o` a segment whose `overflowBucket` points to the segment `o`. The list `c` holds
`contents[0], ..., contents[currentBucketSize-1]`. -/
inductive Bucket (Key : Type) where
  | last (contents : List Key) : Bucket Key
  | link (contents : List Key) (overflowBucket : Bucket Key) : Bucket Key
  deriving DecidableEq, Repr

namespace Bucket

variable {Key : Type}

/-- Occupied slots of this segment. -/
def contents : Bucket Key → List Key
  | last c => c
  | link c _ => c

/-- Field `currentBucketSize`. -/
def currentBucketSize (b : Bucket Key) : Nat := b.contents.length

/-- Field `overflowBucket` (`none` is `nullptr`). -/
def overflowBucket : Bucket Key → Option (Bucket Key)
  | last _ => none
  | link _ o => some o

/-- The keys met when walking the whole chain: for each segment in link order the slots
`0 .. currentBucketSize-1` (the walk of `rehash_noalloc` lines 76-88, `rehash` lines 137-149). -/
def keys : Bucket Key → List Key
  | last c => c
  | link c o => c ++ keys o

/-- The segments of the chain in link order. -/
def segments : Bucket Key → List (List Key)
  | last c => [c]
  | link c o => c :: segments o

/-- Follow `overflowBucket` `j` times (`none`: ran into `nullptr`). -/
def follow : Bucket Key → Nat → Option (Bucket Key)
  | b, 0 => some b
  | last _, _ + 1 => none
  | link _ o, j + 1 => follow o j

variable [DecidableEq Key]

/-- The chain walk shared verbatim by `insert_` (lines 507-538) and `insert_noexcept`
(lines 551-569): skip segments that are full and have a successor; if the segment reached is
full and has no successor, link a fresh segment and store the key in its slot 0 (flag `true`);
otherwise store the key at slot `currentBucketSize` of the segment reached (flag `false`).
A store at a slot index that is not below `N` is out of the array: `none`. -/
def place (N : Nat) (key : Key) : Bucket Key → Option (Bucket Key × Bool)
  | last c =>
    if c.length = N then
      if 0 < N then some (link c (last [key]), true) else none
    else if c.length < N then some (last (c ++ [key]), false) else none
  | link c o =>
    if c.length = N then
      (place N key o).map (fun r => (link c r.1, r.2))
    else if c.length < N then some (link (c ++ [key]) o, false) else none

/-- Does the scan `for i < currentBucketSize: contents[i] == key`, run over the head and then
over every overflow segment, hit (lines 582-596)? -/
def scan (key : Key) : Bucket Key → Bool
  | last c => decide (key ∈ c)
  | link c o => decide (key ∈ c) || scan key o

/-- Position in the chain (counted from segment `j`) of the first segment whose scan hits:
the segment returned by `find_ofb` (lines 610-626). -/
def scanSegment (key : Key) : Bucket Key → Nat → Option Nat
  | last c, j => if key ∈ c then some j else none
  | link c o, j => if key ∈ c then some j else scanSegment key o (j + 1)

/-- Slot index `i` at which the first hit of the scan occurs: the value returned by
`find_idx` (lines 368-384). -/
def scanIndex (key : Key) : Bucket Key → Option Nat
  | last c => if key ∈ c then some (c.indexOf key) else none
  | link c o => if key ∈ c then some (c.indexOf key) else scanIndex key o

end Bucket

/-- The loop `for i < currentBucketSize: if contents[i] == key then (ele_Idx = i; destBucket = this
segment)` of `find` (lines 212-220, 227-235): it has no `break`, so the last hit wins. `i` is
the index of the head of the list, `j` the segment, `acc` the pair (segment, slot) so far. -/
def lastHit {Key : Type} [DecidableEq Key] (key : Key) (j : Nat) :
    List Key → Nat → Option (Nat × Nat) → Option (Nat × Nat)
  | [], _, acc => acc
  | x :: xs, i, acc => lastHit key j xs (i + 1) (if x = key then some (j, i) else acc)

/-- The two scans of `find` over the whole chain, starting at segment number `j`. -/
def Bucket.findLoop {Key : Type} [DecidableEq Key] (key : Key) :
    Bucket Key → Nat → Option (Nat × Nat) → Option (Nat × Nat)
  | Bucket.last c, j, acc => lastHit key j c 0 acc
  | Bucket.link c o, j, acc => Bucket.findLoop key o (j + 1) (lastHit key j c 0 acc)

/-- One pass of the loop body of `erase` (lines 313-319) at index `i`: `st.1` is the array
`contents[0 .. currentBucketSize-1]`, `st.2` is `flagMove`. -/
def eraseStep {Key : Type} [DecidableEq Key] (key : Key) (st : List Key × Bool) (i : Nat) :
    List Key × Bool :=
  match st.1[i]? with
  | none => st
  | some x =>
    if x = key then (st.1, true)
    else if st.2 = false then st
    else (st.1.set (i - 1) x, st.2)

/-- The loop of `erase` (lines 311-320) on the slots of one segment, for
`i = 0, ..., currentBucketSize-1`, starting with `flagMove = false`. -/
def eraseLoop {Key : Type} [DecidableEq Key] (key : Key) (c : List Key) : List Key × Bool :=
  (List.range c.length).foldl (eraseStep key) (c, false)

/-- The loop of `erase` followed by `--currentBucketSize` (line 322). -/
def eraseSlots {Key : Type} [DecidableEq Key] (key : Key) (c : List Key) : List Key :=
  (eraseLoop key c).1.dropLast

/-- Apply `f` to the contents of segment number `j` of a chain. -/
def Bucket.modifySegment {Key : Type} (f : List Key → List Key) : Bucket Key → Nat → Bucket Key
  | Bucket.last c, 0 => Bucket.last (f c)
  | Bucket.link c o, 0 => Bucket.link (f c) o
  | Bucket.last c, _ + 1 => Bucket.last c
  | Bucket.link c o, j + 1 => Bucket.link c (Bucket.modifySegment f o j)

/-- The data members of `ADS_set` (lines 46-53). `table` lists the chain heads
`table[0], ..., table[currentTableSize-1]`. -/
structure ADS_set (Key : Type) where
  table : List (Bucket Key)
  d : Nat
  nextToSplit : Nat
  allocSize : Nat
  numElements : Nat
  deriving DecidableEq, Repr

/-- Member `currentTableSize`: the number of chain heads that are live. -/
def ADS_set.currentTableSize {Key : Type} (t : ADS_set Key) : Nat := t.table.length

/-- The state built by the constructor `ADS_set()` (line 158): `table == nullptr` and every
counter 0. -/
def ADS_set.init {Key : Type} : ADS_set Key :=
  { table := [], d := 0, nextToSplit := 0, allocSize := 0, numElements := 0 }

section Operations

variable {Key : Type} [DecidableEq Key]

/-- Hash function `h` (line 56): `hasher{}(key) % (1ul << d)`. -/
def h (hash : Key → Nat) (key : Key) (d : Nat) : Nat := hash key % 2 ^ d

/-- The address computation that opens every lookup (e.g. lines 579-580):
`a = h(key, d); if (a < nextToSplit) a = h(key, d+1);`. -/
def resolve (hash : Key → Nat) (t : ADS_set Key) (key : Key) : Nat :=
  if h hash key t.d < t.nextToSplit then h hash key (t.d + 1) else h hash key t.d

/-- Method `insert_noexcept` (lines 546-571): place the key in the chain of its bucket, never
splitting. -/
def insert_noexcept (N : Nat) (hash : Key → Nat) (t : ADS_set Key) (key : Key) :
    Option (ADS_set Key) :=
  match t.table[resolve hash t key]? with
  | none => none
  | some b =>
    match b.place N key with
    | none => none
    | some r => some { t with table := t.table.set (resolve hash t key) r.1 }

/-- Local `newAllocSize` of `rehash` (line 107): `static_cast<size_type>(allocSize*1.3) + 1`.
The truncated product is `allocSize * 13 / 10` (exact for every `allocSize` below `2^50`). -/
def newAllocSize (allocSize : Nat) : Nat := allocSize * 13 / 10 + 1

/-- Method `rehash_noalloc` (lines 66-100): append a fresh bucket at index `currentTableSize`
(inside the backing array only if `currentTableSize < allocSize`), collect the keys of the
chain at `nextToSplit`, replace that chain by a fresh bucket, advance `nextToSplit` and
re-insert the collected keys with `insert_noexcept`. -/
def rehash_noalloc (N : Nat) (hash : Key → Nat) (t : ADS_set Key) : Option (ADS_set Key) :=
  if t.table.length < t.allocSize then
    match (t.table ++ [Bucket.last []])[t.nextToSplit]? with
    | none => none
    | some rehashBucket =>
      rehashBucket.keys.foldlM (insert_noexcept N hash)
        { t with
          table := (t.table ++ [Bucket.last []]).set t.nextToSplit (Bucket.last [])
          nextToSplit := t.nextToSplit + 1 }
  else none

/-- Method `rehash` (lines 105-154): a new backing array of `newAllocSize` slots; with no bucket so
far it only creates bucket 0; otherwise every chain but the one at `nextToSplit` is moved over,
a fresh bucket stands at `nextToSplit` and another at the old `currentTableSize` (inside the
new array only if `currentTableSize < newAllocSize`), `nextToSplit` advances and the keys of
the old chain are re-inserted with `insert_noexcept`. -/
def rehash (N : Nat) (hash : Key → Nat) (t : ADS_set Key) : Option (ADS_set Key) :=
  if t.table.length = 0 then
    some { t with table := [Bucket.last []], allocSize := newAllocSize t.allocSize }
  else if t.table.length < newAllocSize t.allocSize then
    match t.table[t.nextToSplit]? with
    | none => none
    | some currentBucket =>
      currentBucket.keys.foldlM (insert_noexcept N hash)
        { t with
          table := t.table.set t.nextToSplit (Bucket.last []) ++ [Bucket.last []]
          nextToSplit := t.nextToSplit + 1
          allocSize := newAllocSize t.allocSize }
  else none

/-- The round check that follows a split (lines 499-503 and 529-533):
`if (nextToSplit == (1ul << d)) { ++d; nextToSplit = 0; }`. -/
def roundCheck (t : ADS_set Key) : ADS_set Key :=
  if t.nextToSplit = 2 ^ t.d then { t with d := t.d + 1, nextToSplit := 0 } else t

/-- Method `insert_` (lines 489-541). The returned pointer `table[a]` is not used by any caller and
is left out. -/
def insert_ (N : Nat) (hash : Key → Nat) (t : ADS_set Key) (key : Key) : Option (ADS_set Key) :=
  if t.table.length = 0 then
    match rehash N hash t with
    | none => none
    | some t1 =>
      match t1.table[resolve hash t key]? with
      | none => none
      | some b =>
        if b.contents.length < N then
          some (roundCheck { t1 with
            table := t1.table.set (resolve hash t key)
              (match b with
               | Bucket.last c => Bucket.last (c ++ [key])
               | Bucket.link c o => Bucket.link (c ++ [key]) o) })
        else none
  else
    match t.table[resolve hash t key]? with
    | none => none
    | some b =>
      match b.place N key with
      | none => none
      | some r =>
        if r.2 = true then
          match
            (if t.table.length + 1 ≤ t.allocSize then
              rehash_noalloc N hash { t with table := t.table.set (resolve hash t key) r.1 }
            else rehash N hash { t with table := t.table.set (resolve hash t key) r.1 }) with
          | none => none
          | some t2 => some (roundCheck t2)
        else some { t with table := t.table.set (resolve hash t key) r.1 }

/-- Method `find_` (lines 575-599): `none` inside is `nullptr`, `some (a, 0)` is the pointer
`table[a]` to the head segment of row `a`. -/
def find_ (hash : Key → Nat) (t : ADS_set Key) (key : Key) : Option (Option (Nat × Nat)) :=
  if t.numElements = 0 ∨ t.table.length = 0 then some none
  else
    match t.table[resolve hash t key]? with
    | none => none
    | some b => some (if b.scan key = true then some (resolve hash t key, 0) else none)

/-- Method `find_ofb` (lines 603-627): pointer to the segment that holds the key, as the pair
(row, position of the segment in the chain of that row). -/
def find_ofb (hash : Key → Nat) (t : ADS_set Key) (key : Key) : Option (Option (Nat × Nat)) :=
  if t.numElements = 0 then some none
  else
    match t.table[resolve hash t key]? with
    | none => none
    | some b => some ((b.scanSegment key 0).map (fun j => (resolve hash t key, j)))

/-- Method `find_idx` (lines 361-385). -/
def find_idx (hash : Key → Nat) (t : ADS_set Key) (key : Key) : Option Int :=
  if t.numElements = 0 then some (-1)
  else
    match t.table[resolve hash t key]? with
    | none => none
    | some b =>
      some (match b.scanIndex key with
            | some i => (i : Int)
            | none => -1)

/-- Method `find_row` (lines 388-412). -/
def find_row (hash : Key → Nat) (t : ADS_set Key) (key : Key) : Option Int :=
  if t.numElements = 0 then some (-1)
  else
    match t.table[resolve hash t key]? with
    | none => none
    | some b => some (if b.scan key = true then (resolve hash t key : Int) else -1)

/-- Method `size()` (line 191). -/
def size (t : ADS_set Key) : Nat := t.numElements

/-- Method `empty()` (line 192). -/
def empty (t : ADS_set Key) : Bool := t.numElements == 0

/-- Method `count(key)` (line 195): `!!find_(key)`. -/
def count (hash : Key → Nat) (t : ADS_set Key) (key : Key) : Option Nat :=
  (find_ hash t key).map (fun p => if p.isSome = true then 1 else 0)

/-- Method `clear()` (lines 243-256). The test `table == nullptr` is `allocSize == 0`: the constructor
and `clear` set both, and `rehash`, the only place that allocates `table`, makes `allocSize`
positive. -/
def clear (t : ADS_set Key) : ADS_set Key :=
  if t.allocSize = 0 then t else ADS_set.init

/-- Class `Iterator` (lines 669-767). `elem` is the key the pointer `elem` designates (`none`:
`nullptr` or a slot that is not occupied); `currentBucket` is the segment pointer, given as
(row, position of the segment in the chain of that row), `none` being `nullptr`. The member
`set` is not represented: all iterators considered belong to the table at hand. -/
structure Iterator (Key : Type) where
  elem : Option Key
  currentBucket : Option (Nat × Nat)
  arrIndex : Int
  elemIndex : Int
  deriving DecidableEq, Repr

/-- Iterator `operator==` (lines 758-761): `elem` is not compared. -/
def Iterator.eq (a b : Iterator Key) : Bool :=
  a.currentBucket == b.currentBucket && a.arrIndex == b.arrIndex && a.elemIndex == b.elemIndex

/-- Method `end()` (lines 352-355), i.e. the constructor `Iterator(const ADS_set*)` (lines 694-701). -/
def end_ (t : ADS_set Key) : Iterator Key :=
  { elem := none, currentBucket := none, arrIndex := (t.table.length : Int), elemIndex := -1 }

/-- Method `find` (lines 199-240). The iterator's `elem` is the address of the argument `key`. -/
def find (hash : Key → Nat) (t : ADS_set Key) (key : Key) : Option (Iterator Key) :=
  match count hash t key with
  | none => none
  | some c =>
    if c = 0 then some (end_ t)
    else
      match t.table[resolve hash t key]? with
      | none => none
      | some b =>
        some (match b.findLoop key 0 none with
              | some (j, i) =>
                { elem := some key, currentBucket := some (resolve hash t key, j),
                  arrIndex := (resolve hash t key : Int), elemIndex := (i : Int) }
              | none => { elem := some key, currentBucket := none, arrIndex := -1, elemIndex := -1 })

/-- Method `insert(const key_type&)` (lines 281-289): the new table, the iterator and the flag. -/
def insert (N : Nat) (hash : Key → Nat) (t : ADS_set Key) (key : Key) :
    Option (ADS_set Key × Iterator Key × Bool) :=
  match count hash t key with
  | none => none
  | some c =>
    if c ≠ 0 then (find hash t key).map (fun it => (t, it, false))
    else
      match insert_ N hash t key with
      | none => none
      | some t1 =>
        match find_ofb hash { t1 with numElements := t1.numElements + 1 } key,
              find_row hash { t1 with numElements := t1.numElements + 1 } key,
              find_idx hash { t1 with numElements := t1.numElements + 1 } key with
        | some p, some r, some i =>
          some ({ t1 with numElements := t1.numElements + 1 },
                { elem := some key, currentBucket := p, arrIndex := r, elemIndex := i }, true)
        | _, _, _ => none

/-- Method `erase` (lines 303-325): the new table and the number of keys removed. -/
def erase (hash : Key → Nat) (t : ADS_set Key) (key : Key) : Option (ADS_set Key × Nat) :=
  match count hash t key with
  | none => none
  | some c =>
    if c = 0 then some (t, 0)
    else
      match find_ofb hash t key with
      | none => none
      | some none => some (t, 0)
      | some (some p) =>
        match t.table[p.1]? with
        | none => none
        | some b =>
          some ({ t with
                  table := t.table.set p.1 (b.modifySegment (eraseSlots key) p.2)
                  numElements := t.numElements - 1 }, 1)

/-- The loop `while (currentBucket->currentBucketSize == 0)` of `begin` (lines 337-346) and of
`operator++` (lines 729-745, once `elemIndex` is 0) inside one chain: the position (counted from
`j`) of the first segment that is not empty, with its slot 0; `none` when the walk arrives at a
segment that is empty and has no successor. -/
def Bucket.skipEmpty : Bucket Key → Nat → Option (Nat × Key)
  | Bucket.last [], _ => none
  | Bucket.last (x :: _), j => some (j, x)
  | Bucket.link [] o, j => Bucket.skipEmpty o (j + 1)
  | Bucket.link (x :: _) _, j => some (j, x)

/-- The same loop across rows: `rows` are the chains `table[i], table[i+1], ...`; the result is
(row, segment, key at slot 0) of the first segment that is not empty, `none` when every row is
exhausted. -/
def skipRows : List (Bucket Key) → Nat → Option (Nat × Nat × Key)
  | [], _ => none
  | b :: rows, i =>
    match b.skipEmpty 0 with
    | some r => some (i, r.1, r.2)
    | none => skipRows rows (i + 1)

/-- Method `begin()` (lines 329-349). The loop has no bound on `i`: running past the last row reads
outside `table`. -/
def begin (t : ADS_set Key) : Option (Iterator Key) :=
  if t.numElements = 0 then some (end_ t)
  else
    match skipRows t.table 0 with
    | none => none
    | some r => some { elem := some r.2.2, currentBucket := some (r.1, r.2.1),
                       arrIndex := (r.1 : Int), elemIndex := 0 }

/-- The part of the loop of `operator++` that leaves a chain (lines 732-739) and goes on from
row `k = arrIndex + 1`: `end()` (via `invalidate`) when `k == currentTableSize` or when the
remaining rows hold no key. -/
def nextRow (t : ADS_set Key) (k : Int) : Option (Iterator Key) :=
  if k < 0 then none
  else if k.toNat = t.table.length then some (end_ t)
  else if t.table.length < k.toNat then none
  else
    match skipRows (t.table.drop k.toNat) k.toNat with
    | some r => some { elem := some r.2.2, currentBucket := some (r.1, r.2.1),
                       arrIndex := (r.1 : Int), elemIndex := 0 }
    | none => some (end_ t)

/-- The key at `contents + e`. -/
def slotAt (slots : List Key) (e : Int) : Option Key :=
  if e < 0 then none else slots.get? e.toNat

/-- Iterator `operator++` (lines 725-749) on an iterator of table `t`. -/
def next (t : ADS_set Key) (it : Iterator Key) : Option (Iterator Key) :=
  match it.currentBucket with
  | none => none
  | some p =>
    match (t.table[p.1]?).bind (fun b => b.follow p.2) with
    | none => none
    | some cb =>
      if (cb.contents.length : Int) = it.elemIndex + 1 then
        match cb.overflowBucket with
        | none => nextRow t (it.arrIndex + 1)
        | some o =>
          match o.skipEmpty (p.2 + 1) with
          | some r => some { elem := some r.2, currentBucket := some (p.1, r.1),
                             arrIndex := it.arrIndex, elemIndex := 0 }
          | none => nextRow t (it.arrIndex + 1)
      else
        some { elem := slotAt cb.contents (it.elemIndex + 1), currentBucket := some p,
               arrIndex := it.arrIndex, elemIndex := it.elemIndex + 1 }

/-- The keys yielded by `for (it = start; it != end(); ++it) yield *it`, cut off after `fuel`
steps. -/
def traverse (t : ADS_set Key) : Nat → Iterator Key → Option (List Key)
  | 0, _ => none
  | fuel + 1, it =>
    if it.eq (end_ t) = true then some []
    else
      match it.elem, next t it with
      | some x, some it1 => (traverse t fuel it1).map (fun l => x :: l)
      | _, _ => none

/-- The keys yielded by the traversal `begin() .. end()`. -/
def toList (t : ADS_set Key) : Option (List Key) :=
  (begin t).bind (traverse t (t.numElements + 1))

/-- A public mutating call. -/
inductive Op (Key : Type) where
  | insert (key : Key) : Op Key
  | erase (key : Key) : Op Key
  | clear : Op Key
  deriving DecidableEq, Repr

/-- Perform one call on the table. -/
def step (N : Nat) (hash : Key → Nat) (t : ADS_set Key) : Op Key → Option (ADS_set Key)
  | Op.insert key => (insert N hash t key).map (fun r => r.1)
  | Op.erase key => (erase hash t key).map (fun r => r.1)
  | Op.clear => some (clear t)

/-- Perform a sequence of calls, first to last. -/
def run (N : Nat) (hash : Key → Nat) (t : ADS_set Key) (ops : List (Op Key)) :
    Option (ADS_set Key) :=
  ops.foldlM (step N hash) t

/-- The effect of one call on a mathematical set of keys. -/
def stepSet (s : Finset Key) : Op Key → Finset Key
  | Op.insert key => Insert.insert key s
  | Op.erase key => s.erase key
  | Op.clear => ∅

/-- The mathematical set obtained from the empty set by a sequence of calls. -/
def runSet (ops : List (Op Key)) : Finset Key := ops.foldl stepSet ∅

/-- The tables that the public calls `insert`, `erase` and `clear` build from `ADS_set()`. -/
inductive Reachable (N : Nat) (hash : Key → Nat) : ADS_set Key → Prop where
  | init : Reachable N hash ADS_set.init
  | insert (t : ADS_set Key) (key : Key) (r : ADS_set Key × Iterator Key × Bool) :
      Reachable N hash t → insert N hash t key = some r → Reachable N hash r.1
  | erase (t : ADS_set Key) (key : Key) (r : ADS_set Key × Nat) :
      Reachable N hash t → erase hash t key = some r → Reachable N hash r.1
  | clear (t : ADS_set Key) : Reachable N hash t → Reachable N hash (clear t)

/-- All keys stored in the table: row by row, each chain in link order. -/
def allKeys (t : ADS_set Key) : List Key := t.table.flatMap Bucket.keys

/-- Every segment of the chain holds at most `N` keys. -/
def Bucket.Bounded (N : Nat) : Bucket Key → Prop
  | Bucket.last c => c.length ≤ N
  | Bucket.link c o => c.length ≤ N ∧ Bucket.Bounded N o

/-- The facts that hold at every point of an insertion, also between the split and the round
check: the table has `2^d + nextToSplit` rows, `nextToSplit ≤ 2^d`, every stored key sits in
the row it resolves to, and no segment exceeds `N` keys. -/
structure Mid (N : Nat) (hash : Key → Nat) (t : ADS_set Key) : Prop where
  size_eq : t.table.length = 2 ^ t.d + t.nextToSplit
  cursor_le : t.nextToSplit ≤ 2 ^ t.d
  home : ∀ (i : Nat) (b : Bucket Key), t.table[i]? = some b → ∀ k ∈ b.keys, resolve hash t k = i
  bounded : ∀ b ∈ t.table, Bucket.Bounded N b

/-- The invariant of the table between public calls. -/
structure Inv (N : Nat) (hash : Key → Nat) (t : ADS_set Key) : Prop where
  shape : t = ADS_set.init ∨
    (t.table.length = 2 ^ t.d + t.nextToSplit ∧ t.nextToSplit < 2 ^ t.d ∧
      t.table.length ≤ t.allocSize)
  home : ∀ (i : Nat) (b : Bucket Key), t.table[i]? = some b → ∀ k ∈ b.keys, resolve hash t k = i
  bounded : ∀ b ∈ t.table, Bucket.Bounded N b
  nodup : (allKeys t).Nodup
  num : t.numElements = (allKeys t).length

/-- The keys of the segments behind this one in its chain. -/
def Bucket.tailKeys : Bucket Key → List Key
  | Bucket.last _ => []
  | Bucket.link _ o => o.keys

/-- The iterator stands on an occupied slot: slot `e` of the segment at position `j` of the
chain of row `r`, which holds `x`; `rest` lists what lies behind that slot in bucket order:
the later slots of the segment, the later segments of the chain, the later rows. -/
def At (t : ADS_set Key) (it : Iterator Key) (x : Key) (rest : List Key) : Prop :=
  ∃ (r j e : Nat) (b cb : Bucket Key),
    it = { elem := some x, currentBucket := some (r, j), arrIndex := (r : Int),
           elemIndex := (e : Int) } ∧
    t.table[r]? = some b ∧ b.follow j = some cb ∧ cb.contents.get? e = some x ∧
    rest = cb.contents.drop (e + 1) ++ cb.tailKeys ++ (t.table.drop (r + 1)).flatMap Bucket.keys

/-- The iterator is `end()` when nothing is left, and otherwise stands on the first key of
`l` with the remainder of `l` behind it. -/
def Cursor (t : ADS_set Key) (it : Iterator Key) : List Key → Prop
  | [] => it = end_ t
  | x :: rest => At t it x rest

/-- The keys of one chain as the specification words the order: the segments in link order
(head first), and within each segment the occupied slots `0 .. currentBucketSize - 1` in slot
order. -/
def chainOrder (b : Bucket Key) : List Key :=
  b.segments.flatMap (fun seg => (List.range seg.length).filterMap (fun e => seg.get? e))

/-- The order of traversal as the specification words it: bucket index ascending from 0 to
`currentTableSize - 1`, each bucket contributing its chain in `chainOrder`. -/
def bucketOrder (t : ADS_set Key) : List Key :=
  (List.range t.currentTableSize).flatMap (fun i => ((t.table.get? i).map chainOrder).getD [])

/-- The scans of `operator==` (lines 419-436) over the keys of the left table, in the order
the loops meet them: the first key for which `rhs.count` is 0 ends the comparison with
`false`. -/
def allCounted (hash : Key → Nat) (rhs : ADS_set Key) : List Key → Option Bool
  | [] => some true
  | key :: rest =>
    match count hash rhs key with
    | none => none
    | some c => if c = 0 then some false else allCounted hash rhs rest

/-- Friend `operator==(const ADS_set&, const ADS_set&)` (lines 415-439): sizes first, then for
every row `a < lhs.currentTableSize` the head segment and the overflow segments of
`lhs.table[a]`. Both tables use the same hasher. -/
def operatorEq (hash : Key → Nat) (lhs rhs : ADS_set Key) : Option Bool :=
  if size lhs ≠ size rhs then some false
  else allCounted hash rhs (lhs.table.flatMap Bucket.keys)

/-- Every segment of the chain that has a successor holds exactly `N` keys. -/
def Bucket.Packed (N : Nat) : Bucket Key → Prop
  | Bucket.last _ => True
  | Bucket.link c o => c.length = N ∧ Bucket.Packed N o

/-- The call is not an `erase`. -/
def Op.notErase : Op Key → Bool
  | Op.erase _ => false
  | _ => true

/-- Example table with 2 slots per bucket and the identity hash: the keys 0..10 inserted in
ascending order (`d = 2`, `nextToSplit = 3`, seven buckets, room for eight). -/
def sampleSeven : ADS_set Nat :=
  ADS_set.mk [Bucket.last [0, 8], Bucket.last [1, 9], Bucket.last [2, 10],
    Bucket.last [3, 7], Bucket.last [4], Bucket.last [5], Bucket.last [6]] 2 3 8 11

/-- The calls that build `sampleHole`: with 2 slots per bucket and the identity hash, insert
0, 1, 2, 4, 3, 5, 9, 13 and erase 1. -/
def sampleHoleOps : List (Op Nat) :=
  [Op.insert 0, Op.insert 1, Op.insert 2, Op.insert 4, Op.insert 3, Op.insert 5, Op.insert 9,
   Op.insert 13, Op.erase 1]

/-- Example table built by `sampleHoleOps`: bucket 1 has the head segment [5], with a free slot
left by `erase(1)`, followed by the full overflow segment [9, 13]. -/
def sampleHole : ADS_set Nat :=
  ADS_set.mk [Bucket.last [0], Bucket.link [5] (Bucket.last [9, 13]), Bucket.last [2],
    Bucket.last [3], Bucket.last [4]] 2 1 6 7

/-- Example table with 18 slots per bucket and the identity hash: the keys 0..17 in the only
bucket, which is full, and no spare slot in the backing array. -/
def sampleFull : ADS_set Nat :=
  ADS_set.mk [Bucket.last (List.range 18)] 0 0 1 18

end Operations

/-! ## Chains -/

section ChainLemmas

variable {Key : Type} [DecidableEq Key]

theorem Bucket.place_spec (N : Nat) (hN : 0 < N) (key : Key) (b : Bucket Key)
    (hb : Bucket.Bounded N b) :
    ∃ r, b.place N key = some r ∧ Bucket.Bounded N r.1 ∧ List.Perm r.1.keys (key :: b.keys) := by
  induction b with
  | last c =>
    simp only [Bucket.Bounded] at hb
    by_cases hc : c.length = N
    · refine ⟨(Bucket.link c (Bucket.last [key]), true), ?_, ?_, ?_⟩
      · simp [Bucket.place, hc, hN]
      · simp [Bucket.Bounded, hc]; omega
      · simpa [Bucket.keys] using List.perm_append_singleton key c
    · have hlt : c.length < N := by omega
      refine ⟨(Bucket.last (c ++ [key]), false), ?_, ?_, ?_⟩
      · simp [Bucket.place, hc, hlt]
      · simp [Bucket.Bounded]; omega
      · simpa [Bucket.keys] using List.perm_append_singleton key c
  | link c o ih =>
    simp only [Bucket.Bounded] at hb
    by_cases hc : c.length = N
    · obtain ⟨r, hr, hbd, hperm⟩ := ih hb.2
      refine ⟨(Bucket.link c r.1, r.2), ?_, ?_, ?_⟩
      · simp [Bucket.place, hc, hr]
      · exact ⟨hb.1, hbd⟩
      · simp only [Bucket.keys]
        exact (List.Perm.append_left c hperm).trans List.perm_middle
    · have hlt : c.length < N := by omega
      refine ⟨(Bucket.link (c ++ [key]) o, false), ?_, ?_, ?_⟩
      · simp [Bucket.place, hc, hlt]
      · exact ⟨by simp; omega, hb.2⟩
      · simp only [Bucket.keys, List.append_assoc, List.singleton_append]
        exact List.perm_middle

theorem Bucket.scan_iff (key : Key) (b : Bucket Key) : b.scan key = true ↔ key ∈ b.keys := by
  induction b with
  | last c => simp [Bucket.scan, Bucket.keys]
  | link c o ih => simp [Bucket.scan, Bucket.keys, ih]

end ChainLemmas

/-! ## Addressing and the non-splitting insertion -/

section TableLemmas

variable {Key : Type} [DecidableEq Key]

theorem perm_flatMap_set {α β : Type} (f : α → List β) (l : List α) (i : Nat) (x y : α)
    (hx : l[i]? = some x) :
    List.Perm (f x ++ (l.set i y).flatMap f) (f y ++ l.flatMap f) := by
  induction l generalizing i with
  | nil => simp at hx
  | cons a l ih =>
    cases i with
    | zero =>
      simp only [List.getElem?_cons_zero, Option.some.injEq] at hx
      subst hx
      simpa using List.perm_append_comm_assoc (f a) (f y) (l.flatMap f)
    | succ i =>
      simp only [List.getElem?_cons_succ] at hx
      simp only [List.set_cons_succ, List.flatMap_cons]
      refine (List.perm_append_comm_assoc (f x) (f a) _).trans ?_
      refine (List.Perm.append_left (f a) (ih i hx)).trans ?_
      exact List.perm_append_comm_assoc (f a) (f y) _

theorem h_lt (hash : Key → Nat) (key : Key) (d : Nat) : h hash key d < 2 ^ d :=
  Nat.mod_lt _ (by positivity)

theorem h_succ (hash : Key → Nat) (key : Key) (d : Nat) :
    h hash key (d + 1) = h hash key d ∨ h hash key (d + 1) = h hash key d + 2 ^ d := by
  unfold h
  rw [Nat.mod_pow_succ]
  rcases Nat.mod_two_eq_zero_or_one (hash key / 2 ^ d) with h0 | h1
  · left; rw [h0]; simp
  · right; rw [h1]; simp

theorem h_succ_mod (hash : Key → Nat) (key : Key) (d : Nat) :
    h hash key (d + 1) % 2 ^ d = h hash key d := by
  unfold h
  rw [pow_succ]
  exact Nat.mod_mul_right_mod _ _ _

theorem resolve_congr (hash : Key → Nat) (t t1 : ADS_set Key) (key : Key)
    (hd : t1.d = t.d) (hn : t1.nextToSplit = t.nextToSplit) :
    resolve hash t1 key = resolve hash t key := by
  simp [resolve, hd, hn]

theorem resolve_lt (hash : Key → Nat) (t : ADS_set Key) (key : Key)
    (hs : t.table.length = 2 ^ t.d + t.nextToSplit) :
    resolve hash t key < t.table.length := by
  have h1 := h_lt hash key t.d
  unfold resolve
  split
  · rcases h_succ hash key t.d with e | e <;> omega
  · omega

theorem resolve_roundCheck (hash : Key → Nat) (t : ADS_set Key) (key : Key) :
    resolve hash (roundCheck t) key = resolve hash t key := by
  have h1 := h_lt hash key t.d
  unfold roundCheck
  split
  · rename_i heq
    simp only [resolve, heq, Nat.not_lt_zero, if_false, h1, if_true]
  · rfl

theorem allKeys_set (t : ADS_set Key) (i : Nat) (b b1 : Bucket Key) (hb : t.table[i]? = some b)
    (l : List Key) (hp : List.Perm b1.keys (l ++ b.keys)) :
    List.Perm (allKeys { t with table := t.table.set i b1 }) (l ++ allKeys t) := by
  have h1 := perm_flatMap_set Bucket.keys t.table i b b1 hb
  have h2 : List.Perm (b.keys ++ (t.table.set i b1).flatMap Bucket.keys)
      (b.keys ++ (l ++ t.table.flatMap Bucket.keys)) := by
    refine h1.trans ?_
    refine (List.Perm.append_right _ hp).trans ?_
    rw [List.append_assoc]
    exact List.perm_append_comm_assoc l b.keys _
  exact (List.perm_append_left_iff _).1 h2

theorem insert_noexcept_spec (N : Nat) (hN : 0 < N) (hash : Key → Nat) (t : ADS_set Key)
    (key : Key) (hm : Mid N hash t) :
    ∃ t1, insert_noexcept N hash t key = some t1 ∧ Mid N hash t1 ∧ t1.d = t.d ∧
      t1.nextToSplit = t.nextToSplit ∧ t1.allocSize = t.allocSize ∧
      t1.numElements = t.numElements ∧ t1.table.length = t.table.length ∧
      List.Perm (allKeys t1) (key :: allKeys t) := by
  have hlt := resolve_lt hash t key hm.size_eq
  obtain ⟨b, hb⟩ : ∃ b, t.table[resolve hash t key]? = some b :=
    ⟨t.table[resolve hash t key], List.getElem?_eq_getElem hlt⟩
  have hbm : b ∈ t.table := List.mem_iff_getElem?.2 ⟨_, hb⟩
  obtain ⟨r, hr, hbd, hperm⟩ := Bucket.place_spec N hN key b (hm.bounded b hbm)
  refine ⟨{ t with table := t.table.set (resolve hash t key) r.1 }, ?_, ?_, rfl, rfl, rfl, rfl,
    ?_, ?_⟩
  · simp [insert_noexcept, hb, hr]
  · refine ⟨by simpa using hm.size_eq, hm.cursor_le, ?_, ?_⟩
    · intro i b1 hi k hk
      change resolve hash t k = i
      simp only [List.getElem?_set] at hi
      split at hi
      · rename_i hai
        simp only [Option.some.injEq] at hi
        subst hi
        rcases (List.mem_cons.1 ((hperm.mem_iff).1 hk)) with e | e
        · rw [e]; exact hai
        · rw [← hai]; exact hm.home _ b hb k e
      · exact hm.home i b1 hi k hk
    · intro b1 hb1
      rcases List.mem_or_eq_of_mem_set hb1 with e | e
      · exact hm.bounded b1 e
      · rw [e]; exact hbd
  · simp
  · exact allKeys_set t _ b r.1 hb [key] (by simpa using hperm)

theorem foldlM_insert_noexcept (N : Nat) (hN : 0 < N) (hash : Key → Nat) (vals : List Key) :
    ∀ t : ADS_set Key, Mid N hash t →
    ∃ t1, vals.foldlM (insert_noexcept N hash) t = some t1 ∧ Mid N hash t1 ∧ t1.d = t.d ∧
      t1.nextToSplit = t.nextToSplit ∧ t1.allocSize = t.allocSize ∧
      t1.numElements = t.numElements ∧ t1.table.length = t.table.length ∧
      List.Perm (allKeys t1) (vals ++ allKeys t) := by
  induction vals with
  | nil => intro t hm; exact ⟨t, rfl, hm, rfl, rfl, rfl, rfl, rfl, List.Perm.refl _⟩
  | cons v vals ih =>
    intro t hm
    obtain ⟨t1, h1, hm1, hd1, hn1, ha1, hc1, hl1, hp1⟩ := insert_noexcept_spec N hN hash t v hm
    obtain ⟨t2, h2, hm2, hd2, hn2, ha2, hc2, hl2, hp2⟩ := ih t1 hm1
    refine ⟨t2, ?_, hm2, hd2.trans hd1, hn2.trans hn1, ha2.trans ha1, hc2.trans hc1,
      hl2.trans hl1, ?_⟩
    · simp [List.foldlM_cons, h1, h2]
    · refine hp2.trans ?_
      refine (List.Perm.append_left vals hp1).trans ?_
      simpa using List.perm_middle

/-! ## The split -/

theorem resolve_split (hash : Key → Nat) (t s : ADS_set Key) (k : Key) (hd : s.d = t.d)
    (hn : s.nextToSplit = t.nextToSplit + 1) (hne : resolve hash t k ≠ t.nextToSplit) :
    resolve hash s k = resolve hash t k := by
  unfold resolve at hne ⊢
  rw [hd, hn]
  by_cases h1 : h hash k t.d < t.nextToSplit
  · have h2 : h hash k t.d < t.nextToSplit + 1 := by omega
    simp [h1, h2]
  · simp only [h1, if_false] at hne
    have h2 : ¬ h hash k t.d < t.nextToSplit + 1 := by omega
    simp [h1, h2]

theorem split_start_mid (N : Nat) (hash : Key → Nat) (t : ADS_set Key) (A : Nat)
    (hm : Mid N hash t) (hlt : t.nextToSplit < 2 ^ t.d) :
    Mid N hash
      { t with
        table := t.table.set t.nextToSplit (Bucket.last []) ++ [Bucket.last []]
        nextToSplit := t.nextToSplit + 1
        allocSize := A } := by
  refine ⟨?_, ?_, ?_, ?_⟩
  · have := hm.size_eq
    simp only [List.length_append, List.length_set, List.length_singleton]
    omega
  · exact hlt
  · intro i b hi k hk
    simp only [List.getElem?_append, List.length_set] at hi
    split at hi
    · simp only [List.getElem?_set] at hi
      split at hi
      · split at hi
        · simp only [Option.some.injEq] at hi
          subst hi
          simp [Bucket.keys] at hk
        · simp at hi
      · rename_i hne
        have hh := hm.home i b hi k hk
        have hs := resolve_split hash t
          { t with
            table := t.table.set t.nextToSplit (Bucket.last []) ++ [Bucket.last []]
            nextToSplit := t.nextToSplit + 1
            allocSize := A } k rfl rfl (by rw [hh]; exact fun e => hne e.symm)
        rw [hs]
        exact hh
    · have : b = Bucket.last [] := by
        rcases List.mem_singleton.1 (List.mem_iff_getElem?.2 ⟨_, hi⟩) with e
        exact e
      subst this
      simp [Bucket.keys] at hk
  · intro b hb
    rcases List.mem_append.1 hb with e | e
    · rcases List.mem_or_eq_of_mem_set e with e1 | e1
      · exact hm.bounded b e1
      · subst e1; simp [Bucket.Bounded]
    · rw [List.mem_singleton.1 e]; simp [Bucket.Bounded]

theorem split_spec (N : Nat) (hN : 0 < N) (hash : Key → Nat) (t : ADS_set Key) (A : Nat)
    (hm : Mid N hash t) (hlt : t.nextToSplit < 2 ^ t.d) (rb : Bucket Key)
    (hrb : t.table[t.nextToSplit]? = some rb) :
    ∃ t1, rb.keys.foldlM (insert_noexcept N hash)
        { t with
          table := t.table.set t.nextToSplit (Bucket.last []) ++ [Bucket.last []]
          nextToSplit := t.nextToSplit + 1
          allocSize := A } = some t1 ∧
      Mid N hash t1 ∧ t1.d = t.d ∧ t1.nextToSplit = t.nextToSplit + 1 ∧ t1.allocSize = A ∧
      t1.numElements = t.numElements ∧ t1.table.length = t.table.length + 1 ∧
      List.Perm (allKeys t1) (allKeys t) := by
  obtain ⟨t1, h1, hm1, hd1, hn1, ha1, hc1, hl1, hp1⟩ :=
    foldlM_insert_noexcept N hN hash rb.keys _ (split_start_mid N hash t A hm hlt)
  refine ⟨t1, h1, hm1, hd1, hn1, ha1, hc1, ?_, ?_⟩
  · rw [hl1]; simp
  · refine hp1.trans ?_
    have h2 := perm_flatMap_set Bucket.keys t.table t.nextToSplit rb (Bucket.last []) hrb
    simpa [allKeys, Bucket.keys] using h2

theorem rehash_spec (N : Nat) (hN : 0 < N) (hash : Key → Nat) (t : ADS_set Key)
    (hm : Mid N hash t) (hlt : t.nextToSplit < 2 ^ t.d) (hal : t.table.length ≤ t.allocSize) :
    ∃ t1, rehash N hash t = some t1 ∧
      Mid N hash t1 ∧ t1.d = t.d ∧ t1.nextToSplit = t.nextToSplit + 1 ∧
      t1.allocSize = newAllocSize t.allocSize ∧
      t1.numElements = t.numElements ∧ t1.table.length = t.table.length + 1 ∧
      List.Perm (allKeys t1) (allKeys t) := by
  have hlen : t.nextToSplit < t.table.length := by have := hm.size_eq; omega
  have hrb : t.table[t.nextToSplit]? = some t.table[t.nextToSplit] :=
    List.getElem?_eq_getElem hlen
  obtain ⟨t1, h1, rest⟩ := split_spec N hN hash t (newAllocSize t.allocSize) hm hlt _ hrb
  refine ⟨t1, ?_, rest⟩
  have hne : t.table.length ≠ 0 := by omega
  have hroom : t.table.length < newAllocSize t.allocSize := by
    unfold newAllocSize; omega
  simp only [rehash, hne, if_false, hroom, if_true, hrb]
  exact h1

theorem rehash_noalloc_spec (N : Nat) (hN : 0 < N) (hash : Key → Nat) (t : ADS_set Key)
    (hm : Mid N hash t) (hlt : t.nextToSplit < 2 ^ t.d) (hroom : t.table.length < t.allocSize) :
    ∃ t1, rehash_noalloc N hash t = some t1 ∧
      Mid N hash t1 ∧ t1.d = t.d ∧ t1.nextToSplit = t.nextToSplit + 1 ∧
      t1.allocSize = t.allocSize ∧
      t1.numElements = t.numElements ∧ t1.table.length = t.table.length + 1 ∧
      List.Perm (allKeys t1) (allKeys t) := by
  have hlen : t.nextToSplit < t.table.length := by have := hm.size_eq; omega
  have hrb : t.table[t.nextToSplit]? = some t.table[t.nextToSplit] :=
    List.getElem?_eq_getElem hlen
  obtain ⟨t1, h1, rest⟩ := split_spec N hN hash t t.allocSize hm hlt _ hrb
  refine ⟨t1, ?_, rest⟩
  have e1 : (t.table ++ [Bucket.last []])[t.nextToSplit]? = some t.table[t.nextToSplit] := by
    rw [List.getElem?_append_left hlen]; exact hrb
  have e2 : (t.table ++ [Bucket.last []]).set t.nextToSplit (Bucket.last []) =
      t.table.set t.nextToSplit (Bucket.last []) ++ [Bucket.last []] := by
    rw [List.set_append]; simp [hlen]
  simp only [rehash_noalloc, hroom, if_true, e1, e2]
  exact h1

/-! ## `insert_` -/

theorem roundCheck_spec (N : Nat) (hash : Key → Nat) (t : ADS_set Key) (hm : Mid N hash t) :
    Mid N hash (roundCheck t) ∧ (roundCheck t).nextToSplit < 2 ^ (roundCheck t).d ∧
      (roundCheck t).table = t.table ∧ (roundCheck t).allocSize = t.allocSize ∧
      (roundCheck t).numElements = t.numElements := by
  have hr : ∀ k, resolve hash (roundCheck t) k = resolve hash t k :=
    fun k => resolve_roundCheck hash t k
  have hs := hm.size_eq
  have hc := hm.cursor_le
  by_cases he : t.nextToSplit = 2 ^ t.d
  · have e : roundCheck t = { t with d := t.d + 1, nextToSplit := 0 } := by
      simp [roundCheck, he]
    refine ⟨⟨?_, ?_, ?_, ?_⟩, ?_, ?_, ?_, ?_⟩
    · rw [e]; simp only [pow_succ]; omega
    · rw [e]; simp
    · intro i b hi k hk
      rw [hr k]
      rw [e] at hi
      exact hm.home i b hi k hk
    · rw [e]; exact hm.bounded
    · rw [e]; simp
    · rw [e]
    · rw [e]
    · rw [e]
  · have e : roundCheck t = t := by simp [roundCheck, he]
    rw [e]
    exact ⟨hm, by omega, rfl, rfl, rfl⟩

theorem Inv.mid {N : Nat} {hash : Key → Nat} {t : ADS_set Key} (hi : Inv N hash t)
    (hne : t.table.length ≠ 0) :
    Mid N hash t ∧ t.nextToSplit < 2 ^ t.d ∧ t.table.length ≤ t.allocSize := by
  rcases hi.shape with e | ⟨h1, h2, h3⟩
  · rw [e] at hne; simp [ADS_set.init] at hne
  · exact ⟨⟨h1, by omega, hi.home, hi.bounded⟩, h2, h3⟩

theorem Inv.eq_init {N : Nat} {hash : Key → Nat} {t : ADS_set Key} (hi : Inv N hash t)
    (he : t.table.length = 0) : t = ADS_set.init := by
  rcases hi.shape with e | ⟨h1, _, _⟩
  · exact e
  · have : 0 < 2 ^ t.d := by positivity
    omega

theorem newAllocSize_gt (a : Nat) : a < newAllocSize a := by
  unfold newAllocSize; omega

theorem insert__spec (N : Nat) (hN : 0 < N) (hash : Key → Nat) (t : ADS_set Key) (key : Key)
    (hi : Inv N hash t) :
    ∃ t1, insert_ N hash t key = some t1 ∧ Mid N hash t1 ∧ t1.nextToSplit < 2 ^ t1.d ∧
      t1.table.length ≤ t1.allocSize ∧ t1.numElements = t.numElements ∧
      List.Perm (allKeys t1) (key :: allKeys t) := by
  by_cases he : t.table.length = 0
  · have e := hi.eq_init he
    subst e
    refine ⟨{ table := [Bucket.last [key]], d := 0, nextToSplit := 0, allocSize := 1,
              numElements := 0 }, ?_, ⟨?_, ?_, ?_, ?_⟩, ?_, ?_, ?_, ?_⟩
    · simp [insert_, rehash, ADS_set.init, resolve, h, Nat.mod_one, Bucket.contents, hN,
        roundCheck, newAllocSize]
    · simp
    · simp
    · intro i b hb k _
      have hlt : i < 1 := by
        by_contra hc
        have : ([Bucket.last [key]] : List (Bucket Key))[i]? = none :=
          List.getElem?_eq_none (by simp; omega)
        simp only at hb
        rw [this] at hb
        exact absurd hb (by simp)
      have : i = 0 := by omega
      subst this
      simp [resolve, h, Nat.mod_one]
    · intro b hb
      simp only [List.mem_singleton] at hb
      subst hb
      simp [Bucket.Bounded]; omega
    · simp
    · simp
    · rfl
    · simp [allKeys, ADS_set.init, Bucket.keys]
  · obtain ⟨hm, hlt, hal⟩ := hi.mid he
    have hres := resolve_lt hash t key hm.size_eq
    obtain ⟨b, hb⟩ : ∃ b, t.table[resolve hash t key]? = some b :=
      ⟨t.table[resolve hash t key], List.getElem?_eq_getElem hres⟩
    obtain ⟨r, hr, _, _⟩ :=
      Bucket.place_spec N hN key b (hm.bounded b (List.mem_iff_getElem?.2 ⟨_, hb⟩))
    obtain ⟨t0, h0, hm0, hd0, hn0, ha0, hc0, hl0, hp0⟩ := insert_noexcept_spec N hN hash t key hm
    have e0 : t0 = { t with table := t.table.set (resolve hash t key) r.1 } := by
      simp only [insert_noexcept, hb, hr, Option.some.injEq] at h0
      exact h0.symm
    by_cases hf : r.2 = true
    · have hlt0 : t0.nextToSplit < 2 ^ t0.d := by rw [hn0, hd0]; exact hlt
      by_cases hroom : t.table.length + 1 ≤ t.allocSize
      · obtain ⟨t2, h2, hm2, hd2, hn2, ha2, hc2, hl2, hp2⟩ :=
          rehash_noalloc_spec N hN hash t0 hm0 hlt0 (by rw [hl0, ha0]; omega)
        obtain ⟨hm3, hlt3, htab3, ha3, hc3⟩ := roundCheck_spec N hash t2 hm2
        refine ⟨roundCheck t2, ?_, hm3, hlt3, ?_, ?_, ?_⟩
        · rw [e0] at h2
          simp only [insert_, he, if_false, hb, hr, hf, if_true, hroom, h2]
        · rw [htab3, ha3, hl2, ha2, hl0, ha0]; exact hroom
        · rw [hc3, hc2, hc0]
        · simp only [allKeys, htab3]
          exact hp2.trans hp0
      · obtain ⟨t2, h2, hm2, hd2, hn2, ha2, hc2, hl2, hp2⟩ :=
          rehash_spec N hN hash t0 hm0 hlt0 (by rw [hl0, ha0]; exact hal)
        obtain ⟨hm3, hlt3, htab3, ha3, hc3⟩ := roundCheck_spec N hash t2 hm2
        refine ⟨roundCheck t2, ?_, hm3, hlt3, ?_, ?_, ?_⟩
        · rw [e0] at h2
          simp only [insert_, he, if_false, hb, hr, hf, if_true, hroom, h2]
        · rw [htab3, ha3, hl2, ha2, hl0, ha0]
          have := newAllocSize_gt t.allocSize
          omega
        · rw [hc3, hc2, hc0]
        · simp only [allKeys, htab3]
          exact hp2.trans hp0
    · refine ⟨t0, ?_, hm0, by rw [hn0, hd0]; exact hlt, by rw [hl0, ha0]; exact hal, hc0, hp0⟩
      rw [e0]
      simp only [insert_, he, if_false, hb, hr, hf]
      simp

end TableLemmas

/-! ## Lookups -/

section LookupLemmas

variable {Key : Type} [DecidableEq Key]

theorem lastHit_absent (key : Key) (j : Nat) :
    ∀ (xs : List Key) (i0 : Nat) (acc : Option (Nat × Nat)), key ∉ xs →
      lastHit key j xs i0 acc = acc := by
  intro xs
  induction xs with
  | nil => intro i0 acc _; rfl
  | cons x xs ih =>
    intro i0 acc hk
    simp only [List.mem_cons, not_or] at hk
    have hx : ¬ x = key := fun e => hk.1 e.symm
    simp only [lastHit, hx, if_false]
    exact ih _ _ hk.2

theorem lastHit_nodup (key : Key) (j : Nat) :
    ∀ (xs : List Key) (i0 : Nat) (acc : Option (Nat × Nat)), xs.Nodup → key ∈ xs →
      lastHit key j xs i0 acc = some (j, i0 + xs.indexOf key) := by
  intro xs
  induction xs with
  | nil => intro i0 acc _ hk; simp at hk
  | cons x xs ih =>
    intro i0 acc hn hk
    rw [List.nodup_cons] at hn
    by_cases hx : x = key
    · subst hx
      simp only [lastHit, if_true]
      rw [lastHit_absent x j xs _ _ hn.1]
      simp
    · have hk2 : key ∈ xs := by
        rcases List.mem_cons.1 hk with e | e
        · exact absurd e.symm hx
        · exact e
      simp only [lastHit, hx, if_false]
      rw [ih _ _ hn.2 hk2, List.indexOf_cons_ne _ hx]
      congr 2
      omega

theorem Bucket.findLoop_absent (key : Key) (b : Bucket Key) :
    ∀ (j : Nat) (acc : Option (Nat × Nat)), key ∉ b.keys → b.findLoop key j acc = acc := by
  induction b with
  | last c =>
    intro j acc hk
    simp only [Bucket.keys] at hk
    simp only [Bucket.findLoop]
    exact lastHit_absent key j c 0 acc hk
  | link c o ih =>
    intro j acc hk
    simp only [Bucket.keys, List.mem_append, not_or] at hk
    simp only [Bucket.findLoop]
    rw [lastHit_absent key j c 0 acc hk.1]
    exact ih _ _ hk.2

theorem Bucket.scan_pos (key : Key) (b : Bucket Key) :
    ∀ (j0 : Nat) (acc : Option (Nat × Nat)), b.keys.Nodup → key ∈ b.keys →
      ∃ j i seg, b.scanSegment key j0 = some (j0 + j) ∧ b.scanIndex key = some i ∧
        b.findLoop key j0 acc = some (j0 + j, i) ∧ b.segments[j]? = some seg ∧
        seg[i]? = some key ∧ seg.Nodup := by
  induction b with
  | last c =>
    intro j0 acc hn hk
    simp only [Bucket.keys] at hn hk
    refine ⟨0, c.indexOf key, c, ?_, ?_, ?_, ?_, ?_, hn⟩
    · simp [Bucket.scanSegment, hk]
    · simp [Bucket.scanIndex, hk]
    · simp only [Bucket.findLoop]
      rw [lastHit_nodup key j0 c 0 acc hn hk]
      simp
    · simp [Bucket.segments]
    · rw [List.getElem?_eq_getElem (List.indexOf_lt_length.2 hk)]
      simp
  | link c o ih =>
    intro j0 acc hn hk
    simp only [Bucket.keys] at hn hk
    have hnc : c.Nodup := (List.nodup_append.1 hn).1
    have hno : o.keys.Nodup := (List.nodup_append.1 hn).2.1
    have hdis := (List.nodup_append.1 hn).2.2
    by_cases hc : key ∈ c
    · have hko : key ∉ o.keys := fun e => hdis hc e
      refine ⟨0, c.indexOf key, c, ?_, ?_, ?_, ?_, ?_, hnc⟩
      · simp [Bucket.scanSegment, hc]
      · simp [Bucket.scanIndex, hc]
      · simp only [Bucket.findLoop]
        rw [lastHit_nodup key j0 c 0 acc hnc hc, Bucket.findLoop_absent key o _ _ hko]
        simp
      · simp [Bucket.segments]
      · rw [List.getElem?_eq_getElem (List.indexOf_lt_length.2 hc)]
        simp
    · have hko : key ∈ o.keys := by
        rcases List.mem_append.1 hk with e | e
        · exact absurd e hc
        · exact e
      obtain ⟨j, i, c1, h1, h2, h3, h4, h5, h6⟩ := ih (j0 + 1) acc hno hko
      refine ⟨j + 1, i, c1, ?_, ?_, ?_, ?_, h5, h6⟩
      · simp only [Bucket.scanSegment, hc, if_false, h1]
        congr 1; omega
      · simp only [Bucket.scanIndex, hc, if_false, h2]
      · simp only [Bucket.findLoop]
        rw [lastHit_absent key j0 c 0 acc hc, h3]
        congr 2; omega
      · simpa [Bucket.segments] using h4

theorem allKeys_nil_of_length (t : ADS_set Key) (h0 : t.table.length = 0) : allKeys t = [] := by
  have : t.table = [] := List.length_eq_zero.1 h0
  simp [allKeys, this]

theorem mem_allKeys_iff (hash : Key → Nat) (t : ADS_set Key) (k : Key) (b : Bucket Key)
    (hhome : ∀ (i : Nat) (b : Bucket Key), t.table[i]? = some b →
      ∀ k ∈ b.keys, resolve hash t k = i)
    (hb : t.table[resolve hash t k]? = some b) : k ∈ allKeys t ↔ k ∈ b.keys := by
  constructor
  · intro hk
    obtain ⟨b1, hb1, hk1⟩ := List.mem_flatMap.1 hk
    obtain ⟨i, hi⟩ := List.mem_iff_getElem?.1 hb1
    have := hhome i b1 hi k hk1
    rw [this] at hb
    rw [hi] at hb
    simp only [Option.some.injEq] at hb
    rw [← hb]; exact hk1
  · intro hk
    exact List.mem_flatMap.2 ⟨b, List.mem_iff_getElem?.2 ⟨_, hb⟩, hk⟩

theorem Inv.bucket_nodup {N : Nat} {hash : Key → Nat} {t : ADS_set Key} (hi : Inv N hash t)
    (b : Bucket Key) (hb : b ∈ t.table) : b.keys.Nodup :=
  (List.nodup_flatMap.1 hi.nodup).1 b hb

theorem Inv.row {N : Nat} {hash : Key → Nat} {t : ADS_set Key} (hi : Inv N hash t)
    (hne : t.table.length ≠ 0) (k : Key) :
    ∃ b, t.table[resolve hash t k]? = some b ∧ b ∈ t.table ∧
      (k ∈ allKeys t ↔ k ∈ b.keys) := by
  obtain ⟨hm, _, _⟩ := hi.mid hne
  have hres := resolve_lt hash t k hm.size_eq
  have hb : t.table[resolve hash t k]? = some t.table[resolve hash t k] :=
    List.getElem?_eq_getElem hres
  exact ⟨_, hb, List.mem_iff_getElem?.2 ⟨_, hb⟩, mem_allKeys_iff hash t k _ hi.home hb⟩

theorem find__spec (N : Nat) (hash : Key → Nat) (t : ADS_set Key) (k : Key)
    (hi : Inv N hash t) :
    find_ hash t k = some (if k ∈ allKeys t then some (resolve hash t k, 0) else none) := by
  by_cases h0 : t.numElements = 0
  · have : allKeys t = [] := List.length_eq_zero.1 (by rw [← hi.num]; exact h0)
    simp [find_, h0, this]
  · by_cases h1 : t.table.length = 0
    · simp [find_, h1, allKeys_nil_of_length t h1]
    · obtain ⟨b, hb, _, hiff⟩ := hi.row h1 k
      simp only [find_, h0, h1, or_self, if_false, hb, Bucket.scan_iff, hiff]

theorem count_spec (N : Nat) (hash : Key → Nat) (t : ADS_set Key) (k : Key)
    (hi : Inv N hash t) :
    count hash t k = some (if k ∈ allKeys t then 1 else 0) := by
  rw [count, find__spec N hash t k hi]
  by_cases hk : k ∈ allKeys t <;> simp [hk]

theorem lookup_present (N : Nat) (hash : Key → Nat) (t : ADS_set Key) (k : Key)
    (hi : Inv N hash t) (hk : k ∈ allKeys t) :
    ∃ (b : Bucket Key) (j i : Nat) (seg : List Key),
      t.table[resolve hash t k]? = some b ∧ b.segments[j]? = some seg ∧
      seg[i]? = some k ∧ seg.Nodup ∧
      b.scanSegment k 0 = some j ∧
      find_ofb hash t k = some (some (resolve hash t k, j)) ∧
      find_row hash t k = some (resolve hash t k : Int) ∧
      find_idx hash t k = some (i : Int) ∧
      find hash t k = some { elem := some k, currentBucket := some (resolve hash t k, j),
                             arrIndex := (resolve hash t k : Int), elemIndex := (i : Int) } := by
  have hlen : 0 < (allKeys t).length := List.length_pos_of_mem hk
  have h0 : t.numElements ≠ 0 := by rw [hi.num]; omega
  have h1 : t.table.length ≠ 0 := by
    intro e
    rw [allKeys_nil_of_length t e] at hk
    simp at hk
  obtain ⟨b, hb, hbm, hiff⟩ := hi.row h1 k
  have hkb : k ∈ b.keys := hiff.1 hk
  obtain ⟨j, i, seg, e1, e2, e3, e4, e5, e6⟩ :=
    Bucket.scan_pos k b 0 none (hi.bucket_nodup b hbm) hkb
  simp only [Nat.zero_add] at e1 e3
  refine ⟨b, j, i, seg, hb, e4, e5, e6, e1, ?_, ?_, ?_, ?_⟩
  · simp [find_ofb, h0, hb, e1]
  · simp [find_row, h0, hb, (Bucket.scan_iff k b).2 hkb]
  · simp [find_idx, h0, hb, e2]
  · simp [find, count_spec N hash t k hi, hk, hb, e3]

theorem find_absent (N : Nat) (hash : Key → Nat) (t : ADS_set Key) (k : Key)
    (hi : Inv N hash t) (hk : k ∉ allKeys t) : find hash t k = some (end_ t) := by
  simp [find, count_spec N hash t k hi, hk]

theorem insert_present (N : Nat) (hash : Key → Nat) (t : ADS_set Key) (k : Key)
    (hi : Inv N hash t) (hk : k ∈ allKeys t) :
    ∃ it, insert N hash t k = some (t, it, false) ∧ find hash t k = some it := by
  obtain ⟨b, j, i, seg, _, _, _, _, _, _, _, _, hf⟩ := lookup_present N hash t k hi hk
  exact ⟨_, by simp [insert, count_spec N hash t k hi, hk, hf], hf⟩

theorem insert_absent (N : Nat) (hN : 0 < N) (hash : Key → Nat) (t : ADS_set Key) (k : Key)
    (hi : Inv N hash t) (hk : k ∉ allKeys t) :
    ∃ t1 it, insert N hash t k = some (t1, it, true) ∧ Inv N hash t1 ∧
      List.Perm (allKeys t1) (k :: allKeys t) ∧ t1.numElements = t.numElements + 1 ∧
      find hash t1 k = some it := by
  obtain ⟨t0, h0, hm0, hlt0, hal0, hc0, hp0⟩ := insert__spec N hN hash t k hi
  have hinv : Inv N hash { t0 with numElements := t0.numElements + 1 } := by
    refine ⟨Or.inr ⟨hm0.size_eq, hlt0, hal0⟩, fun i b hb k hk => hm0.home i b hb k hk,
      hm0.bounded, ?_, ?_⟩
    · change (allKeys t0).Nodup
      exact hp0.nodup_iff.2 (List.nodup_cons.2 ⟨hk, hi.nodup⟩)
    · change t0.numElements + 1 = (allKeys t0).length
      rw [hp0.length_eq, hc0, hi.num]
      simp
  have hp1 : List.Perm (allKeys { t0 with numElements := t0.numElements + 1 })
      (k :: allKeys t) := hp0
  have hk1 : k ∈ allKeys { t0 with numElements := t0.numElements + 1 } :=
    hp1.mem_iff.2 (List.mem_cons_self _ _)
  obtain ⟨b, j, i, seg, _, _, _, _, _, f1, f2, f3, f4⟩ := lookup_present N hash _ k hinv hk1
  refine ⟨_, _, ?_, hinv, hp1, ?_, f4⟩
  · simp only [insert, count_spec N hash t k hi, hk, if_false, h0]
    simp only [f1, f2, f3]
    simp
  · simp [hc0]

end LookupLemmas

/-! ## `erase` -/

section EraseLemmas

variable {Key : Type} [DecidableEq Key]

theorem eraseLoop_state (key : Key) (l : List Key) (p : Nat) (hp : l[p]? = some key)
    (huniq : ∀ m, l[m]? = some key → m = p) :
    ∀ m, m ≤ l.length →
      ((List.range m).foldl (eraseStep key) (l, false)).2 = decide (p < m) ∧
      ((List.range m).foldl (eraseStep key) (l, false)).1.length = l.length ∧
      ∀ j, ((List.range m).foldl (eraseStep key) (l, false)).1[j]? =
        if p ≤ j ∧ j + 1 < m then l[j + 1]? else l[j]? := by
  intro m
  induction m with
  | zero => intro _; simp
  | succ m ih =>
    intro hm
    obtain ⟨ih1, ih2, ih3⟩ := ih (by omega)
    rw [List.range_succ, List.foldl_append]
    simp only [List.foldl_cons, List.foldl_nil]
    generalize (List.range m).foldl (eraseStep key) (l, false) = st at ih1 ih2 ih3
    have hm1 : m < l.length := by omega
    have hsm : st.1[m]? = some l[m] := by
      rw [ih3 m]
      have : ¬ (p ≤ m ∧ m + 1 < m) := by omega
      simp only [this, if_false]
      exact List.getElem?_eq_getElem hm1
    unfold eraseStep
    simp only [hsm]
    by_cases hx : l[m] = key
    · have hmp : m = p := huniq m (by rw [List.getElem?_eq_getElem hm1, hx])
      simp only [hx, if_true]
      refine ⟨by simp [hmp], ih2, ?_⟩
      intro j
      rw [ih3 j]
      have c1 : ¬ (p ≤ j ∧ j + 1 < m) := by omega
      have c2 : ¬ (p ≤ j ∧ j + 1 < m + 1) := by omega
      simp only [c1, c2, if_false]
    · simp only [hx, if_false]
      have hmp : m ≠ p := by
        intro e
        rw [← e, List.getElem?_eq_getElem hm1] at hp
        exact hx (Option.some.inj hp)
      obtain ⟨arr, fl⟩ := st
      cases fl with
      | false =>
        simp only [if_true]
        have hpm : ¬ p < m := by
          intro hlt
          simp [hlt] at ih1
        refine ⟨by symm; simp; omega, ih2, ?_⟩
        intro j
        rw [ih3 j]
        have c1 : ¬ (p ≤ j ∧ j + 1 < m) := by omega
        have c2 : ¬ (p ≤ j ∧ j + 1 < m + 1) := by omega
        simp only [c1, c2, if_false]
      | true =>
        simp only [Bool.true_eq_false, if_false]
        have hpm : p < m := by
          by_contra hc
          simp [hc] at ih1
        simp only at ih2 ih3 hsm
        refine ⟨by symm; simp; omega, by simp [ih2], ?_⟩
        intro j
        rw [List.getElem?_set]
        by_cases hj : m - 1 = j
        · have c1 : m - 1 < arr.length := by omega
          have c2 : p ≤ j ∧ j + 1 < m + 1 := by omega
          have c3 : j + 1 = m := by omega
          simp only [hj, if_true, c2, and_self]
          rw [← hj] at *
          simp only [c1, if_true, c3]
          exact (List.getElem?_eq_getElem hm1).symm
        · simp only [hj, if_false]
          rw [ih3 j]
          by_cases c1 : p ≤ j ∧ j + 1 < m
          · have c2 : p ≤ j ∧ j + 1 < m + 1 := by omega
            simp only [c1, c2, and_self, if_true]
          · have c2 : ¬ (p ≤ j ∧ j + 1 < m + 1) := by omega
            simp only [c1, c2, if_false]

theorem eraseSlots_eq_erase (key : Key) (l : List Key) (hn : l.Nodup) (hk : key ∈ l) :
    eraseSlots key l = l.erase key := by
  have hlt : l.indexOf key < l.length := List.indexOf_lt_length.2 hk
  have hp : l[l.indexOf key]? = some key := by
    rw [List.getElem?_eq_getElem hlt, List.getElem_indexOf hlt]
  have huniq : ∀ m, l[m]? = some key → m = l.indexOf key := by
    intro m hm
    obtain ⟨h1, h2⟩ := List.getElem?_eq_some.1 hm
    rw [← h2]
    exact (List.indexOf_getElem hn m h1).symm
  obtain ⟨_, e2, e3⟩ := eraseLoop_state key l _ hp huniq l.length (le_refl _)
  rw [← List.eraseIdx_indexOf_eq_erase]
  apply List.ext_getElem?
  intro j
  unfold eraseSlots eraseLoop
  rw [List.getElem?_dropLast, List.getElem?_eraseIdx, e2, e3 j]
  by_cases h1 : j < l.length - 1
  · by_cases h2 : j < l.indexOf key
    · have c : ¬ (l.indexOf key ≤ j ∧ j + 1 < l.length) := by omega
      simp only [h1, h2, c, if_true, if_false]
    · have c : l.indexOf key ≤ j ∧ j + 1 < l.length := by omega
      simp only [h1, h2, c, and_self, if_true, if_false]
  · have h2 : ¬ j < l.indexOf key := by omega
    simp only [h1, h2, if_false]
    exact (List.getElem?_eq_none (by omega)).symm

theorem eraseStep_length (key : Key) (st : List Key × Bool) (i : Nat) :
    (eraseStep key st i).1.length = st.1.length := by
  unfold eraseStep
  split
  · rfl
  · split
    · rfl
    · split
      · rfl
      · simp

theorem eraseLoop_length (key : Key) (l : List Key) : (eraseLoop key l).1.length = l.length := by
  unfold eraseLoop
  have : ∀ (is : List Nat) (st : List Key × Bool),
      (is.foldl (eraseStep key) st).1.length = st.1.length := by
    intro is
    induction is with
    | nil => intro st; rfl
    | cons i is ih => intro st; rw [List.foldl_cons, ih, eraseStep_length]
  exact this _ _

theorem eraseSlots_length_le (key : Key) (l : List Key) :
    (eraseSlots key l).length ≤ l.length := by
  unfold eraseSlots
  rw [List.length_dropLast, eraseLoop_length]
  omega

theorem Bucket.modifySegment_bounded (N : Nat) (f : List Key → List Key)
    (hf : ∀ l, (f l).length ≤ l.length) (b : Bucket Key) :
    ∀ j, Bucket.Bounded N b → Bucket.Bounded N (b.modifySegment f j) := by
  induction b with
  | last c =>
    intro j hb
    cases j with
    | zero => simp only [Bucket.modifySegment, Bucket.Bounded] at hb ⊢; have := hf c; omega
    | succ j => exact hb
  | link c o ih =>
    intro j hb
    cases j with
    | zero =>
      simp only [Bucket.modifySegment, Bucket.Bounded] at hb ⊢
      exact ⟨by have := hf c; omega, hb.2⟩
    | succ j =>
      simp only [Bucket.modifySegment, Bucket.Bounded] at hb ⊢
      exact ⟨hb.1, ih j hb.2⟩

theorem Bucket.modifySegment_erase (key : Key) (b : Bucket Key) :
    ∀ j0 j1, b.keys.Nodup → b.scanSegment key j0 = some j1 →
      j0 ≤ j1 ∧ (b.modifySegment (eraseSlots key) (j1 - j0)).keys = b.keys.erase key := by
  induction b with
  | last c =>
    intro j0 j1 hn hs
    simp only [Bucket.keys] at hn
    simp only [Bucket.scanSegment] at hs
    split at hs
    · rename_i hc
      simp only [Option.some.injEq] at hs
      subst hs
      simp [Bucket.modifySegment, Bucket.keys, eraseSlots_eq_erase key c hn hc]
    · simp at hs
  | link c o ih =>
    intro j0 j1 hn hs
    simp only [Bucket.keys] at hn
    have hnc : c.Nodup := (List.nodup_append.1 hn).1
    have hno : o.keys.Nodup := (List.nodup_append.1 hn).2.1
    simp only [Bucket.scanSegment] at hs
    split at hs
    · rename_i hc
      simp only [Option.some.injEq] at hs
      subst hs
      simp [Bucket.modifySegment, Bucket.keys, eraseSlots_eq_erase key c hnc hc,
        List.erase_append_left _ hc]
    · rename_i hc
      obtain ⟨hle, he⟩ := ih (j0 + 1) j1 hno hs
      refine ⟨by omega, ?_⟩
      have : j1 - j0 = (j1 - (j0 + 1)) + 1 := by omega
      rw [this]
      simp only [Bucket.modifySegment, Bucket.keys, he, List.erase_append_right _ hc]

theorem erase_absent (N : Nat) (hash : Key → Nat) (t : ADS_set Key) (k : Key)
    (hi : Inv N hash t) (hk : k ∉ allKeys t) : erase hash t k = some (t, 0) := by
  simp [erase, count_spec N hash t k hi, hk]

theorem erase_present (N : Nat) (hash : Key → Nat) (t : ADS_set Key) (k : Key)
    (hi : Inv N hash t) (hk : k ∈ allKeys t) :
    ∃ t1, erase hash t k = some (t1, 1) ∧ Inv N hash t1 ∧
      List.Perm (k :: allKeys t1) (allKeys t) ∧ t1.numElements + 1 = t.numElements ∧
      t1.d = t.d ∧ t1.nextToSplit = t.nextToSplit ∧ t1.allocSize = t.allocSize ∧
      t1.table.length = t.table.length := by
  obtain ⟨b, j, i, seg, hb, _, _, _, hs, hofb, _, _, _⟩ := lookup_present N hash t k hi hk
  have hbm : b ∈ t.table := List.mem_iff_getElem?.2 ⟨_, hb⟩
  have hkb : k ∈ b.keys := (mem_allKeys_iff hash t k b hi.home hb).1 hk
  have hbn := hi.bucket_nodup b hbm
  obtain ⟨_, hkeys⟩ := Bucket.modifySegment_erase k b 0 j hbn hs
  simp only [Nat.sub_zero] at hkeys
  have hperm : List.Perm (k :: allKeys { t with
      table := t.table.set (resolve hash t k) (b.modifySegment (eraseSlots k) j)
      numElements := t.numElements - 1 }) (allKeys t) := by
    have h1 := perm_flatMap_set Bucket.keys t.table (resolve hash t k) b
      (b.modifySegment (eraseSlots k) j) hb
    rw [hkeys] at h1
    have h2 : List.Perm (b.keys.erase k ++ (k :: (t.table.set (resolve hash t k)
        (b.modifySegment (eraseSlots k) j)).flatMap Bucket.keys))
        (b.keys.erase k ++ t.table.flatMap Bucket.keys) := by
      refine List.perm_middle.trans ?_
      refine List.Perm.trans ?_ h1
      have h3 : List.Perm (k :: b.keys.erase k) b.keys := (List.perm_cons_erase hkb).symm
      simpa using List.Perm.append_right _ h3
    exact (List.perm_append_left_iff _).1 h2
  have hlen : (allKeys t).length = (allKeys { t with
      table := t.table.set (resolve hash t k) (b.modifySegment (eraseSlots k) j)
      numElements := t.numElements - 1 }).length + 1 := by
    rw [← hperm.length_eq]; simp
  have hne : t.table.length ≠ 0 := by
    intro e
    rw [allKeys_nil_of_length t e] at hk
    simp at hk
  obtain ⟨hm, hlt, hal⟩ := hi.mid hne
  refine ⟨_, ?_, ⟨?_, ?_, ?_, ?_, ?_⟩, hperm, ?_, rfl, rfl, rfl, ?_⟩
  · simp [erase, count_spec N hash t k hi, hk, hofb, hb]
  · exact Or.inr ⟨by simpa using hm.size_eq, hlt, by simpa using hal⟩
  · intro i1 b1 hb1 k1 hk1
    change resolve hash t k1 = i1
    simp only [List.getElem?_set] at hb1
    split at hb1
    · rename_i hai
      split at hb1
      · simp only [Option.some.injEq] at hb1
        subst hb1
        rw [hkeys] at hk1
        rw [← hai]
        exact hi.home _ b hb k1 (List.mem_of_mem_erase hk1)
      · simp at hb1
    · exact hi.home i1 b1 hb1 k1 hk1
  · intro b1 hb1
    rcases List.mem_or_eq_of_mem_set hb1 with e | e
    · exact hi.bounded b1 e
    · rw [e]
      exact Bucket.modifySegment_bounded N _ (eraseSlots_length_le k) b j (hi.bounded b hbm)
  · exact (List.nodup_cons.1 (hperm.nodup_iff.2 hi.nodup)).2
  · have := hi.num
    simp only
    omega
  · have := hi.num
    simp only
    omega
  · simp

end EraseLemmas

/-! ## Reachable tables satisfy the invariant -/

section ReachableLemmas

variable {Key : Type} [DecidableEq Key]

theorem inv_init (N : Nat) (hash : Key → Nat) : Inv N hash (ADS_set.init : ADS_set Key) := by
  refine ⟨Or.inl rfl, ?_, ?_, ?_, ?_⟩
  · intro i b hb; simp [ADS_set.init] at hb
  · intro b hb; simp [ADS_set.init] at hb
  · simp [allKeys, ADS_set.init]
  · simp [allKeys, ADS_set.init]

theorem clear_eq_init (N : Nat) (hash : Key → Nat) (t : ADS_set Key) (hi : Inv N hash t) :
    clear t = ADS_set.init := by
  unfold clear
  split
  · rename_i h0
    rcases hi.shape with e | ⟨h1, _, h3⟩
    · exact e
    · have : 0 < 2 ^ t.d := by positivity
      omega
  · rfl

theorem Reachable.inv {N : Nat} (hN : 0 < N) {hash : Key → Nat} {t : ADS_set Key}
    (hr : Reachable N hash t) : Inv N hash t := by
  induction hr with
  | init => exact inv_init N hash
  | insert t key r _ hins ih =>
    by_cases hk : key ∈ allKeys t
    · obtain ⟨it, h1, _⟩ := insert_present N hash t key ih hk
      rw [h1] at hins
      simp only [Option.some.injEq] at hins
      rw [← hins]; exact ih
    · obtain ⟨t1, it, h1, h2, _⟩ := insert_absent N hN hash t key ih hk
      rw [h1] at hins
      simp only [Option.some.injEq] at hins
      rw [← hins]; exact h2
  | erase t key r _ her ih =>
    by_cases hk : key ∈ allKeys t
    · obtain ⟨t1, h1, h2, _⟩ := erase_present N hash t key ih hk
      rw [h1] at her
      simp only [Option.some.injEq] at her
      rw [← her]; exact h2
    · rw [erase_absent N hash t key ih hk] at her
      simp only [Option.some.injEq] at her
      rw [← her]; exact ih
  | clear t _ ih =>
    rw [clear_eq_init N hash t ih]
    exact inv_init N hash

end ReachableLemmas

/-! ## Traversal -/

section TraversalLemmas

variable {Key : Type} [DecidableEq Key]

theorem Bucket.keys_eq (b : Bucket Key) : b.keys = b.contents ++ b.tailKeys := by
  cases b <;> simp [Bucket.keys, Bucket.contents, Bucket.tailKeys]

theorem Bucket.follow_zero (b : Bucket Key) : b.follow 0 = some b := by
  cases b <;> rfl

theorem Bucket.follow_add (b : Bucket Key) :
    ∀ (j : Nat) (cb : Bucket Key) (k : Nat), b.follow j = some cb →
      b.follow (j + k) = cb.follow k := by
  induction b with
  | last c =>
    intro j cb k hf
    cases j with
    | zero =>
      simp only [Bucket.follow_zero, Option.some.injEq] at hf
      subst hf; simp
    | succ j => simp [Bucket.follow] at hf
  | link c o ih =>
    intro j cb k hf
    cases j with
    | zero =>
      simp only [Bucket.follow_zero, Option.some.injEq] at hf
      subst hf; simp
    | succ j =>
      simp only [Bucket.follow] at hf
      have : j + 1 + k = (j + k) + 1 := by omega
      rw [this]
      simp only [Bucket.follow]
      exact ih j cb k hf

theorem Bucket.skipEmpty_spec (b : Bucket Key) :
    ∀ j0, (b.skipEmpty j0 = none ∧ b.keys = []) ∨
      ∃ (j : Nat) (x : Key) (tl : List Key) (cb : Bucket Key),
        b.skipEmpty j0 = some (j0 + j, x) ∧ b.follow j = some cb ∧ cb.contents = x :: tl ∧
        b.keys = cb.keys := by
  induction b with
  | last c =>
    intro j0
    cases c with
    | nil => left; simp [Bucket.skipEmpty, Bucket.keys]
    | cons x tl =>
      right
      exact ⟨0, x, tl, Bucket.last (x :: tl), by simp [Bucket.skipEmpty], Bucket.follow_zero _,
        rfl, rfl⟩
  | link c o ih =>
    intro j0
    cases c with
    | nil =>
      rcases ih (j0 + 1) with ⟨h1, h2⟩ | ⟨j, x, tl, cb, h1, h2, h3, h4⟩
      · left; simp [Bucket.skipEmpty, Bucket.keys, h1, h2]
      · right
        refine ⟨j + 1, x, tl, cb, ?_, ?_, h3, ?_⟩
        · simp only [Bucket.skipEmpty, h1]
          congr 2; omega
        · simpa [Bucket.follow] using h2
        · simpa [Bucket.keys] using h4
    | cons x tl =>
      right
      exact ⟨0, x, tl, Bucket.link (x :: tl) o, by simp [Bucket.skipEmpty],
        Bucket.follow_zero _, rfl, rfl⟩

theorem skipRows_spec :
    ∀ (rows : List (Bucket Key)) (i0 : Nat),
      (skipRows rows i0 = none ∧ rows.flatMap Bucket.keys = []) ∨
      ∃ (i j : Nat) (x : Key) (tl : List Key) (b cb : Bucket Key),
        skipRows rows i0 = some (i0 + i, j, x) ∧ rows[i]? = some b ∧ b.follow j = some cb ∧
        cb.contents = x :: tl ∧
        rows.flatMap Bucket.keys = cb.keys ++ (rows.drop (i + 1)).flatMap Bucket.keys := by
  intro rows
  induction rows with
  | nil => intro i0; left; simp [skipRows]
  | cons b rows ih =>
    intro i0
    rcases Bucket.skipEmpty_spec b 0 with ⟨h1, h2⟩ | ⟨j, x, tl, cb, h1, h2, h3, h4⟩
    · rcases ih (i0 + 1) with ⟨g1, g2⟩ | ⟨i, j, x, tl, b1, cb, g1, g2, g3, g4, g5⟩
      · left; simp [skipRows, h1, g1, h2, g2]
      · right
        refine ⟨i + 1, j, x, tl, b1, cb, ?_, ?_, g3, g4, ?_⟩
        · simp only [skipRows, h1, g1]
          congr 2; omega
        · simpa using g2
        · simpa [h2] using g5
    · right
      refine ⟨0, j, x, tl, b, cb, ?_, by simp, h2, h3, ?_⟩
      · simp only [Nat.zero_add] at h1
        simp [skipRows, h1]
      · simp [h4]

theorem at_first (t : ADS_set Key) (r j : Nat) (x : Key) (tl : List Key) (b cb : Bucket Key)
    (hb : t.table[r]? = some b) (hf : b.follow j = some cb) (hc : cb.contents = x :: tl) :
    At t { elem := some x, currentBucket := some (r, j), arrIndex := (r : Int), elemIndex := 0 }
      x (tl ++ cb.tailKeys ++ (t.table.drop (r + 1)).flatMap Bucket.keys) :=
  ⟨r, j, 0, b, cb, rfl, hb, hf, by simp [hc], by simp [hc]⟩

theorem nextRow_spec (t : ADS_set Key) (k : Nat) (hk : k ≤ t.table.length) :
    ∃ it, nextRow t (k : Int) = some it ∧
      Cursor t it ((t.table.drop k).flatMap Bucket.keys) := by
  have hneg : ¬ ((k : Int) < 0) := by omega
  by_cases he : k = t.table.length
  · refine ⟨end_ t, by simp [nextRow, he], ?_⟩
    rw [he, List.drop_length]
    simp [Cursor]
  · have hlt : ¬ t.table.length < k := by omega
    rcases skipRows_spec (t.table.drop k) k with
      ⟨g1, g2⟩ | ⟨i, j, x, tl, b, cb, g1, g2, g3, g4, g5⟩
    · refine ⟨end_ t, by simp [nextRow, he, hlt, g1], ?_⟩
      rw [g2]; simp [Cursor]
    · refine ⟨{ elem := some x, currentBucket := some (k + i, j), arrIndex := ((k + i : Nat) : Int),
                elemIndex := 0 }, by simp [nextRow, he, hlt, g1], ?_⟩
      rw [g5, Bucket.keys_eq cb, g4]
      have hb : t.table[k + i]? = some b := by rw [← g2, List.getElem?_drop]
      have hd : (t.table.drop k).drop (i + 1) = t.table.drop (k + i + 1) := by
        rw [List.drop_drop]; congr 1
      rw [hd]
      have := at_first t (k + i) j x tl b cb hb g3 g4
      simpa [Cursor] using this

theorem next_spec (t : ADS_set Key) (it : Iterator Key) (x : Key) (rest : List Key)
    (hc : Cursor t it (x :: rest)) : ∃ it1, next t it = some it1 ∧ Cursor t it1 rest := by
  obtain ⟨r, j, e, b, cb, hit, hb, hf, hx, hrest⟩ := hc
  subst hit
  have hr : r < t.table.length := by
    by_contra hcon
    rw [List.getElem?_eq_none (by omega)] at hb
    simp at hb
  have he : e < cb.contents.length := by
    by_contra hcon
    rw [List.get?_eq_none.2 (by omega)] at hx
    simp at hx
  by_cases hlen : cb.contents.length = e + 1
  · have hd : cb.contents.drop (e + 1) = [] := by
      rw [← hlen]; exact List.drop_length _
    have hcond : ((cb.contents.length : Int) = (e : Int) + 1) := by omega
    rw [hd, List.nil_append] at hrest
    obtain ⟨it1, hn0, hc1⟩ := nextRow_spec t (r + 1) (by omega)
    have hn1 : nextRow t ((r : Int) + 1) = some it1 := by exact_mod_cast hn0
    cases cb with
    | last c =>
      refine ⟨it1, ?_, ?_⟩
      · simp only [next, hb, Option.some_bind, hf]
        rw [if_pos hcond]
        simp only [Bucket.overflowBucket]
        exact hn1
      · rw [hrest]; simpa [Bucket.tailKeys] using hc1
    | link c o =>
      rcases Bucket.skipEmpty_spec o (j + 1) with ⟨g1, g2⟩ | ⟨j1, y, tl, cb1, g1, g2, g3, g4⟩
      · refine ⟨it1, ?_, ?_⟩
        · simp only [next, hb, Option.some_bind, hf]
          rw [if_pos hcond]
          simp only [Bucket.overflowBucket, g1]
          exact hn1
        · rw [hrest]; simpa [Bucket.tailKeys, g2] using hc1
      · refine ⟨{ elem := some y, currentBucket := some (r, j + 1 + j1), arrIndex := (r : Int),
                  elemIndex := 0 }, ?_, ?_⟩
        · simp only [next, hb, Option.some_bind, hf]
          rw [if_pos hcond]
          simp only [Bucket.overflowBucket, g1]
        · rw [hrest]
          simp only [Bucket.tailKeys, g4, Bucket.keys_eq cb1, g3]
          have hf1 : b.follow (j + 1 + j1) = some cb1 := by
            have := Bucket.follow_add b j _ (1 + j1) hf
            rw [← Nat.add_assoc] at this
            rw [this]
            have e1 : 1 + j1 = j1 + 1 := by omega
            rw [e1]
            simpa [Bucket.follow] using g2
          have := at_first t r (j + 1 + j1) y tl b cb1 hb hf1 g3
          simpa [Cursor] using this
  · have hlt : e + 1 < cb.contents.length := by omega
    have hcond : ¬ ((cb.contents.length : Int) = (e : Int) + 1) := by omega
    have hdrop : cb.contents.drop (e + 1) =
        cb.contents[e + 1] :: cb.contents.drop (e + 1 + 1) := List.drop_eq_getElem_cons hlt
    refine ⟨{ elem := slotAt cb.contents ((e : Int) + 1), currentBucket := some (r, j),
              arrIndex := (r : Int), elemIndex := (e : Int) + 1 }, ?_, ?_⟩
    · simp only [next, hb, Option.some_bind, hf]
      rw [if_neg hcond]
    · rw [hrest, hdrop]
      simp only [List.cons_append, Cursor]
      refine ⟨r, j, e + 1, b, cb, ?_, hb, hf, ?_, ?_⟩
      · have hs : slotAt cb.contents ((e : Int) + 1) = some cb.contents[e + 1] := by
          have hn : ¬ ((e : Int) + 1 < 0) := by omega
          have ht : ((e : Int) + 1).toNat = e + 1 := by omega
          simp only [slotAt, hn, if_false, ht]
          exact List.get?_eq_get hlt
        simp only [hs]
        rfl
      · exact List.get?_eq_get hlt
      · simp

theorem begin_spec (N : Nat) (hash : Key → Nat) (t : ADS_set Key) (hi : Inv N hash t) :
    ∃ it, begin t = some it ∧ Cursor t it (allKeys t) := by
  by_cases h0 : t.numElements = 0
  · have : allKeys t = [] := List.length_eq_zero.1 (by rw [← hi.num]; exact h0)
    refine ⟨end_ t, by simp [begin, h0], ?_⟩
    rw [this]; rfl
  · rcases skipRows_spec t.table 0 with ⟨g1, g2⟩ | ⟨i, j, x, tl, b, cb, g1, g2, g3, g4, g5⟩
    · exfalso
      apply h0
      rw [hi.num]
      simp [allKeys, g2]
    · simp only [Nat.zero_add] at g1
      refine ⟨{ elem := some x, currentBucket := some (i, j), arrIndex := (i : Int),
                elemIndex := 0 }, by simp [begin, h0, g1], ?_⟩
      have := at_first t i j x tl b cb g2 g3 g4
      unfold allKeys
      rw [g5, Bucket.keys_eq cb, g4]
      simpa [Cursor] using this

theorem end_eq_end (t : ADS_set Key) : (end_ t).eq (end_ t) = true := by
  simp [Iterator.eq]

theorem at_ne_end (t : ADS_set Key) (it : Iterator Key) (x : Key) (rest : List Key)
    (ha : At t it x rest) : it.eq (end_ t) = false ∧ it.elem = some x := by
  obtain ⟨r, j, e, b, cb, hit, _⟩ := ha
  subst hit
  simp [Iterator.eq, end_]

theorem traverse_spec (t : ADS_set Key) :
    ∀ (l : List Key) (it : Iterator Key) (fuel : Nat), Cursor t it l → l.length < fuel →
      traverse t fuel it = some l := by
  intro l
  induction l with
  | nil =>
    intro it fuel hc hf
    cases fuel with
    | zero => omega
    | succ fuel =>
      simp only [Cursor] at hc
      subst hc
      simp [traverse, end_eq_end]
  | cons x rest ih =>
    intro it fuel hc hf
    cases fuel with
    | zero => omega
    | succ fuel =>
      obtain ⟨hne, hel⟩ := at_ne_end t it x rest hc
      obtain ⟨it1, hn, hc1⟩ := next_spec t it x rest hc
      have := ih it1 fuel hc1 (by simp at hf; omega)
      simp [traverse, hne, hel, hn, this]

theorem toList_spec (N : Nat) (hash : Key → Nat) (t : ADS_set Key) (hi : Inv N hash t) :
    toList t = some (allKeys t) := by
  obtain ⟨it, hb, hc⟩ := begin_spec N hash t hi
  simp only [toList, hb, Option.some_bind]
  exact traverse_spec t _ it _ hc (by rw [hi.num]; omega)

theorem range_filterMap_get? (l : List Key) :
    (List.range l.length).filterMap (fun e => l.get? e) = l := by
  induction l with
  | nil => rfl
  | cons x xs ih =>
    rw [List.length_cons, List.range_succ_eq_map, List.filterMap_cons]
    simp only [List.get?_cons_zero, List.filterMap_map]
    congr 1

theorem chainOrder_eq (b : Bucket Key) : chainOrder b = b.keys := by
  unfold chainOrder
  induction b with
  | last c =>
    simp only [Bucket.segments, Bucket.keys, List.flatMap_cons, List.flatMap_nil,
      List.append_nil]
    exact range_filterMap_get? c
  | link c o ih =>
    simp only [Bucket.segments, Bucket.keys, List.flatMap_cons]
    rw [ih, range_filterMap_get? c]

theorem range_flatMap_get? {α β : Type} (f : α → List β) (l : List α) :
    (List.range l.length).flatMap (fun i => ((l.get? i).map f).getD []) = l.flatMap f := by
  induction l with
  | nil => rfl
  | cons x xs ih =>
    rw [List.length_cons, List.range_succ_eq_map, List.flatMap_cons, List.flatMap_cons]
    simp only [List.get?_cons_zero, Option.map_some', Option.getD_some]
    congr 1
    rw [List.flatMap_map]
    exact ih

theorem bucketOrder_eq (t : ADS_set Key) : bucketOrder t = allKeys t := by
  unfold bucketOrder allKeys ADS_set.currentTableSize
  rw [range_flatMap_get?]
  congr 1
  funext b
  exact chainOrder_eq b

end TraversalLemmas

/-! ## Sequences of calls -/

section RunLemmas

variable {Key : Type} [DecidableEq Key]

theorem step_reachable (N : Nat) (hash : Key → Nat) (t t1 : ADS_set Key) (op : Op Key)
    (hr : Reachable N hash t) (hs : step N hash t op = some t1) : Reachable N hash t1 := by
  cases op with
  | insert key =>
    simp only [step, Option.map_eq_some'] at hs
    obtain ⟨r, h1, h2⟩ := hs
    rw [← h2]
    exact Reachable.insert t key r hr h1
  | erase key =>
    simp only [step, Option.map_eq_some'] at hs
    obtain ⟨r, h1, h2⟩ := hs
    rw [← h2]
    exact Reachable.erase t key r hr h1
  | clear =>
    simp only [step, Option.some.injEq] at hs
    rw [← hs]
    exact Reachable.clear t hr

theorem run_reachable (N : Nat) (hash : Key → Nat) :
    ∀ (ops : List (Op Key)) (t t1 : ADS_set Key), Reachable N hash t →
      run N hash t ops = some t1 → Reachable N hash t1 := by
  intro ops
  induction ops with
  | nil =>
    intro t t1 hr h
    simp only [run, List.foldlM_nil] at h
    cases h
    exact hr
  | cons op ops ih =>
    intro t t1 hr h
    simp only [run, List.foldlM_cons] at h
    cases hs : step N hash t op with
    | none => rw [hs] at h; simp at h
    | some t2 =>
      rw [hs] at h
      exact ih t2 t1 (step_reachable N hash t t2 op hr hs) h

theorem step_spec (N : Nat) (hN : 0 < N) (hash : Key → Nat) (t : ADS_set Key) (op : Op Key)
    (s : Finset Key) (hi : Inv N hash t) (hs : ∀ k, k ∈ allKeys t ↔ k ∈ s) :
    ∃ t1, step N hash t op = some t1 ∧ Inv N hash t1 ∧
      ∀ k, k ∈ allKeys t1 ↔ k ∈ stepSet s op := by
  cases op with
  | insert key =>
    by_cases hk : key ∈ allKeys t
    · obtain ⟨it, h1, _⟩ := insert_present N hash t key hi hk
      refine ⟨t, by simp [step, h1], hi, ?_⟩
      intro k
      simp only [stepSet, Finset.mem_insert, ← hs k]
      constructor
      · exact fun h => Or.inr h
      · rintro (e | e)
        · rw [e]; exact hk
        · exact e
    · obtain ⟨t1, it, h1, h2, h3, _⟩ := insert_absent N hN hash t key hi hk
      refine ⟨t1, by simp [step, h1], h2, ?_⟩
      intro k
      simp only [stepSet, Finset.mem_insert, ← hs k, h3.mem_iff, List.mem_cons]
  | erase key =>
    by_cases hk : key ∈ allKeys t
    · obtain ⟨t1, h1, h2, h3, _⟩ := erase_present N hash t key hi hk
      refine ⟨t1, by simp [step, h1], h2, ?_⟩
      intro k
      have hnd : (key :: allKeys t1).Nodup := h3.nodup_iff.2 hi.nodup
      have hnot : key ∉ allKeys t1 := (List.nodup_cons.1 hnd).1
      simp only [stepSet, Finset.mem_erase, ← hs k, ← h3.mem_iff, List.mem_cons]
      constructor
      · intro h
        exact ⟨fun e => hnot (e ▸ h), Or.inr h⟩
      · rintro ⟨hne, e | e⟩
        · exact absurd e hne
        · exact e
    · refine ⟨t, by simp [step, erase_absent N hash t key hi hk], hi, ?_⟩
      intro k
      simp only [stepSet, Finset.mem_erase, ← hs k]
      constructor
      · intro h
        exact ⟨fun e => hk (e ▸ h), h⟩
      · exact fun h => h.2
  | clear =>
    refine ⟨ADS_set.init, by simp [step, clear_eq_init N hash t hi], inv_init N hash, ?_⟩
    intro k
    simp [stepSet, allKeys, ADS_set.init]

theorem run_spec (N : Nat) (hN : 0 < N) (hash : Key → Nat) :
    ∀ (ops : List (Op Key)) (t : ADS_set Key) (s : Finset Key), Inv N hash t →
      (∀ k, k ∈ allKeys t ↔ k ∈ s) →
      ∃ t1, run N hash t ops = some t1 ∧ Inv N hash t1 ∧
        ∀ k, k ∈ allKeys t1 ↔ k ∈ ops.foldl stepSet s := by
  intro ops
  induction ops with
  | nil => intro t s hi hs; exact ⟨t, rfl, hi, hs⟩
  | cons op ops ih =>
    intro t s hi hs
    obtain ⟨t1, h1, hi1, hs1⟩ := step_spec N hN hash t op s hi hs
    obtain ⟨t2, h2, hi2, hs2⟩ := ih t1 (stepSet s op) hi1 hs1
    refine ⟨t2, ?_, hi2, hs2⟩
    simp only [run, List.foldlM_cons, h1]
    exact h2

theorem count_eq_one_iff (N : Nat) (hash : Key → Nat) (t : ADS_set Key) (k : Key)
    (hi : Inv N hash t) : count hash t k = some 1 ↔ k ∈ allKeys t := by
  rw [count_spec N hash t k hi]
  by_cases hk : k ∈ allKeys t <;> simp [hk]

theorem count_eq_zero_iff (N : Nat) (hash : Key → Nat) (t : ADS_set Key) (k : Key)
    (hi : Inv N hash t) : count hash t k = some 0 ↔ k ∉ allKeys t := by
  rw [count_spec N hash t k hi]
  by_cases hk : k ∈ allKeys t <;> simp [hk]

end RunLemmas

/-! ## The claims -/

section Claims

variable {Key : Type} [DecidableEq Key]

/-- C1: for every hash function and every finite sequence of `insert`/`erase` calls (and
`clear`) on a freshly constructed table, the sequence runs to completion, `count(k)` on the
resulting table is 1 exactly for the keys of the mathematical set built by the same calls and 0
otherwise, and `size()` is the number of elements of that set. -/
theorem C1_set_semantics (N : Nat) (hN : 0 < N) (hash : Key → Nat) (ops : List (Op Key)) :
    ∃ t, run N hash ADS_set.init ops = some t ∧
      (∀ k, count hash t k = some (if k ∈ runSet ops then 1 else 0)) ∧
      size t = (runSet ops).card := by
  obtain ⟨t, h1, hi, hs⟩ := run_spec N hN hash ops ADS_set.init ∅ (inv_init N hash)
    (by intro k; simp [allKeys, ADS_set.init])
  refine ⟨t, h1, ?_, ?_⟩
  · intro k
    rw [count_spec N hash t k hi]
    by_cases hk : k ∈ allKeys t
    · simp [hk, runSet, (hs k).1 hk]
    · have : k ∉ runSet ops := fun h => hk ((hs k).2 h)
      simp [hk, this]
  · have he : runSet ops = (allKeys t).toFinset := by
      ext k
      rw [List.mem_toFinset]
      exact (hs k).symm
    rw [he, List.toFinset_card_of_nodup hi.nodup]
    exact hi.num

/-- Witness of C1: the calls insert 5, insert 7, erase 5, insert 7 with buckets of 18 slots. -/
theorem C1_set_semantics_witness :
    0 < 18 ∧ ∃ t, run 18 (fun k : Nat => k) ADS_set.init
        [Op.insert 5, Op.insert 7, Op.erase 5, Op.insert 7] = some t ∧
      (∀ k, count (fun k : Nat => k) t k =
        some (if k ∈ runSet [Op.insert 5, Op.insert 7, Op.erase 5, Op.insert 7] then 1 else 0)) ∧
      size t = (runSet [Op.insert 5, Op.insert 7, Op.erase 5, Op.insert 7]).card :=
  ⟨by decide, C1_set_semantics 18 (by decide) (fun k : Nat => k)
    [Op.insert 5, Op.insert 7, Op.erase 5, Op.insert 7]⟩

/-- C2: on a reachable table (the empty one included) `insert(k)` of a key with `count(k) = 0`
returns `inserted = true`; afterwards `count(k) = 1`, `size()` is one larger and `count(j)` is
unchanged for every other key `j`, whatever path the insertion takes (first bucket, no split,
incremental split, reallocation). Scenario: inserting 0..40 with 18 slots per bucket gives
`size() = 41` and `count(k) = 1` for every `k` in 0..40. -/
theorem C2_insert_absent (N : Nat) (hN : 0 < N) (hash : Key → Nat) (t : ADS_set Key)
    (hr : Reachable N hash t) (k : Key) (hc : count hash t k = some 0) :
    (∃ t1 it, insert N hash t k = some (t1, it, true) ∧ count hash t1 k = some 1 ∧
      size t1 = size t + 1 ∧ ∀ j, j ≠ k → count hash t1 j = count hash t j) ∧
    (∃ t41 : ADS_set Nat,
      run 18 (fun x : Nat => x) ADS_set.init ((List.range 41).map Op.insert) = some t41 ∧
      size t41 = 41 ∧ ∀ x ∈ List.range 41, count (fun x : Nat => x) t41 x = some 1) := by
  constructor
  · have hi := hr.inv hN
    have hk : k ∉ allKeys t := (count_eq_zero_iff N hash t k hi).1 hc
    obtain ⟨t1, it, h1, hi1, hp, hn, _⟩ := insert_absent N hN hash t k hi hk
    refine ⟨t1, it, h1, ?_, hn, ?_⟩
    · exact (count_eq_one_iff N hash t1 k hi1).2 (hp.mem_iff.2 (List.mem_cons_self _ _))
    · intro j hj
      rw [count_spec N hash t1 j hi1, count_spec N hash t j hi]
      have : j ∈ allKeys t1 ↔ j ∈ allKeys t := by
        rw [hp.mem_iff, List.mem_cons]
        exact ⟨fun h => h.resolve_left hj, Or.inr⟩
      simp only [this]
  · refine ⟨ADS_set.mk [Bucket.last [0, 4, 8, 12, 16, 20, 24, 28, 32, 36, 40],
        Bucket.last [1, 5, 9, 13, 17, 21, 25, 29, 33, 37],
        Bucket.last [2, 6, 10, 14, 18, 22, 26, 30, 34, 38],
        Bucket.last [3, 7, 11, 15, 19, 23, 27, 31, 35, 39]] 2 0 4 41, ?_, rfl, ?_⟩
    · decide
    · decide

/-- Witness of C2: the table holding 0..17 in one full bucket of 18 slots; inserting 18 makes
the bucket overflow and splits it. -/
theorem C2_insert_absent_witness :
    (∃ t1 it, insert 18 (fun x : Nat => x)
        (ADS_set.mk [Bucket.last (List.range 18)] 0 0 1 18) 18 = some (t1, it, true) ∧
      count (fun x : Nat => x) t1 18 = some 1 ∧
      size t1 = size (ADS_set.mk [Bucket.last (List.range 18)] 0 0 1 18) + 1 ∧
      ∀ j, j ≠ 18 → count (fun x : Nat => x) t1 j =
        count (fun x : Nat => x) (ADS_set.mk [Bucket.last (List.range 18)] 0 0 1 18) j) ∧
    (∃ t41 : ADS_set Nat,
      run 18 (fun x : Nat => x) ADS_set.init ((List.range 41).map Op.insert) = some t41 ∧
      size t41 = 41 ∧ ∀ x ∈ List.range 41, count (fun x : Nat => x) t41 x = some 1) :=
  C2_insert_absent 18 (by decide) (fun x : Nat => x)
    (ADS_set.mk [Bucket.last (List.range 18)] 0 0 1 18)
    (run_reachable 18 (fun x : Nat => x) ((List.range 18).map Op.insert) ADS_set.init _
      Reachable.init (by decide))
    18 (by decide)

/-- C3: on a reachable table `insert(k)` of a key with `count(k) = 1` returns
`inserted = false` and the table it leaves is the table it found: the same chains, `d`,
`nextToSplit`, `currentTableSize`, `allocSize` and `numElements`. -/
theorem C3_insert_present (N : Nat) (hN : 0 < N) (hash : Key → Nat) (t : ADS_set Key)
    (hr : Reachable N hash t) (k : Key) (hc : count hash t k = some 1) :
    ∃ it, insert N hash t k = some (t, it, false) := by
  have hi := hr.inv hN
  obtain ⟨it, h1, _⟩ := insert_present N hash t k hi ((count_eq_one_iff N hash t k hi).1 hc)
  exact ⟨it, h1⟩

/-- Witness of C3: inserting 7 again into the table built by insert 5, insert 7. -/
theorem C3_insert_present_witness :
    ∃ it, insert 18 (fun x : Nat => x) (ADS_set.mk [Bucket.last [5, 7]] 0 0 1 2) 7 =
      some (ADS_set.mk [Bucket.last [5, 7]] 0 0 1 2, it, false) :=
  C3_insert_present 18 (by decide) (fun x : Nat => x) (ADS_set.mk [Bucket.last [5, 7]] 0 0 1 2)
    (run_reachable 18 (fun x : Nat => x) [Op.insert 5, Op.insert 7] ADS_set.init _
      Reachable.init (by decide))
    7 (by decide)

/-- C4: on a reachable table `count(k)` is 1 or 0; `erase(k)` returns 1 when it is 1 and then
`count(k) = 0`, `size()` is one smaller and `count(j)` is unchanged for every other key `j`;
`erase(k)` returns 0 when it is 0 and then the table is unchanged. -/
theorem C4_erase (N : Nat) (hN : 0 < N) (hash : Key → Nat) (t : ADS_set Key)
    (hr : Reachable N hash t) (k : Key) :
    (count hash t k = some 1 ∨ count hash t k = some 0) ∧
    (count hash t k = some 1 →
      ∃ t1, erase hash t k = some (t1, 1) ∧ count hash t1 k = some 0 ∧
        size t1 + 1 = size t ∧ ∀ j, j ≠ k → count hash t1 j = count hash t j) ∧
    (count hash t k = some 0 → erase hash t k = some (t, 0)) := by
  have hi := hr.inv hN
  refine ⟨?_, ?_, ?_⟩
  · rw [count_spec N hash t k hi]
    by_cases hk : k ∈ allKeys t <;> simp [hk]
  · intro hc
    have hk := (count_eq_one_iff N hash t k hi).1 hc
    obtain ⟨t1, h1, hi1, hp, hn, _⟩ := erase_present N hash t k hi hk
    have hnd : (k :: allKeys t1).Nodup := hp.nodup_iff.2 hi.nodup
    refine ⟨t1, h1, ?_, hn, ?_⟩
    · exact (count_eq_zero_iff N hash t1 k hi1).2 (List.nodup_cons.1 hnd).1
    · intro j hj
      rw [count_spec N hash t1 j hi1, count_spec N hash t j hi]
      have : j ∈ allKeys t ↔ j ∈ allKeys t1 := by
        rw [← hp.mem_iff, List.mem_cons]
        exact ⟨fun h => h.resolve_left hj, Or.inr⟩
      simp only [this]
  · intro hc
    exact erase_absent N hash t k hi ((count_eq_zero_iff N hash t k hi).1 hc)

/-- Witness of C4: erasing 2 and erasing 9 from the table built by insert 1, 2, 3. -/
theorem C4_erase_witness :
    (∃ t1, erase (fun x : Nat => x) (ADS_set.mk [Bucket.last [1, 2, 3]] 0 0 1 3) 2 =
        some (t1, 1) ∧ count (fun x : Nat => x) t1 2 = some 0 ∧
        size t1 + 1 = size (ADS_set.mk [Bucket.last [1, 2, 3]] 0 0 1 3) ∧
        ∀ j, j ≠ 2 → count (fun x : Nat => x) t1 j =
          count (fun x : Nat => x) (ADS_set.mk [Bucket.last [1, 2, 3]] 0 0 1 3) j) ∧
    erase (fun x : Nat => x) (ADS_set.mk [Bucket.last [1, 2, 3]] 0 0 1 3) 9 =
      some (ADS_set.mk [Bucket.last [1, 2, 3]] 0 0 1 3, 0) :=
  ⟨(C4_erase 18 (by decide) (fun x : Nat => x) (ADS_set.mk [Bucket.last [1, 2, 3]] 0 0 1 3)
      (run_reachable 18 (fun x : Nat => x) [Op.insert 1, Op.insert 2, Op.insert 3]
        ADS_set.init _ Reachable.init (by decide)) 2).2.1 (by decide),
   (C4_erase 18 (by decide) (fun x : Nat => x) (ADS_set.mk [Bucket.last [1, 2, 3]] 0 0 1 3)
      (run_reachable 18 (fun x : Nat => x) [Op.insert 1, Op.insert 2, Op.insert 3]
        ADS_set.init _ Reachable.init (by decide)) 9).2.2 (by decide)⟩

/-- C5: on a reachable table, a key `k` with `count(k) = 0` that is inserted and then erased at
once leaves `count(k) = 0` and `size()` at the value it had before the insert, also when the
insert split a bucket or reallocated the table. -/
theorem C5_insert_erase (N : Nat) (hN : 0 < N) (hash : Key → Nat) (t : ADS_set Key)
    (hr : Reachable N hash t) (k : Key) (hc : count hash t k = some 0) :
    ∃ t1 it t2, insert N hash t k = some (t1, it, true) ∧ erase hash t1 k = some (t2, 1) ∧
      count hash t2 k = some 0 ∧ size t2 = size t := by
  have hi := hr.inv hN
  have hk : k ∉ allKeys t := (count_eq_zero_iff N hash t k hi).1 hc
  obtain ⟨t1, it, h1, hi1, hp, hn, _⟩ := insert_absent N hN hash t k hi hk
  have hk1 : k ∈ allKeys t1 := hp.mem_iff.2 (List.mem_cons_self _ _)
  obtain ⟨t2, h2, hi2, hp2, hn2, _⟩ := erase_present N hash t1 k hi1 hk1
  have hnd : (k :: allKeys t2).Nodup := hp2.nodup_iff.2 hi1.nodup
  refine ⟨t1, it, t2, h1, h2, ?_, ?_⟩
  · exact (count_eq_zero_iff N hash t2 k hi2).2 (List.nodup_cons.1 hnd).1
  · simp only [size]
    omega

/-- Witness of C5: inserting 18 into the full bucket holding 0..17 (which splits it) and
erasing it again. -/
theorem C5_insert_erase_witness :
    ∃ t1 it t2, insert 18 (fun x : Nat => x)
        (ADS_set.mk [Bucket.last (List.range 18)] 0 0 1 18) 18 = some (t1, it, true) ∧
      erase (fun x : Nat => x) t1 18 = some (t2, 1) ∧
      count (fun x : Nat => x) t2 18 = some 0 ∧
      size t2 = size (ADS_set.mk [Bucket.last (List.range 18)] 0 0 1 18) :=
  C5_insert_erase 18 (by decide) (fun x : Nat => x)
    (ADS_set.mk [Bucket.last (List.range 18)] 0 0 1 18)
    (run_reachable 18 (fun x : Nat => x) ((List.range 18).map Op.insert) ADS_set.init _
      Reachable.init (by decide))
    18 (by decide)

/-- C6: on a reachable table the traversal from `begin()` by repeated `++` arrives at `end()`
within `size() + 1` comparisons and yields exactly `size()` keys; they are pairwise distinct and
are exactly the keys with `count = 1`; `begin() == end()` holds exactly when `size() = 0`.
Scenario: after insert 1, 2, 3 and erase 2 the traversal yields 1, 3. -/
theorem C6_iteration (N : Nat) (hN : 0 < N) (hash : Key → Nat) (t : ADS_set Key)
    (hr : Reachable N hash t) :
    (∃ l, toList t = some l ∧ l.length = size t ∧ l.Nodup ∧
      ∀ k, k ∈ l ↔ count hash t k = some 1) ∧
    (∃ it, begin t = some it ∧ (it.eq (end_ t) = true ↔ size t = 0)) ∧
    (run 18 (fun x : Nat => x) ADS_set.init
      [Op.insert 1, Op.insert 2, Op.insert 3, Op.erase 2]).bind toList = some [1, 3] := by
  have hi := hr.inv hN
  refine ⟨⟨allKeys t, toList_spec N hash t hi, hi.num.symm, hi.nodup, ?_⟩, ?_, by decide⟩
  · intro k
    exact (count_eq_one_iff N hash t k hi).symm
  · obtain ⟨it, hb, hc⟩ := begin_spec N hash t hi
    refine ⟨it, hb, ?_⟩
    have hnum := hi.num
    cases hl : allKeys t with
    | nil =>
      rw [hl] at hc hnum
      simp only [Cursor] at hc
      subst hc
      simp [end_eq_end, size, hnum]
    | cons x rest =>
      rw [hl] at hc hnum
      have := (at_ne_end t it x rest hc).1
      simp [this, size, hnum]

/-- Witness of C6: the table built by insert 1, 2, 3 and erase 2. -/
theorem C6_iteration_witness :
    (∃ l, toList (ADS_set.mk [Bucket.last [1, 3]] 0 0 1 2) = some l ∧
      l.length = size (ADS_set.mk [Bucket.last [1, 3]] 0 0 1 2) ∧ l.Nodup ∧
      ∀ k, k ∈ l ↔ count (fun x : Nat => x) (ADS_set.mk [Bucket.last [1, 3]] 0 0 1 2) k =
        some 1) ∧
    (∃ it, begin (ADS_set.mk [Bucket.last [1, 3]] 0 0 1 2) = some it ∧
      (it.eq (end_ (ADS_set.mk [Bucket.last [1, 3]] 0 0 1 2)) = true ↔
        size (ADS_set.mk [Bucket.last [1, 3]] 0 0 1 2) = 0)) ∧
    (run 18 (fun x : Nat => x) ADS_set.init
      [Op.insert 1, Op.insert 2, Op.insert 3, Op.erase 2]).bind toList = some [1, 3] :=
  C6_iteration 18 (by decide) (fun x : Nat => x) (ADS_set.mk [Bucket.last [1, 3]] 0 0 1 2)
    (run_reachable 18 (fun x : Nat => x) [Op.insert 1, Op.insert 2, Op.insert 3, Op.erase 2]
      ADS_set.init _ Reachable.init (by decide))

/-- C7: on a reachable table the keys yielded by `begin()` and repeated `++` up to `end()` are,
in this order, the list that concatenates for bucket index 0, 1, ..., `currentTableSize - 1`
the segments of the chain in link order and within each segment the occupied slots in slot
order; segments and buckets without keys contribute nothing. -/
theorem C7_iteration_order (N : Nat) (hN : 0 < N) (hash : Key → Nat) (t : ADS_set Key)
    (hr : Reachable N hash t) : toList t = some (bucketOrder t) := by
  rw [bucketOrder_eq]
  exact toList_spec N hash t (hr.inv hN)

/-- Witness of C7: with 2 slots per bucket, insert 0, 2, 4, 1 and erase 0, 2 leave bucket 0 with
an emptied head segment followed by an overflow segment holding 4, and bucket 1 holding 1. -/
theorem C7_iteration_order_witness :
    toList (ADS_set.mk [Bucket.link [] (Bucket.last [4]), Bucket.last [1]] 1 0 2 2) =
      some (bucketOrder
        (ADS_set.mk [Bucket.link [] (Bucket.last [4]), Bucket.last [1]] 1 0 2 2)) :=
  C7_iteration_order 2 (by decide) (fun x : Nat => x)
    (ADS_set.mk [Bucket.link [] (Bucket.last [4]), Bucket.last [1]] 1 0 2 2)
    (run_reachable 2 (fun x : Nat => x)
      [Op.insert 0, Op.insert 2, Op.insert 4, Op.insert 1, Op.erase 0, Op.erase 2]
      ADS_set.init _ Reachable.init (by decide))

/-- C8: on a reachable table `find(k)` returns an iterator that equals `end()` exactly when
`count(k) = 0`; when `count(k) = 1` it points at slot `i` of the segment at position `j` of the
chain of row `resolve k`, that slot is occupied (`i` is below the segment's count) and holds
`k`. -/
theorem C8_find (N : Nat) (hN : 0 < N) (hash : Key → Nat) (t : ADS_set Key)
    (hr : Reachable N hash t) (k : Key) :
    ∃ it, find hash t k = some it ∧
      (it.eq (end_ t) = true ↔ count hash t k = some 0) ∧
      (count hash t k = some 1 →
        ∃ (b : Bucket Key) (j i : Nat) (seg : List Key),
          it.currentBucket = some (resolve hash t k, j) ∧
          it.arrIndex = (resolve hash t k : Int) ∧ it.elemIndex = (i : Int) ∧
          it.elem = some k ∧
          t.table.get? (resolve hash t k) = some b ∧ b.segments.get? j = some seg ∧
          i < seg.length ∧ seg.get? i = some k) := by
  have hi := hr.inv hN
  by_cases hk : k ∈ allKeys t
  · obtain ⟨b, j, i, seg, h1, h2, h3, _, _, _, _, _, hf⟩ := lookup_present N hash t k hi hk
    refine ⟨_, hf, ?_, ?_⟩
    · have h0 : ¬ count hash t k = some 0 := by
        rw [count_eq_zero_iff N hash t k hi]; exact fun h => h hk
      simp [Iterator.eq, end_, h0]
    · intro _
      refine ⟨b, j, i, seg, rfl, rfl, rfl, rfl, ?_, ?_, ?_, ?_⟩
      · rw [List.get?_eq_getElem?]; exact h1
      · rw [List.get?_eq_getElem?]; exact h2
      · exact (List.getElem?_eq_some.1 h3).1
      · rw [List.get?_eq_getElem?]; exact h3
  · refine ⟨end_ t, find_absent N hash t k hi hk, ?_, ?_⟩
    · simp [end_eq_end, count_eq_zero_iff N hash t k hi, hk]
    · intro hc
      exact absurd ((count_eq_one_iff N hash t k hi).1 hc) hk

/-- Witness of C8: looking up 17 where it sits in an overflow segment of row 1 (2 slots per
bucket, keys 0..10 and 17 inserted). -/
theorem C8_find_witness :
    ∃ it, find (fun x : Nat => x)
        (ADS_set.mk [Bucket.last [0, 8], Bucket.link [1, 9] (Bucket.last [17]),
          Bucket.last [2, 10], Bucket.last [3], Bucket.last [4], Bucket.last [5],
          Bucket.last [6], Bucket.last [7]] 3 0 8 12) 17 = some it ∧
      (it.eq (end_ (ADS_set.mk [Bucket.last [0, 8], Bucket.link [1, 9] (Bucket.last [17]),
          Bucket.last [2, 10], Bucket.last [3], Bucket.last [4], Bucket.last [5],
          Bucket.last [6], Bucket.last [7]] 3 0 8 12)) = true ↔
        count (fun x : Nat => x)
          (ADS_set.mk [Bucket.last [0, 8], Bucket.link [1, 9] (Bucket.last [17]),
            Bucket.last [2, 10], Bucket.last [3], Bucket.last [4], Bucket.last [5],
            Bucket.last [6], Bucket.last [7]] 3 0 8 12) 17 = some 0) ∧
      (count (fun x : Nat => x)
          (ADS_set.mk [Bucket.last [0, 8], Bucket.link [1, 9] (Bucket.last [17]),
            Bucket.last [2, 10], Bucket.last [3], Bucket.last [4], Bucket.last [5],
            Bucket.last [6], Bucket.last [7]] 3 0 8 12) 17 = some 1 →
        ∃ (b : Bucket Nat) (j i : Nat) (seg : List Nat),
          it.currentBucket = some (resolve (fun x : Nat => x)
            (ADS_set.mk [Bucket.last [0, 8], Bucket.link [1, 9] (Bucket.last [17]),
              Bucket.last [2, 10], Bucket.last [3], Bucket.last [4], Bucket.last [5],
              Bucket.last [6], Bucket.last [7]] 3 0 8 12) 17, j) ∧
          it.arrIndex = (resolve (fun x : Nat => x)
            (ADS_set.mk [Bucket.last [0, 8], Bucket.link [1, 9] (Bucket.last [17]),
              Bucket.last [2, 10], Bucket.last [3], Bucket.last [4], Bucket.last [5],
              Bucket.last [6], Bucket.last [7]] 3 0 8 12) 17 : Int) ∧
          it.elemIndex = (i : Int) ∧ it.elem = some 17 ∧
          (ADS_set.mk [Bucket.last [0, 8], Bucket.link [1, 9] (Bucket.last [17]),
              Bucket.last [2, 10], Bucket.last [3], Bucket.last [4], Bucket.last [5],
              Bucket.last [6], Bucket.last [7]] 3 0 8 12).table.get?
            (resolve (fun x : Nat => x)
              (ADS_set.mk [Bucket.last [0, 8], Bucket.link [1, 9] (Bucket.last [17]),
                Bucket.last [2, 10], Bucket.last [3], Bucket.last [4], Bucket.last [5],
                Bucket.last [6], Bucket.last [7]] 3 0 8 12) 17) = some b ∧
          b.segments.get? j = some seg ∧ i < seg.length ∧ seg.get? i = some 17) :=
  C8_find 2 (by decide) (fun x : Nat => x)
    (ADS_set.mk [Bucket.last [0, 8], Bucket.link [1, 9] (Bucket.last [17]),
      Bucket.last [2, 10], Bucket.last [3], Bucket.last [4], Bucket.last [5],
      Bucket.last [6], Bucket.last [7]] 3 0 8 12)
    (run_reachable 2 (fun x : Nat => x)
      ((List.range 11).map Op.insert ++ [Op.insert 17]) ADS_set.init _
      Reachable.init (by decide)) 17

/-- C9: on a reachable table the iterator returned by `insert(k)` is the iterator that
`find(k)` returns on the table as it is after the call, both when `k` was newly inserted (also
after a split) and when `k` was already present. -/
theorem C9_insert_iterator (N : Nat) (hN : 0 < N) (hash : Key → Nat) (t : ADS_set Key)
    (hr : Reachable N hash t) (k : Key) :
    ∃ t1 it fl it1, insert N hash t k = some (t1, it, fl) ∧ find hash t1 k = some it1 ∧
      it.eq it1 = true ∧ (fl = true ↔ count hash t k = some 0) := by
  have hi := hr.inv hN
  have heq : ∀ it : Iterator Key, it.eq it = true := by
    intro it; simp [Iterator.eq]
  by_cases hk : k ∈ allKeys t
  · obtain ⟨it, h1, h2⟩ := insert_present N hash t k hi hk
    refine ⟨t, it, false, it, h1, h2, heq it, ?_⟩
    simp [count_eq_zero_iff N hash t k hi, hk]
  · obtain ⟨t1, it, h1, _, _, _, h2⟩ := insert_absent N hN hash t k hi hk
    refine ⟨t1, it, true, it, h1, h2, heq it, ?_⟩
    simp [count_eq_zero_iff N hash t k hi, hk]

/-- Witness of C9: inserting 18 into the full bucket holding 0..17, which splits it. -/
theorem C9_insert_iterator_witness :
    ∃ t1 it fl it1, insert 18 (fun x : Nat => x)
        (ADS_set.mk [Bucket.last (List.range 18)] 0 0 1 18) 18 = some (t1, it, fl) ∧
      find (fun x : Nat => x) t1 18 = some it1 ∧ it.eq it1 = true ∧
      (fl = true ↔
        count (fun x : Nat => x) (ADS_set.mk [Bucket.last (List.range 18)] 0 0 1 18) 18 =
          some 0) :=
  C9_insert_iterator 18 (by decide) (fun x : Nat => x)
    (ADS_set.mk [Bucket.last (List.range 18)] 0 0 1 18)
    (run_reachable 18 (fun x : Nat => x) ((List.range 18).map Op.insert) ADS_set.init _
      Reachable.init (by decide))
    18

/-- C10: on a reachable table `clear()` leaves the state of a freshly constructed table:
`size() = 0`, `empty()`, `count(k) = 0` for every key, `begin() == end()`, and `d`,
`nextToSplit`, `currentTableSize`, `allocSize` all 0 with no bucket; hence every later sequence
of calls behaves as on a fresh table. -/
theorem C10_clear (N : Nat) (hN : 0 < N) (hash : Key → Nat) (t : ADS_set Key)
    (hr : Reachable N hash t) :
    clear t = ADS_set.init ∧ size (clear t) = 0 ∧ empty (clear t) = true ∧
      (∀ k, count hash (clear t) k = some 0) ∧
      (∃ it, begin (clear t) = some it ∧ it.eq (end_ (clear t)) = true) ∧
      (clear t).d = 0 ∧ (clear t).nextToSplit = 0 ∧ (clear t).currentTableSize = 0 ∧
      (clear t).allocSize = 0 ∧ (clear t).table = [] ∧
      ∀ ops, run N hash (clear t) ops = run N hash ADS_set.init ops := by
  have he := clear_eq_init N hash t (hr.inv hN)
  rw [he]
  refine ⟨rfl, rfl, rfl, ?_, ?_, rfl, rfl, rfl, rfl, rfl, fun _ => rfl⟩
  · intro k
    simp [count, find_, ADS_set.init]
  · exact ⟨end_ ADS_set.init, by simp [begin, ADS_set.init], end_eq_end _⟩

/-- Witness of C10: clearing the table that holds 0..40 in four buckets. -/
theorem C10_clear_witness :
    clear (ADS_set.mk [Bucket.last [0, 4, 8, 12, 16, 20, 24, 28, 32, 36, 40],
        Bucket.last [1, 5, 9, 13, 17, 21, 25, 29, 33, 37],
        Bucket.last [2, 6, 10, 14, 18, 22, 26, 30, 34, 38],
        Bucket.last [3, 7, 11, 15, 19, 23, 27, 31, 35, 39]] 2 0 4 41) =
      (ADS_set.init : ADS_set Nat) :=
  (C10_clear 18 (by decide) (fun x : Nat => x)
    (ADS_set.mk [Bucket.last [0, 4, 8, 12, 16, 20, 24, 28, 32, 36, 40],
        Bucket.last [1, 5, 9, 13, 17, 21, 25, 29, 33, 37],
        Bucket.last [2, 6, 10, 14, 18, 22, 26, 30, 34, 38],
        Bucket.last [3, 7, 11, 15, 19, 23, 27, 31, 35, 39]] 2 0 4 41)
    (run_reachable 18 (fun x : Nat => x) ((List.range 41).map Op.insert) ADS_set.init _
      Reachable.init (by decide))).1

end Claims

/-! ## Equality of tables -/

section EqualityLemmas

variable {Key : Type} [DecidableEq Key]

theorem allCounted_spec (N : Nat) (hash : Key → Nat) (rhs : ADS_set Key) (hi : Inv N hash rhs) :
    ∀ l : List Key, allCounted hash rhs l = some (decide (∀ k ∈ l, k ∈ allKeys rhs)) := by
  intro l
  induction l with
  | nil => simp [allCounted]
  | cons x xs ih =>
    simp only [allCounted, count_spec N hash rhs x hi, ih]
    by_cases hx : x ∈ allKeys rhs
    · simp [hx]
    · simp [hx]

theorem operatorEq_spec (N : Nat) (hash : Key → Nat) (lhs rhs : ADS_set Key)
    (_ : Inv N hash lhs) (hr : Inv N hash rhs) :
    operatorEq hash lhs rhs =
      some (decide (size lhs = size rhs ∧ ∀ k ∈ allKeys lhs, k ∈ allKeys rhs)) := by
  unfold operatorEq
  by_cases hs : size lhs = size rhs
  · simp only [hs, ne_eq, not_true_eq_false, if_false, true_and]
    exact allCounted_spec N hash rhs hr _
  · simp [hs]

theorem same_keys_iff (N : Nat) (hash : Key → Nat) (lhs rhs : ADS_set Key)
    (hl : Inv N hash lhs) (hr : Inv N hash rhs) :
    (size lhs = size rhs ∧ ∀ k ∈ allKeys lhs, k ∈ allKeys rhs) ↔
      ∀ k, k ∈ allKeys lhs ↔ k ∈ allKeys rhs := by
  constructor
  · rintro ⟨hs, hsub⟩ k
    have hsp : List.Subperm (allKeys lhs) (allKeys rhs) :=
      List.subperm_of_subset hl.nodup hsub
    have hlen : (allKeys rhs).length ≤ (allKeys lhs).length := by
      rw [← hl.num, ← hr.num]
      simp only [size] at hs
      omega
    exact (hsp.perm_of_length_le hlen).mem_iff
  · intro h
    refine ⟨?_, fun k hk => (h k).1 hk⟩
    have he : (allKeys lhs).toFinset = (allKeys rhs).toFinset := by
      ext k
      simp only [List.mem_toFinset]
      exact h k
    have h1 := List.toFinset_card_of_nodup hl.nodup
    have h2 := List.toFinset_card_of_nodup hr.nodup
    simp only [size]
    rw [hl.num, hr.num, ← h1, ← h2, he]

theorem foldl_stepSet_inserts (l : List Key) :
    ∀ (s : Finset Key) (k : Key),
      k ∈ (l.map Op.insert).foldl stepSet s ↔ k ∈ s ∨ k ∈ l := by
  induction l with
  | nil => intro s k; simp
  | cons x xs ih =>
    intro s k
    simp only [List.map_cons, List.foldl_cons, ih, stepSet, Finset.mem_insert, List.mem_cons]
    tauto

end EqualityLemmas

/-! ## Where a key is placed, and what a split touches -/

section SplitDetail

variable {Key : Type} [DecidableEq Key]

theorem Bucket.place_detail (N : Nat) (hN : 0 < N) (key : Key) (b : Bucket Key)
    (hb : Bucket.Bounded N b) :
    ((∀ seg ∈ b.segments, seg.length = N) ∧
      ∃ b1, b.place N key = some (b1, true) ∧ b1.segments = b.segments ++ [[key]]) ∨
    (∃ (pre : List (List Key)) (seg : List Key) (post : List (List Key)) (b1 : Bucket Key),
      b.segments = pre ++ seg :: post ∧ (∀ s ∈ pre, s.length = N) ∧ seg.length < N ∧
      b.place N key = some (b1, false) ∧ b1.segments = pre ++ (seg ++ [key]) :: post) := by
  induction b with
  | last c =>
    simp only [Bucket.Bounded] at hb
    by_cases hc : c.length = N
    · left
      refine ⟨by simp [Bucket.segments, hc], Bucket.link c (Bucket.last [key]), ?_, ?_⟩
      · simp [Bucket.place, hc, hN]
      · simp [Bucket.segments]
    · right
      have hlt : c.length < N := by omega
      refine ⟨[], c, [], Bucket.last (c ++ [key]), by simp [Bucket.segments], by simp, hlt,
        ?_, by simp [Bucket.segments]⟩
      simp [Bucket.place, hc, hlt]
  | link c o ih =>
    simp only [Bucket.Bounded] at hb
    by_cases hc : c.length = N
    · rcases ih hb.2 with ⟨hall, b1, h1, h2⟩ | ⟨pre, seg, post, b1, h1, h2, h3, h4, h5⟩
      · left
        refine ⟨?_, Bucket.link c b1, ?_, ?_⟩
        · intro seg hseg
          simp only [Bucket.segments, List.mem_cons] at hseg
          rcases hseg with e | e
          · rw [e]; exact hc
          · exact hall seg e
        · simp [Bucket.place, hc, h1]
        · simp [Bucket.segments, h2]
      · right
        refine ⟨c :: pre, seg, post, Bucket.link c b1, by simp [Bucket.segments, h1], ?_, h3,
          ?_, by simp [Bucket.segments, h5]⟩
        · intro s hs
          simp only [List.mem_cons] at hs
          rcases hs with e | e
          · rw [e]; exact hc
          · exact h2 s e
        · simp [Bucket.place, hc, h4]
    · right
      have hlt : c.length < N := by omega
      refine ⟨[], c, o.segments, Bucket.link (c ++ [key]) o, by simp [Bucket.segments],
        by simp, hlt, ?_, by simp [Bucket.segments]⟩
      simp [Bucket.place, hc, hlt]

theorem insert_noexcept_table (N : Nat) (hash : Key → Nat) (t t1 : ADS_set Key) (key : Key)
    (h1 : insert_noexcept N hash t key = some t1) :
    ∃ b r, t.table[resolve hash t key]? = some b ∧ b.place N key = some r ∧
      t1 = { t with table := t.table.set (resolve hash t key) r.1 } := by
  unfold insert_noexcept at h1
  cases hb : t.table[resolve hash t key]? with
  | none => rw [hb] at h1; simp at h1
  | some b =>
    rw [hb] at h1
    simp only at h1
    cases hr : b.place N key with
    | none => rw [hr] at h1; simp at h1
    | some r =>
      rw [hr] at h1
      simp only [Option.some.injEq] at h1
      exact ⟨b, r, rfl, hr, h1.symm⟩

theorem foldlM_insert_noexcept_frame (N : Nat) (hash : Key → Nat) (vals : List Key) :
    ∀ (t t1 : ADS_set Key), vals.foldlM (insert_noexcept N hash) t = some t1 →
      ∀ i, (∀ v ∈ vals, resolve hash t v ≠ i) → t1.table[i]? = t.table[i]? := by
  induction vals with
  | nil =>
    intro t t1 h1 i _
    simp only [List.foldlM_nil] at h1
    cases h1
    rfl
  | cons v vals ih =>
    intro t t1 h1 i hres
    simp only [List.foldlM_cons] at h1
    cases h2 : insert_noexcept N hash t v with
    | none => rw [h2] at h1; simp at h1
    | some t2 =>
      rw [h2] at h1
      obtain ⟨b, r, _, _, e⟩ := insert_noexcept_table N hash t t2 v h2
      have hstep : ∀ w, resolve hash t2 w = resolve hash t w := by
        intro w; rw [e]; rfl
      have h3 := ih t2 t1 h1 i (by
        intro w hw
        rw [hstep w]
        exact hres w (List.mem_cons_of_mem _ hw))
      rw [h3, e]
      simp only [List.getElem?_set]
      have hne : resolve hash t v ≠ i := hres v (List.mem_cons_self _ _)
      simp [hne]

theorem insert_noexcept_alloc (N : Nat) (hash : Key → Nat) (t : ADS_set Key) (A : Nat)
    (key : Key) :
    insert_noexcept N hash { t with allocSize := A } key =
      (insert_noexcept N hash t key).map (fun r => { r with allocSize := A }) := by
  unfold insert_noexcept
  have hres : resolve hash { t with allocSize := A } key = resolve hash t key := rfl
  rw [hres]
  simp only
  cases t.table[resolve hash t key]? with
  | none => rfl
  | some b =>
    simp only
    cases b.place N key with
    | none => rfl
    | some r => rfl

theorem foldlM_insert_noexcept_alloc (N : Nat) (hash : Key → Nat) (A : Nat)
    (vals : List Key) :
    ∀ t : ADS_set Key, vals.foldlM (insert_noexcept N hash) { t with allocSize := A } =
      (vals.foldlM (insert_noexcept N hash) t).map (fun r => { r with allocSize := A }) := by
  induction vals with
  | nil => intro t; rfl
  | cons v vals ih =>
    intro t
    simp only [List.foldlM_cons]
    rw [insert_noexcept_alloc]
    cases insert_noexcept N hash t v with
    | none => rfl
    | some t2 =>
      simp only [Option.map_some', Option.some_bind]
      exact ih t2

theorem rehash_unfold (N : Nat) (hash : Key → Nat) (t : ADS_set Key) (rb : Bucket Key)
    (hne : t.table.length ≠ 0) (hroom : t.table.length < newAllocSize t.allocSize)
    (hrb : t.table[t.nextToSplit]? = some rb) :
    rehash N hash t = rb.keys.foldlM (insert_noexcept N hash)
      { t with
        table := t.table.set t.nextToSplit (Bucket.last []) ++ [Bucket.last []]
        nextToSplit := t.nextToSplit + 1
        allocSize := newAllocSize t.allocSize } := by
  simp only [rehash, hne, if_false, hroom, if_true, hrb]

theorem rehash_noalloc_unfold (N : Nat) (hash : Key → Nat) (t : ADS_set Key) (rb : Bucket Key)
    (hroom : t.table.length < t.allocSize) (hrb : t.table[t.nextToSplit]? = some rb) :
    rehash_noalloc N hash t = rb.keys.foldlM (insert_noexcept N hash)
      { t with
        table := t.table.set t.nextToSplit (Bucket.last []) ++ [Bucket.last []]
        nextToSplit := t.nextToSplit + 1 } := by
  have hlen : t.nextToSplit < t.table.length := by
    by_contra hc
    rw [List.getElem?_eq_none (by omega)] at hrb
    simp at hrb
  have e1 : (t.table ++ [Bucket.last []])[t.nextToSplit]? = some rb := by
    rw [List.getElem?_append_left hlen]; exact hrb
  have e2 : (t.table ++ [Bucket.last []]).set t.nextToSplit (Bucket.last []) =
      t.table.set t.nextToSplit (Bucket.last []) ++ [Bucket.last []] := by
    rw [List.set_append]; simp [hlen]
  simp only [rehash_noalloc, hroom, if_true, e1, e2]

theorem rehash_eq_rehash_noalloc (N : Nat) (hash : Key → Nat) (t : ADS_set Key)
    (rb : Bucket Key) (hroom : t.table.length < t.allocSize)
    (hrb : t.table[t.nextToSplit]? = some rb) :
    rehash N hash t =
      (rehash_noalloc N hash t).map (fun r => { r with allocSize := newAllocSize t.allocSize }) := by
  have hlen : t.nextToSplit < t.table.length := by
    by_contra hc
    rw [List.getElem?_eq_none (by omega)] at hrb
    simp at hrb
  have hroom2 : t.table.length < newAllocSize t.allocSize := by
    unfold newAllocSize; omega
  rw [rehash_unfold N hash t rb (by omega) hroom2 hrb,
    rehash_noalloc_unfold N hash t rb hroom hrb,
    ← foldlM_insert_noexcept_alloc]

theorem resolve_eq_cursor (hash : Key → Nat) (t : ADS_set Key) (v : Key)
    (hlt : t.nextToSplit < 2 ^ t.d) (hr : resolve hash t v = t.nextToSplit) :
    h hash v t.d = t.nextToSplit := by
  unfold resolve at hr
  split at hr
  · rcases h_succ hash v t.d with e | e <;> omega
  · exact hr

theorem Mid.mem_row {N : Nat} {hash : Key → Nat} {t : ADS_set Key} (hm : Mid N hash t)
    (v : Key) (hv : v ∈ allKeys t) :
    ∃ b, t.table[resolve hash t v]? = some b ∧ v ∈ b.keys := by
  obtain ⟨b, hb, hvb⟩ := List.mem_flatMap.1 hv
  obtain ⟨i, hi⟩ := List.mem_iff_getElem?.1 hb
  have := hm.home i b hi v hvb
  rw [this]
  exact ⟨b, hi, hvb⟩

theorem Mid.not_mem_row {N : Nat} {hash : Key → Nat} {t : ADS_set Key} (hm : Mid N hash t)
    (v : Key) (i : Nat) (b : Bucket Key) (hb : t.table[i]? = some b)
    (hne : resolve hash t v ≠ i) : v ∉ b.keys :=
  fun hv => hne (hm.home i b hb v hv)

theorem insert__nosplit (N : Nat) (hash : Key → Nat) (t : ADS_set Key) (key : Key)
    (b b1 : Bucket Key) (hb : t.table[resolve hash t key]? = some b)
    (hp : b.place N key = some (b1, false)) :
    insert_ N hash t key = some { t with table := t.table.set (resolve hash t key) b1 } := by
  have hne : t.table.length ≠ 0 := by
    intro e
    rw [List.getElem?_eq_none (by omega)] at hb
    simp at hb
  simp [insert_, hne, hb, hp]

theorem insert__split (N : Nat) (hN : 0 < N) (hash : Key → Nat) (t : ADS_set Key) (key : Key)
    (hi : Inv N hash t) (b b1 : Bucket Key) (hb : t.table[resolve hash t key]? = some b)
    (hp : b.place N key = some (b1, true)) :
    ∃ t2 sb, (t.table.set (resolve hash t key) b1)[t.nextToSplit]? = some sb ∧
      (if t.table.length + 1 ≤ t.allocSize then
          rehash_noalloc N hash { t with table := t.table.set (resolve hash t key) b1 }
        else rehash N hash { t with table := t.table.set (resolve hash t key) b1 }) = some t2 ∧
      insert_ N hash t key = some (roundCheck t2) ∧
      Mid N hash t2 ∧ t2.d = t.d ∧ t2.nextToSplit = t.nextToSplit + 1 ∧
      t2.numElements = t.numElements ∧ t2.table.length = t.table.length + 1 ∧
      t2.allocSize =
        (if t.table.length + 1 ≤ t.allocSize then t.allocSize else newAllocSize t.allocSize) ∧
      List.Perm (allKeys t2) (key :: allKeys t) ∧
      (∀ i, i ≠ t.nextToSplit → i < t.table.length →
        t2.table[i]? = (t.table.set (resolve hash t key) b1)[i]?) ∧
      (∀ v ∈ sb.keys, h hash v t.d = t.nextToSplit ∧ v ∈ allKeys t2) ∧
      t.nextToSplit < 2 ^ t.d ∧ t.table.length = 2 ^ t.d + t.nextToSplit := by
  have hne : t.table.length ≠ 0 := by
    intro e
    rw [List.getElem?_eq_none (by omega)] at hb
    simp at hb
  obtain ⟨hm, hlt, hal⟩ := hi.mid hne
  obtain ⟨t0, h0, hm0, hd0, hn0, ha0, hc0, hl0, hp0⟩ := insert_noexcept_spec N hN hash t key hm
  have e0 : t0 = { t with table := t.table.set (resolve hash t key) b1 } := by
    simp only [insert_noexcept, hb, hp, Option.some.injEq] at h0
    exact h0.symm
  have hlt0 : t0.nextToSplit < 2 ^ t0.d := by rw [hn0, hd0]; exact hlt
  have hlen0 : t0.nextToSplit < t0.table.length := by have := hm0.size_eq; omega
  obtain ⟨sb, hsb⟩ : ∃ sb, t0.table[t0.nextToSplit]? = some sb :=
    ⟨_, List.getElem?_eq_getElem hlen0⟩
  have hhome : ∀ v ∈ sb.keys, h hash v t.d = t.nextToSplit := by
    intro v hv
    have := resolve_eq_cursor hash t0 v hlt0 (hm0.home _ _ hsb v hv)
    rw [hd0, hn0] at this
    exact this
  have hframe : ∀ (A : Nat) (t2 : ADS_set Key),
      sb.keys.foldlM (insert_noexcept N hash)
        { t0 with
          table := t0.table.set t0.nextToSplit (Bucket.last []) ++ [Bucket.last []]
          nextToSplit := t0.nextToSplit + 1
          allocSize := A } = some t2 →
      ∀ i, i ≠ t.nextToSplit → i < t.table.length → t2.table[i]? = t0.table[i]? := by
    intro A t2 h2 i hi1 hi2
    rw [foldlM_insert_noexcept_frame N hash _ _ t2 h2 i]
    · simp only
      rw [List.getElem?_append_left (by simp; omega), List.getElem?_set]
      have : ¬ t0.nextToSplit = i := by rw [hn0]; exact fun e => hi1 e.symm
      simp [this]
    · intro v hv
      have hv1 := hhome v hv
      have hs := hm.size_eq
      have hlt1 : h hash v t0.d < t0.nextToSplit + 1 := by rw [hd0, hn0]; omega
      simp only [resolve, hlt1, if_true]
      rw [hd0]
      rcases h_succ hash v t.d with e | e <;> omega
  have hsb1 : (t.table.set (resolve hash t key) b1)[t.nextToSplit]? = some sb := by
    rw [e0] at hsb; exact hsb
  have hmem0 : ∀ v ∈ sb.keys, v ∈ allKeys t0 := fun v hv =>
    List.mem_flatMap.2 ⟨sb, List.mem_iff_getElem?.2 ⟨_, hsb⟩, hv⟩
  by_cases hroom : t.table.length + 1 ≤ t.allocSize
  · obtain ⟨t2, h2, hm2, hd2, hn2, ha2, hc2, hl2, hp2⟩ :=
      rehash_noalloc_spec N hN hash t0 hm0 hlt0 (by rw [hl0, ha0]; omega)
    have hfold := rehash_noalloc_unfold N hash t0 sb (by rw [hl0, ha0]; omega) hsb
    rw [h2] at hfold
    refine ⟨t2, sb, hsb1, ?_, ?_, hm2, hd2.trans hd0, by rw [hn2, hn0], hc2.trans hc0,
      by rw [hl2, hl0], ?_, hp2.trans hp0, ?_,
      fun v hv => ⟨hhome v hv, hp2.mem_iff.2 (hmem0 v hv)⟩, hlt, hm.size_eq⟩
    · rw [e0] at h2
      simp only [hroom, if_true, h2]
    · rw [e0] at h2
      simp only [insert_, hne, if_false, hb, hp, if_true, hroom, h2]
    · simp only [hroom, if_true]; rw [ha2, ha0]
    · intro i hi1 hi2
      have := hframe t0.allocSize t2 hfold.symm i hi1 hi2
      rw [e0] at this
      exact this
  · obtain ⟨t2, h2, hm2, hd2, hn2, ha2, hc2, hl2, hp2⟩ :=
      rehash_spec N hN hash t0 hm0 hlt0 (by rw [hl0, ha0]; exact hal)
    have hfold := rehash_unfold N hash t0 sb (by rw [hl0]; exact hne)
      (by rw [hl0, ha0]; have := newAllocSize_gt t.allocSize; omega) hsb
    rw [h2] at hfold
    refine ⟨t2, sb, hsb1, ?_, ?_, hm2, hd2.trans hd0, by rw [hn2, hn0], hc2.trans hc0,
      by rw [hl2, hl0], ?_, hp2.trans hp0, ?_,
      fun v hv => ⟨hhome v hv, hp2.mem_iff.2 (hmem0 v hv)⟩, hlt, hm.size_eq⟩
    · rw [e0] at h2
      simp only [hroom, if_false, h2]
    · rw [e0] at h2
      simp only [insert_, hne, if_false, hb, hp, if_true, hroom, h2]
    · simp only [hroom, if_false]; rw [ha2, ha0]
    · intro i hi1 hi2
      have := hframe (newAllocSize t0.allocSize) t2 hfold.symm i hi1 hi2
      rw [e0] at this
      exact this

theorem insert_absent_eq (N : Nat) (hN : 0 < N) (hash : Key → Nat) (t t0 : ADS_set Key)
    (k : Key) (hi : Inv N hash t) (hk : k ∉ allKeys t) (h0 : insert_ N hash t k = some t0) :
    ∃ it, insert N hash t k =
        some ({ t0 with numElements := t0.numElements + 1 }, it, true) ∧
      Inv N hash { t0 with numElements := t0.numElements + 1 } := by
  obtain ⟨t1, it, h1, hi1, _⟩ := insert_absent N hN hash t k hi hk
  have h2 := h1
  simp only [insert, count_spec N hash t k hi, hk, if_false, h0, ne_eq, not_true_eq_false] at h2
  split at h2
  · simp only [Option.some.injEq, Prod.mk.injEq] at h2
    obtain ⟨e1, _, _⟩ := h2
    refine ⟨it, ?_, ?_⟩
    · rw [h1, ← e1]
    · rw [e1]; exact hi1
  · simp at h2

end SplitDetail

/-! ## Chains without gaps -/

section PackedLemmas

variable {Key : Type} [DecidableEq Key]

theorem Bucket.place_packed (N : Nat) (key : Key) (b : Bucket Key) :
    Bucket.Packed N b → ∀ r, b.place N key = some r → Bucket.Packed N r.1 := by
  induction b with
  | last c =>
    intro _ r hr
    simp only [Bucket.place] at hr
    split at hr
    · rename_i hc
      split at hr
      · simp only [Option.some.injEq] at hr
        rw [← hr]
        exact ⟨hc, trivial⟩
      · simp at hr
    · split at hr
      · simp only [Option.some.injEq] at hr
        rw [← hr]
        trivial
      · simp at hr
  | link c o ih =>
    intro hb r hr
    simp only [Bucket.Packed] at hb
    simp only [Bucket.place, hb.1, if_true, Option.map_eq_some'] at hr
    obtain ⟨r1, h1, h2⟩ := hr
    rw [← h2]
    exact ⟨hb.1, ih hb.2 r1 h1⟩

theorem Bucket.packed_segments (N : Nat) (b : Bucket Key) :
    Bucket.Packed N b →
      ∀ (j : Nat) (seg : List Key), b.segments.get? j = some seg →
        j + 1 < b.segments.length → seg.length = N := by
  induction b with
  | last c =>
    intro _ j seg _ hj
    simp [Bucket.segments] at hj
  | link c o ih =>
    intro hb j seg hseg hj
    simp only [Bucket.Packed] at hb
    cases j with
    | zero =>
      simp only [Bucket.segments, List.get?_cons_zero, Option.some.injEq] at hseg
      rw [← hseg]; exact hb.1
    | succ j =>
      simp only [Bucket.segments, List.get?_cons_succ, List.length_cons] at hseg hj
      exact ih hb.2 j seg hseg (by omega)

theorem insert_noexcept_packed (N : Nat) (hash : Key → Nat) (t t1 : ADS_set Key) (key : Key)
    (hpk : ∀ b ∈ t.table, Bucket.Packed N b)
    (h1 : insert_noexcept N hash t key = some t1) : ∀ b ∈ t1.table, Bucket.Packed N b := by
  obtain ⟨b0, r, hb0, hr, e⟩ := insert_noexcept_table N hash t t1 key h1
  intro b hb
  rw [e] at hb
  rcases List.mem_or_eq_of_mem_set hb with e1 | e1
  · exact hpk b e1
  · rw [e1]
    exact Bucket.place_packed N key b0 (hpk b0 (List.mem_iff_getElem?.2 ⟨_, hb0⟩)) r hr

theorem foldlM_insert_noexcept_packed (N : Nat) (hash : Key → Nat) (vals : List Key) :
    ∀ (t t1 : ADS_set Key), (∀ b ∈ t.table, Bucket.Packed N b) →
      vals.foldlM (insert_noexcept N hash) t = some t1 →
      ∀ b ∈ t1.table, Bucket.Packed N b := by
  induction vals with
  | nil =>
    intro t t1 hpk h1
    simp only [List.foldlM_nil] at h1
    cases h1
    exact hpk
  | cons v vals ih =>
    intro t t1 hpk h1
    simp only [List.foldlM_cons] at h1
    cases h2 : insert_noexcept N hash t v with
    | none => rw [h2] at h1; simp at h1
    | some t2 =>
      rw [h2] at h1
      exact ih t2 t1 (insert_noexcept_packed N hash t t2 v hpk h2) h1

theorem split_start_packed (N : Nat) (l : List (Bucket Key)) (i : Nat)
    (hpk : ∀ b ∈ l, Bucket.Packed N b) :
    (∀ b ∈ l.set i (Bucket.last []) ++ [Bucket.last []], Bucket.Packed N b) ∧
    (∀ b ∈ (l ++ [Bucket.last []]).set i (Bucket.last []), Bucket.Packed N b) := by
  constructor
  · intro b hb
    rcases List.mem_append.1 hb with e | e
    · rcases List.mem_or_eq_of_mem_set e with e1 | e1
      · exact hpk b e1
      · rw [e1]; trivial
    · rw [List.mem_singleton.1 e]; trivial
  · intro b hb
    rcases List.mem_or_eq_of_mem_set hb with e1 | e1
    · rcases List.mem_append.1 e1 with e | e
      · exact hpk b e
      · rw [List.mem_singleton.1 e]; trivial
    · rw [e1]; trivial

theorem rehash_packed (N : Nat) (hash : Key → Nat) (t t1 : ADS_set Key)
    (hpk : ∀ b ∈ t.table, Bucket.Packed N b) (h1 : rehash N hash t = some t1) :
    ∀ b ∈ t1.table, Bucket.Packed N b := by
  unfold rehash at h1
  split at h1
  · simp only [Option.some.injEq] at h1
    rw [← h1]
    intro b hb
    simp only [List.mem_singleton] at hb
    rw [hb]; trivial
  · split at h1
    · split at h1
      · simp at h1
      · exact foldlM_insert_noexcept_packed N hash _ _ t1
          (split_start_packed N t.table t.nextToSplit hpk).1 h1
    · simp at h1

theorem rehash_noalloc_packed (N : Nat) (hash : Key → Nat) (t t1 : ADS_set Key)
    (hpk : ∀ b ∈ t.table, Bucket.Packed N b) (h1 : rehash_noalloc N hash t = some t1) :
    ∀ b ∈ t1.table, Bucket.Packed N b := by
  unfold rehash_noalloc at h1
  split at h1
  · split at h1
    · simp at h1
    · exact foldlM_insert_noexcept_packed N hash _ _ t1
        (split_start_packed N t.table t.nextToSplit hpk).2 h1
  · simp at h1

theorem roundCheck_table (t : ADS_set Key) : (roundCheck t).table = t.table := by
  unfold roundCheck
  split <;> rfl

theorem insert__packed (N : Nat) (hash : Key → Nat) (t t1 : ADS_set Key) (key : Key)
    (hpk : ∀ b ∈ t.table, Bucket.Packed N b) (h1 : insert_ N hash t key = some t1) :
    ∀ b ∈ t1.table, Bucket.Packed N b := by
  unfold insert_ at h1
  split at h1
  · rename_i he
    have hnil : t.table = [] := List.length_eq_zero.1 he
    cases hre : rehash N hash t with
    | none => rw [hre] at h1; simp at h1
    | some t2 =>
      rw [hre] at h1
      simp only at h1
      have hpk2 := rehash_packed N hash t t2 hpk hre
      cases hb : t2.table[resolve hash t key]? with
      | none => rw [hb] at h1; simp at h1
      | some b0 =>
        rw [hb] at h1
        simp only at h1
        split at h1
        · simp only [Option.some.injEq] at h1
          rw [← h1, roundCheck_table]
          intro b hbm
          rcases List.mem_or_eq_of_mem_set hbm with e1 | e1
          · exact hpk2 b e1
          · rw [e1]
            have ht2 : t2.table = [Bucket.last []] := by
              simp only [rehash, he, if_true, Option.some.injEq] at hre
              rw [← hre]
            have hb0 : b0 = Bucket.last [] := by
              have := List.mem_iff_getElem?.2 ⟨_, hb⟩
              rw [ht2] at this
              exact List.mem_singleton.1 this
            rw [hb0]
            trivial
        · simp at h1
  · cases hb : t.table[resolve hash t key]? with
    | none => rw [hb] at h1; simp at h1
    | some b0 =>
      rw [hb] at h1
      simp only at h1
      cases hr : b0.place N key with
      | none => rw [hr] at h1; simp at h1
      | some r =>
        rw [hr] at h1
        simp only at h1
        have hpk0 : ∀ b ∈ t.table.set (resolve hash t key) r.1, Bucket.Packed N b := by
          intro b hbm
          rcases List.mem_or_eq_of_mem_set hbm with e1 | e1
          · exact hpk b e1
          · rw [e1]
            exact Bucket.place_packed N key b0 (hpk b0 (List.mem_iff_getElem?.2 ⟨_, hb⟩)) r hr
        split at h1
        · split at h1
          · simp at h1
          · rename_i t2 hsplit
            simp only [Option.some.injEq] at h1
            rw [← h1, roundCheck_table]
            split at hsplit
            · exact rehash_noalloc_packed N hash _ t2 hpk0 hsplit
            · exact rehash_packed N hash _ t2 hpk0 hsplit
        · simp only [Option.some.injEq] at h1
          rw [← h1]
          exact hpk0

theorem insert_packed (N : Nat) (hash : Key → Nat) (t : ADS_set Key) (key : Key)
    (r : ADS_set Key × Iterator Key × Bool)
    (hpk : ∀ b ∈ t.table, Bucket.Packed N b) (h1 : insert N hash t key = some r) :
    ∀ b ∈ r.1.table, Bucket.Packed N b := by
  unfold insert at h1
  cases hc : count hash t key with
  | none => rw [hc] at h1; simp at h1
  | some c =>
    rw [hc] at h1
    simp only at h1
    split at h1
    · simp only [Option.map_eq_some'] at h1
      obtain ⟨it, _, e⟩ := h1
      rw [← e]; exact hpk
    · cases hins : insert_ N hash t key with
      | none => rw [hins] at h1; simp at h1
      | some t1 =>
        rw [hins] at h1
        simp only at h1
        have hpk1 := insert__packed N hash t t1 key hpk hins
        split at h1
        · simp only [Option.some.injEq] at h1
          rw [← h1]; exact hpk1
        · simp at h1

theorem run_packed (N : Nat) (hash : Key → Nat) :
    ∀ (ops : List (Op Key)) (t t1 : ADS_set Key), (∀ op ∈ ops, op.notErase = true) →
      (∀ b ∈ t.table, Bucket.Packed N b) → run N hash t ops = some t1 →
      ∀ b ∈ t1.table, Bucket.Packed N b := by
  intro ops
  induction ops with
  | nil =>
    intro t t1 _ hpk h1
    simp only [run, List.foldlM_nil] at h1
    cases h1
    exact hpk
  | cons op ops ih =>
    intro t t1 hops hpk h1
    simp only [run, List.foldlM_cons] at h1
    cases hs : step N hash t op with
    | none => rw [hs] at h1; simp at h1
    | some t2 =>
      rw [hs] at h1
      refine ih t2 t1 (fun o ho => hops o (List.mem_cons_of_mem _ ho)) ?_ h1
      cases op with
      | insert key =>
        simp only [step, Option.map_eq_some'] at hs
        obtain ⟨r, hr, e⟩ := hs
        rw [← e]
        exact insert_packed N hash t key r hpk hr
      | erase key =>
        have := hops (Op.erase key) (List.mem_cons_self _ _)
        simp [Op.notErase] at this
      | clear =>
        simp only [step, Option.some.injEq] at hs
        rw [← hs]
        unfold clear
        split
        · exact hpk
        · intro b hb
          simp [ADS_set.init] at hb

end PackedLemmas

/-! ## Placement by `insert_noexcept`, and the frame of `erase` -/

section FrameLemmas

variable {Key : Type} [DecidableEq Key]

theorem insert_noexcept_placement (N : Nat) (hN : 0 < N) (hash : Key → Nat) (t : ADS_set Key)
    (key : Key) (b : Bucket Key) (hb : t.table.get? (resolve hash t key) = some b)
    (hbd : Bucket.Bounded N b) :
    ((∀ seg ∈ b.segments, seg.length = N) ∧
      ∃ b1, b.place N key = some (b1, true) ∧ b1.segments = b.segments ++ [[key]] ∧
        insert_noexcept N hash t key =
          some { t with table := t.table.set (resolve hash t key) b1 }) ∨
    (∃ (pre : List (List Key)) (seg : List Key) (post : List (List Key)) (b1 : Bucket Key),
      b.segments = pre ++ seg :: post ∧ (∀ s ∈ pre, s.length = N) ∧ seg.length < N ∧
      b.place N key = some (b1, false) ∧ b1.segments = pre ++ (seg ++ [key]) :: post ∧
      insert_noexcept N hash t key =
        some { t with table := t.table.set (resolve hash t key) b1 }) := by
  rw [List.get?_eq_getElem?] at hb
  rcases Bucket.place_detail N hN key b hbd with
    ⟨hall, b1, hp, hseg⟩ | ⟨pre, seg, post, b1, h1, h2, h3, hp, h5⟩
  · left
    exact ⟨hall, b1, hp, hseg, by simp [insert_noexcept, hb, hp]⟩
  · right
    exact ⟨pre, seg, post, b1, h1, h2, h3, hp, h5, by simp [insert_noexcept, hb, hp]⟩

theorem Bucket.modifySegment_segments (f : List Key → List Key) (b : Bucket Key) :
    ∀ (j : Nat) (seg : List Key), b.segments[j]? = some seg →
      (b.modifySegment f j).segments = b.segments.set j (f seg) := by
  induction b with
  | last c =>
    intro j seg hseg
    cases j with
    | zero =>
      simp only [Bucket.segments, List.getElem?_cons_zero, Option.some.injEq] at hseg
      simp [Bucket.modifySegment, Bucket.segments, hseg]
    | succ j => simp [Bucket.segments] at hseg
  | link c o ih =>
    intro j seg hseg
    cases j with
    | zero =>
      simp only [Bucket.segments, List.getElem?_cons_zero, Option.some.injEq] at hseg
      simp [Bucket.modifySegment, Bucket.segments, hseg]
    | succ j =>
      simp only [Bucket.segments, List.getElem?_cons_succ] at hseg
      simp [Bucket.modifySegment, Bucket.segments, ih j seg hseg]

theorem eraseSlots_eq_take_drop (key : Key) (seg : List Key) (i : Nat) (hn : seg.Nodup)
    (hi : seg[i]? = some key) :
    eraseSlots key seg = seg.take i ++ seg.drop (i + 1) := by
  obtain ⟨h1, h2⟩ := List.getElem?_eq_some.1 hi
  have hk : key ∈ seg := List.mem_iff_getElem?.2 ⟨i, hi⟩
  have hidx : seg.indexOf key = i := by
    rw [← h2]; exact List.indexOf_getElem hn i h1
  rw [eraseSlots_eq_erase key seg hn hk, ← List.eraseIdx_indexOf_eq_erase, hidx,
    List.eraseIdx_eq_take_drop_succ]

theorem insert__init (N : Nat) (hN : 0 < N) (hash : Key → Nat) (key : Key) :
    insert_ N hash (ADS_set.init : ADS_set Key) key =
      some (ADS_set.mk [Bucket.last [key]] 0 0 1 0) := by
  simp [insert_, rehash, ADS_set.init, resolve, h, Nat.mod_one, Bucket.contents, hN,
    roundCheck, newAllocSize]

end FrameLemmas

section Claims2

variable {Key : Type} [DecidableEq Key]

/-- C11: for two reachable tables over the same hash function `a == b` returns a result, which
is `true` exactly when the sizes agree and every key of `a` has count 1 in `b`, and exactly when
`a.count(k) == b.count(k)` for every key; the result is the same with the operands swapped.
Hence two tables built by inserting the same keys in different orders compare equal. -/
theorem C11_equality (N : Nat) (hN : 0 < N) (hash : Key → Nat) (a b : ADS_set Key)
    (ha : Reachable N hash a) (hb : Reachable N hash b) :
    (∃ r, operatorEq hash a b = some r ∧ operatorEq hash b a = some r ∧
      (r = true ↔ (size a = size b ∧
        ∀ k, count hash a k = some 1 → count hash b k = some 1)) ∧
      (r = true ↔ ∀ k, count hash a k = count hash b k)) ∧
    (∀ l1 l2 : List Key, (∀ k, k ∈ l1 ↔ k ∈ l2) →
      ∃ t1 t2, run N hash ADS_set.init (l1.map Op.insert) = some t1 ∧
        run N hash ADS_set.init (l2.map Op.insert) = some t2 ∧
        operatorEq hash t1 t2 = some true) := by
  constructor
  · have hia := ha.inv hN
    have hib := hb.inv hN
    have hcount : (∀ k, count hash a k = count hash b k) ↔
        ∀ k, k ∈ allKeys a ↔ k ∈ allKeys b := by
      constructor
      · intro h k
        rw [← count_eq_one_iff N hash a k hia, ← count_eq_one_iff N hash b k hib, h k]
      · intro h k
        rw [count_spec N hash a k hia, count_spec N hash b k hib]
        simp only [h k]
    have hab := same_keys_iff N hash a b hia hib
    have hba := same_keys_iff N hash b a hib hia
    refine ⟨decide (size a = size b ∧ ∀ k ∈ allKeys a, k ∈ allKeys b),
      operatorEq_spec N hash a b hia hib, ?_, ?_, ?_⟩
    · rw [operatorEq_spec N hash b a hib hia]
      congr 1
      rw [decide_eq_decide, hab, hba]
      exact ⟨fun h k => (h k).symm, fun h k => (h k).symm⟩
    · rw [decide_eq_true_iff]
      constructor
      · rintro ⟨hs, h⟩
        refine ⟨hs, fun k hk => ?_⟩
        exact (count_eq_one_iff N hash b k hib).2 (h k ((count_eq_one_iff N hash a k hia).1 hk))
      · rintro ⟨hs, h⟩
        refine ⟨hs, fun k hk => ?_⟩
        exact (count_eq_one_iff N hash b k hib).1 (h k ((count_eq_one_iff N hash a k hia).2 hk))
    · rw [decide_eq_true_iff, hab, hcount]
  · intro l1 l2 hl
    obtain ⟨t1, h1, hi1, hs1⟩ := run_spec N hN hash (l1.map Op.insert) ADS_set.init ∅
      (inv_init N hash) (by intro k; simp [allKeys, ADS_set.init])
    obtain ⟨t2, h2, hi2, hs2⟩ := run_spec N hN hash (l2.map Op.insert) ADS_set.init ∅
      (inv_init N hash) (by intro k; simp [allKeys, ADS_set.init])
    refine ⟨t1, t2, h1, h2, ?_⟩
    rw [operatorEq_spec N hash t1 t2 hi1 hi2]
    congr 1
    rw [decide_eq_true_iff, same_keys_iff N hash t1 t2 hi1 hi2]
    intro k
    rw [hs1 k, hs2 k, foldl_stepSet_inserts, foldl_stepSet_inserts]
    simp [hl k]

/-- Witness of C11: the tables built by inserting 1, 2, 3 and by inserting 3, 1, 2. -/
theorem C11_equality_witness :
    (∃ r, operatorEq (fun x : Nat => x) (ADS_set.mk [Bucket.last [1, 2, 3]] 0 0 1 3)
        (ADS_set.mk [Bucket.last [3, 1, 2]] 0 0 1 3) = some r ∧
      operatorEq (fun x : Nat => x) (ADS_set.mk [Bucket.last [3, 1, 2]] 0 0 1 3)
        (ADS_set.mk [Bucket.last [1, 2, 3]] 0 0 1 3) = some r ∧
      (r = true ↔ (size (ADS_set.mk [Bucket.last [1, 2, 3]] 0 0 1 3) =
          size (ADS_set.mk [Bucket.last [3, 1, 2]] 0 0 1 3) ∧
        ∀ k, count (fun x : Nat => x) (ADS_set.mk [Bucket.last [1, 2, 3]] 0 0 1 3) k = some 1 →
          count (fun x : Nat => x) (ADS_set.mk [Bucket.last [3, 1, 2]] 0 0 1 3) k = some 1)) ∧
      (r = true ↔ ∀ k,
        count (fun x : Nat => x) (ADS_set.mk [Bucket.last [1, 2, 3]] 0 0 1 3) k =
          count (fun x : Nat => x) (ADS_set.mk [Bucket.last [3, 1, 2]] 0 0 1 3) k)) ∧
    (∀ l1 l2 : List Nat, (∀ k, k ∈ l1 ↔ k ∈ l2) →
      ∃ t1 t2, run 18 (fun x : Nat => x) ADS_set.init (l1.map Op.insert) = some t1 ∧
        run 18 (fun x : Nat => x) ADS_set.init (l2.map Op.insert) = some t2 ∧
        operatorEq (fun x : Nat => x) t1 t2 = some true) :=
  C11_equality 18 (by decide) (fun x : Nat => x)
    (ADS_set.mk [Bucket.last [1, 2, 3]] 0 0 1 3) (ADS_set.mk [Bucket.last [3, 1, 2]] 0 0 1 3)
    (run_reachable 18 (fun x : Nat => x) [Op.insert 1, Op.insert 2, Op.insert 3]
      ADS_set.init _ Reachable.init (by decide))
    (run_reachable 18 (fun x : Nat => x) [Op.insert 3, Op.insert 1, Op.insert 2]
      ADS_set.init _ Reachable.init (by decide))

theorem Bucket.keys_eq_flatten (b : Bucket Key) : b.keys = b.segments.flatten := by
  induction b with
  | last c => simp [Bucket.keys, Bucket.segments]
  | link c o ih => simp [Bucket.keys, Bucket.segments, ih]

theorem Bucket.mem_keys_iff (b : Bucket Key) (key : Key) :
    key ∈ b.keys ↔ ∃ seg ∈ b.segments, key ∈ seg := by
  rw [Bucket.keys_eq_flatten, List.mem_flatten]

/-- C12: in every reachable state every key stored in any segment of the chain of bucket `i`
resolves to `i` (`a = hash mod 2^d`, recomputed as `hash mod 2^(d+1)` when `a < nextToSplit`);
every further `insert`, `erase` or `clear` runs to completion and leaves a table with the same
property. -/
theorem C12_home (N : Nat) (hN : 0 < N) (hash : Key → Nat) (t : ADS_set Key)
    (hr : Reachable N hash t) :
    (∀ (i : Nat) (b : Bucket Key) (seg : List Key) (key : Key),
      t.table.get? i = some b → seg ∈ b.segments → key ∈ seg →
        resolve hash t key = i ∧
        resolve hash t key =
          (if hash key % 2 ^ t.d < t.nextToSplit then hash key % 2 ^ (t.d + 1)
           else hash key % 2 ^ t.d)) ∧
    (∀ op : Op Key, ∃ t1, step N hash t op = some t1 ∧
      ∀ (i : Nat) (b : Bucket Key) (seg : List Key) (key : Key),
        t1.table.get? i = some b → seg ∈ b.segments → key ∈ seg →
          resolve hash t1 key = i) := by
  have hi := hr.inv hN
  constructor
  · intro i b seg key hb hseg hkey
    rw [List.get?_eq_getElem?] at hb
    exact ⟨hi.home i b hb key ((Bucket.mem_keys_iff b key).2 ⟨seg, hseg, hkey⟩), rfl⟩
  · intro op
    obtain ⟨t1, h1, hi1, _⟩ := step_spec N hN hash t op (allKeys t).toFinset hi
      (by intro k; simp)
    refine ⟨t1, h1, ?_⟩
    intro i b seg key hb hseg hkey
    rw [List.get?_eq_getElem?] at hb
    exact hi1.home i b hb key ((Bucket.mem_keys_iff b key).2 ⟨seg, hseg, hkey⟩)

/-- Witness of C12: `sampleSeven`, the table with 2 slots per bucket holding 0..10 in seven
buckets (`d = 2`, `nextToSplit = 3`). -/
theorem C12_home_witness :
    (∀ (i : Nat) (b : Bucket Nat) (seg : List Nat) (key : Nat),
      sampleSeven.table.get? i = some b → seg ∈ b.segments → key ∈ seg →
        resolve (fun x : Nat => x) sampleSeven key = i ∧
        resolve (fun x : Nat => x) sampleSeven key =
          (if key % 2 ^ sampleSeven.d < sampleSeven.nextToSplit
           then key % 2 ^ (sampleSeven.d + 1) else key % 2 ^ sampleSeven.d)) ∧
    (∀ op : Op Nat, ∃ t1, step 2 (fun x : Nat => x) sampleSeven op = some t1 ∧
      ∀ (i : Nat) (b : Bucket Nat) (seg : List Nat) (key : Nat),
        t1.table.get? i = some b → seg ∈ b.segments → key ∈ seg →
          resolve (fun x : Nat => x) t1 key = i) :=
  C12_home 2 (by decide) (fun x : Nat => x) sampleSeven
    (run_reachable 2 (fun x : Nat => x) ((List.range 11).map Op.insert) ADS_set.init _
      Reachable.init (by decide))

/-- Counterexample to C13: the freshly constructed table is reachable, has `d = 0` and no
bucket, so `2^d = 1` exceeds `currentTableSize = 0`. -/
theorem C13_counterexample :
    Reachable 18 (fun x : Nat => x) (ADS_set.init : ADS_set Nat) ∧
    ¬ ((ADS_set.init : ADS_set Nat).nextToSplit ≤ 2 ^ (ADS_set.init : ADS_set Nat).d ∧
       2 ^ (ADS_set.init : ADS_set Nat).d ≤ (ADS_set.init : ADS_set Nat).currentTableSize ∧
       (ADS_set.init : ADS_set Nat).currentTableSize ≤
         (ADS_set.init : ADS_set Nat).allocSize) :=
  ⟨Reachable.init, by decide⟩

/-- C13 (amended): in every reachable state `nextToSplit ≤ 2^d` and
`currentTableSize ≤ allocSize`; when at least one bucket exists also
`2^d ≤ currentTableSize`; with no bucket, `d`, `nextToSplit` and `allocSize` are 0. -/
theorem C13_bounds (N : Nat) (hN : 0 < N) (hash : Key → Nat) (t : ADS_set Key)
    (hr : Reachable N hash t) :
    0 ≤ t.nextToSplit ∧ t.nextToSplit ≤ 2 ^ t.d ∧ t.currentTableSize ≤ t.allocSize ∧
    (0 < t.currentTableSize → 2 ^ t.d ≤ t.currentTableSize) ∧
    (t.currentTableSize = 0 → t.d = 0 ∧ t.nextToSplit = 0 ∧ t.allocSize = 0) := by
  have hi := hr.inv hN
  unfold ADS_set.currentTableSize
  rcases hi.shape with e | ⟨h1, h2, h3⟩
  · subst e
    simp [ADS_set.init]
  · have hp : 0 < 2 ^ t.d := by positivity
    refine ⟨Nat.zero_le _, by omega, h3, fun _ => by omega, fun h0 => by omega⟩

/-- Witness of C13 (amended): `sampleSeven`, with seven buckets in an array of eight, `d = 2`
and `nextToSplit = 3`. -/
theorem C13_bounds_witness :
    0 ≤ sampleSeven.nextToSplit ∧ sampleSeven.nextToSplit ≤ 2 ^ sampleSeven.d ∧
    sampleSeven.currentTableSize ≤ sampleSeven.allocSize ∧
    (0 < sampleSeven.currentTableSize → 2 ^ sampleSeven.d ≤ sampleSeven.currentTableSize) ∧
    (sampleSeven.currentTableSize = 0 →
      sampleSeven.d = 0 ∧ sampleSeven.nextToSplit = 0 ∧ sampleSeven.allocSize = 0) :=
  C13_bounds 2 (by decide) (fun x : Nat => x) sampleSeven
    (run_reachable 2 (fun x : Nat => x) ((List.range 11).map Op.insert) ADS_set.init _
      Reachable.init (by decide))

/-- C14: when `insert(k)` on a reachable table splits bucket `s = nextToSplit` at depth `d`
(the walk of `insert_` found every segment of the target chain full and returned the chain `b1`
with the key in a fresh segment), the sibling is created at index `currentTableSize = s + 2^d`;
every key of the chain of bucket `s` at that moment is afterwards stored exactly once in the
table, in bucket `s` when `hash mod 2^(d+1) = s` and in the sibling otherwise, never in both;
every other bucket keeps the chain it had at the moment of the split. -/
theorem C14_split (N : Nat) (hN : 0 < N) (hash : Key → Nat) (t : ADS_set Key)
    (hr : Reachable N hash t) (k : Key) (b b1 : Bucket Key)
    (hk : count hash t k = some 0)
    (hb : t.table.get? (resolve hash t k) = some b)
    (hp : b.place N k = some (b1, true)) :
    ∃ t1 it, insert N hash t k = some (t1, it, true) ∧
      t1.currentTableSize = t.currentTableSize + 1 ∧
      t.currentTableSize = t.nextToSplit + 2 ^ t.d ∧
      (∀ sb v, (t.table.set (resolve hash t k) b1).get? t.nextToSplit = some sb →
        v ∈ sb.keys →
        ∃ bs bn, t1.table.get? t.nextToSplit = some bs ∧
          t1.table.get? t.currentTableSize = some bn ∧
          (allKeys t1).count v = 1 ∧
          (hash v % 2 ^ (t.d + 1) = t.nextToSplit → v ∈ bs.keys ∧ v ∉ bn.keys) ∧
          (hash v % 2 ^ (t.d + 1) ≠ t.nextToSplit → v ∈ bn.keys ∧ v ∉ bs.keys)) ∧
      (∀ i, i ≠ t.nextToSplit → i < t.currentTableSize →
        t1.table.get? i = (t.table.set (resolve hash t k) b1).get? i) := by
  have hi := hr.inv hN
  have hk1 : k ∉ allKeys t := (count_eq_zero_iff N hash t k hi).1 hk
  rw [List.get?_eq_getElem?] at hb
  obtain ⟨t2, sb0, hsb0, _, hins, hm2, hd2, hn2, _, hl2, _, _, hframe, hvals, hlt, hsize⟩ :=
    insert__split N hN hash t k hi b b1 hb hp
  obtain ⟨hm3, _, htab3, _, _⟩ := roundCheck_spec N hash t2 hm2
  obtain ⟨it, hinsert, hi1⟩ := insert_absent_eq N hN hash t (roundCheck t2) k hi hk1 hins
  refine ⟨_, it, hinsert, ?_, ?_, ?_, ?_⟩
  · simp only [ADS_set.currentTableSize, htab3, hl2]
  · simp only [ADS_set.currentTableSize]; omega
  · intro sb v hsb hv
    rw [List.get?_eq_getElem?, hsb0] at hsb
    simp only [Option.some.injEq] at hsb
    subst hsb
    obtain ⟨hv1, hv2⟩ := hvals v hv
    have hres : resolve hash t2 v = h hash v (t.d + 1) := by
      have : h hash v t.d < t2.nextToSplit := by rw [hn2, hv1]; omega
      simp only [resolve, hd2, this, if_true]
    obtain ⟨bi, hbi, hvi⟩ := hm2.mem_row v hv2
    rw [hres] at hbi
    have hlen1 : t.nextToSplit < t2.table.length := by omega
    have hlen2 : t.table.length < t2.table.length := by omega
    have hbs : t2.table[t.nextToSplit]? = some t2.table[t.nextToSplit] :=
      List.getElem?_eq_getElem hlen1
    have hbn : t2.table[t.table.length]? = some t2.table[t.table.length] :=
      List.getElem?_eq_getElem hlen2
    have hcount : (allKeys t2).count v = 1 :=
      List.count_eq_one_of_mem (by have := hi1.nodup; rw [allKeys] at this; simp only [htab3] at this; exact this) hv2
    have hpos : 0 < 2 ^ t.d := by positivity
    have hh : h hash v (t.d + 1) = hash v % 2 ^ (t.d + 1) := rfl
    refine ⟨_, _, by rw [List.get?_eq_getElem?]; simp only [htab3]; exact hbs,
      by rw [List.get?_eq_getElem?]; simp only [htab3, ADS_set.currentTableSize]; exact hbn,
      by simp only [allKeys, htab3]; exact hcount, ?_, ?_⟩
    · intro he
      rw [← hh] at he
      rw [he, hbs] at hbi
      simp only [Option.some.injEq] at hbi
      refine ⟨by rw [hbi]; exact hvi, ?_⟩
      exact hm2.not_mem_row v _ _ hbn (by rw [hres, he]; omega)
    · intro he
      rw [← hh] at he
      have he2 : h hash v (t.d + 1) = t.table.length := by
        rcases h_succ hash v t.d with e | e
        · exact absurd (e.trans hv1) he
        · omega
      rw [he2, hbn] at hbi
      simp only [Option.some.injEq] at hbi
      refine ⟨by rw [hbi]; exact hvi, ?_⟩
      exact hm2.not_mem_row v _ _ hbs (by rw [hres, he2]; omega)
  · intro i hi1 hi2
    rw [List.get?_eq_getElem?, List.get?_eq_getElem?]
    simp only [htab3]
    exact hframe i hi1 hi2

/-- Witness of C14: in `sampleSeven`, inserting 15 finds bucket 3 = [3, 7] full; the split of
bucket 3 leaves [3] there and puts [7, 15] into the new bucket 7. -/
theorem C14_split_witness :
    ∃ t1 it, insert 2 (fun x : Nat => x) sampleSeven 15 = some (t1, it, true) ∧
      t1.currentTableSize = sampleSeven.currentTableSize + 1 ∧
      sampleSeven.currentTableSize = sampleSeven.nextToSplit + 2 ^ sampleSeven.d ∧
      (∀ sb v, (sampleSeven.table.set (resolve (fun x : Nat => x) sampleSeven 15)
          (Bucket.link [3, 7] (Bucket.last [15]))).get? sampleSeven.nextToSplit = some sb →
        v ∈ sb.keys →
        ∃ bs bn, t1.table.get? sampleSeven.nextToSplit = some bs ∧
          t1.table.get? sampleSeven.currentTableSize = some bn ∧
          (allKeys t1).count v = 1 ∧
          (v % 2 ^ (sampleSeven.d + 1) = sampleSeven.nextToSplit →
            v ∈ bs.keys ∧ v ∉ bn.keys) ∧
          (v % 2 ^ (sampleSeven.d + 1) ≠ sampleSeven.nextToSplit →
            v ∈ bn.keys ∧ v ∉ bs.keys)) ∧
      (∀ i, i ≠ sampleSeven.nextToSplit → i < sampleSeven.currentTableSize →
        t1.table.get? i = (sampleSeven.table.set (resolve (fun x : Nat => x) sampleSeven 15)
          (Bucket.link [3, 7] (Bucket.last [15]))).get? i) :=
  C14_split 2 (by decide) (fun x : Nat => x) sampleSeven
    (run_reachable 2 (fun x : Nat => x) ((List.range 11).map Op.insert) ADS_set.init _
      Reachable.init (by decide))
    15 (Bucket.last [3, 7]) (Bucket.link [3, 7] (Bucket.last [15]))
    (by decide) (by decide) (by decide)

/-- Counterexample to C15: in `sampleHole` (2 slots per bucket) the chain of bucket 1, the
target of the absent key 17, ends in the full segment [9, 13] without successor, yet
`insert(17)` stores 17 in the head segment and performs no split: the table keeps its five
buckets. -/
theorem C15_counterexample :
    Reachable 2 (fun x : Nat => x) sampleHole ∧
    count (fun x : Nat => x) sampleHole 17 = some 0 ∧
    sampleHole.table.get? (resolve (fun x : Nat => x) sampleHole 17) =
      some (Bucket.link [5] (Bucket.last [9, 13])) ∧
    (Bucket.link [5] (Bucket.last [9, 13])).segments.getLast? = some [9, 13] ∧
    ([9, 13] : List Nat).length = 2 ∧
    insert 2 (fun x : Nat => x) sampleHole 17 =
      some (ADS_set.mk [Bucket.last [0], Bucket.link [5, 17] (Bucket.last [9, 13]),
          Bucket.last [2], Bucket.last [3], Bucket.last [4]] 2 1 6 8,
        { elem := some 17, currentBucket := some (1, 0), arrIndex := 1, elemIndex := 1 },
        true) :=
  ⟨run_reachable 2 (fun x : Nat => x) sampleHoleOps ADS_set.init _ Reachable.init (by decide),
    by decide, by decide, by decide, by decide, by decide⟩

/-- C15 (amended): on a reachable table with at least one bucket, `insert(k)` of an absent key
performs a split exactly when every segment of the target chain holds `N` keys: then the key is
first put into a fresh segment linked behind the chain, `currentTableSize` grows by exactly one
and `nextToSplit` advances by one step (or the round completes); when some segment has a free
slot, `currentTableSize`, `d`, `nextToSplit` and `allocSize` are unchanged. -/
theorem C15_split_trigger (N : Nat) (hN : 0 < N) (hash : Key → Nat) (t : ADS_set Key)
    (hr : Reachable N hash t) (k : Key) (b : Bucket Key)
    (hk : count hash t k = some 0)
    (hb : t.table.get? (resolve hash t k) = some b) :
    ∃ t1 it, insert N hash t k = some (t1, it, true) ∧
      ((∀ seg ∈ b.segments, seg.length = N) →
        t1.currentTableSize = t.currentTableSize + 1 ∧
        (∃ b1, b.place N k = some (b1, true) ∧ b1.segments = b.segments ++ [[k]]) ∧
        (t1.d, t1.nextToSplit) =
          (if t.nextToSplit + 1 = 2 ^ t.d then (t.d + 1, 0) else (t.d, t.nextToSplit + 1))) ∧
      (¬ (∀ seg ∈ b.segments, seg.length = N) →
        t1.currentTableSize = t.currentTableSize ∧ t1.d = t.d ∧
        t1.nextToSplit = t.nextToSplit ∧ t1.allocSize = t.allocSize) := by
  have hi := hr.inv hN
  have hk1 : k ∉ allKeys t := (count_eq_zero_iff N hash t k hi).1 hk
  rw [List.get?_eq_getElem?] at hb
  have hbd : Bucket.Bounded N b := hi.bounded b (List.mem_iff_getElem?.2 ⟨_, hb⟩)
  rcases Bucket.place_detail N hN k b hbd with
    ⟨hall, b1, hp, hseg⟩ | ⟨pre, seg, post, b1, hsegs, _, hfree, hp, _⟩
  · obtain ⟨t2, sb0, _, _, hins, hm2, hd2, hn2, _, hl2, _, _, _, _, _, _⟩ :=
      insert__split N hN hash t k hi b b1 hb hp
    obtain ⟨_, _, htab3, _, _⟩ := roundCheck_spec N hash t2 hm2
    obtain ⟨it, hinsert, _⟩ := insert_absent_eq N hN hash t (roundCheck t2) k hi hk1 hins
    refine ⟨_, it, hinsert, fun _ => ⟨?_, ⟨b1, hp, hseg⟩, ?_⟩, fun hno => absurd hall hno⟩
    · simp only [ADS_set.currentTableSize, htab3, hl2]
    · simp only [roundCheck, hn2, hd2]
      by_cases he : t.nextToSplit + 1 = 2 ^ t.d
      · simp [he]
      · simp [he, hn2, hd2]
  · have hins := insert__nosplit N hash t k b b1 hb hp
    obtain ⟨it, hinsert, _⟩ := insert_absent_eq N hN hash t _ k hi hk1 hins
    refine ⟨_, it, hinsert, fun hall => ?_, fun _ => ⟨?_, rfl, rfl, rfl⟩⟩
    · have := hall seg (by rw [hsegs]; simp)
      omega
    · simp [ADS_set.currentTableSize]

/-- Witness of C15 (amended): in `sampleSeven`, inserting 15 meets the full chain [3, 7] of
bucket 3 and splits; the table grows from seven to eight buckets. -/
theorem C15_split_trigger_witness :
    ∃ t1 it, insert 2 (fun x : Nat => x) sampleSeven 15 = some (t1, it, true) ∧
      ((∀ seg ∈ (Bucket.last [3, 7]).segments, seg.length = 2) →
        t1.currentTableSize = sampleSeven.currentTableSize + 1 ∧
        (∃ b1, (Bucket.last [3, 7]).place 2 15 = some (b1, true) ∧
          b1.segments = (Bucket.last [3, 7]).segments ++ [[15]]) ∧
        (t1.d, t1.nextToSplit) =
          (if sampleSeven.nextToSplit + 1 = 2 ^ sampleSeven.d then (sampleSeven.d + 1, 0)
           else (sampleSeven.d, sampleSeven.nextToSplit + 1))) ∧
      (¬ (∀ seg ∈ (Bucket.last [3, 7]).segments, seg.length = 2) →
        t1.currentTableSize = sampleSeven.currentTableSize ∧ t1.d = sampleSeven.d ∧
        t1.nextToSplit = sampleSeven.nextToSplit ∧ t1.allocSize = sampleSeven.allocSize) :=
  C15_split_trigger 2 (by decide) (fun x : Nat => x) sampleSeven
    (run_reachable 2 (fun x : Nat => x) ((List.range 11).map Op.insert) ADS_set.init _
      Reachable.init (by decide))
    15 (Bucket.last [3, 7]) (by decide) (by decide)

/-- Counterexample to C16: `sampleFull` is reachable and a split is due when 18 is inserted
(the walk returns the chain with 18 in a fresh segment), but the backing array has no spare
slot (`allocSize = currentTableSize = 1`): `rehash_noalloc` on that state would write
`table[1]` outside the array and yields no table, while `rehash` yields one. -/
theorem C16_counterexample :
    Reachable 18 (fun x : Nat => x) sampleFull ∧
    count (fun x : Nat => x) sampleFull 18 = some 0 ∧
    sampleFull.table.get? (resolve (fun x : Nat => x) sampleFull 18) =
      some (Bucket.last (List.range 18)) ∧
    (Bucket.last (List.range 18)).place 18 18 =
      some (Bucket.link (List.range 18) (Bucket.last [18]), true) ∧
    sampleFull.allocSize = sampleFull.currentTableSize ∧
    rehash_noalloc 18 (fun x : Nat => x)
      { sampleFull with table := [Bucket.link (List.range 18) (Bucket.last [18])] } = none ∧
    (rehash 18 (fun x : Nat => x)
      { sampleFull with
        table := [Bucket.link (List.range 18) (Bucket.last [18])] }).isSome = true :=
  ⟨run_reachable 18 (fun x : Nat => x) ((List.range 18).map Op.insert) ADS_set.init _
      Reachable.init (by decide),
    by decide, by decide, by decide, by decide, by decide, by decide⟩

/-- C16 (amended): let a split be due on a reachable table (the walk of `insert_(k)` returned
the chain `b1` with flag `true`). `rehash` always applies to that state, makes
`currentTableSize` one larger and `allocSize` strictly larger. When
`allocSize > currentTableSize`, `rehash_noalloc` applies as well and both produce the same
chains, the same `d`, `nextToSplit` and `numElements`; `rehash_noalloc` keeps `allocSize`.
`insert_` runs `rehash_noalloc` exactly when `allocSize > currentTableSize`. -/
theorem C16_split_paths (N : Nat) (hN : 0 < N) (hash : Key → Nat) (t : ADS_set Key)
    (hr : Reachable N hash t) (k : Key) (b b1 : Bucket Key)
    (hb : t.table.get? (resolve hash t k) = some b)
    (hp : b.place N k = some (b1, true)) :
    (∃ r1, rehash N hash { t with table := t.table.set (resolve hash t k) b1 } = some r1 ∧
      r1.currentTableSize = t.currentTableSize + 1 ∧ t.allocSize < r1.allocSize ∧
      r1.nextToSplit = t.nextToSplit + 1 ∧ r1.d = t.d ∧
      (t.currentTableSize < t.allocSize →
        ∃ r2, rehash_noalloc N hash { t with table := t.table.set (resolve hash t k) b1 } =
            some r2 ∧
          r1.table = r2.table ∧ r1.nextToSplit = r2.nextToSplit ∧ r1.d = r2.d ∧
          r1.numElements = r2.numElements ∧
          r2.currentTableSize = t.currentTableSize + 1 ∧ r2.allocSize = t.allocSize)) ∧
    insert_ N hash t k =
      (if t.currentTableSize < t.allocSize then
        (rehash_noalloc N hash { t with table := t.table.set (resolve hash t k) b1 }).map
          roundCheck
       else
        (rehash N hash { t with table := t.table.set (resolve hash t k) b1 }).map
          roundCheck) := by
  have hi := hr.inv hN
  rw [List.get?_eq_getElem?] at hb
  obtain ⟨t2, sb0, hsb0, hpath, hins, _, hd2, hn2, hc2, hl2, ha2, _, _, _, _, _⟩ :=
    insert__split N hN hash t k hi b b1 hb hp
  simp only [ADS_set.currentTableSize]
  by_cases hroom : t.table.length < t.allocSize
  · have hroom1 : t.table.length + 1 ≤ t.allocSize := by omega
    simp only [hroom1, if_true] at hpath ha2
    have heq := rehash_eq_rehash_noalloc N hash
      { t with table := t.table.set (resolve hash t k) b1 } sb0
      (by simpa using hroom) hsb0
    rw [hpath] at heq
    simp only [Option.map_some'] at heq
    refine ⟨⟨_, heq, ?_, ?_, hn2, hd2, fun _ => ⟨t2, hpath, rfl, rfl, rfl, rfl, hl2, ha2⟩⟩, ?_⟩
    · simp only [hl2]
    · exact newAllocSize_gt t.allocSize
    · simp only [hroom, if_true, hpath, Option.map_some', hins]
  · have hroom1 : ¬ t.table.length + 1 ≤ t.allocSize := by omega
    simp only [hroom1, if_false] at hpath ha2
    refine ⟨⟨t2, hpath, hl2, ?_, hn2, hd2, fun h => absurd h hroom⟩, ?_⟩
    · rw [ha2]; exact newAllocSize_gt t.allocSize
    · simp only [hroom, if_false, hpath, Option.map_some', hins]

/-- Witness of C16 (amended): with 2 slots per bucket insert 0, 1, 2, 4, 3, 5, 9 leaves five
buckets in an array of six; inserting 13 then 17 fills bucket 1 and makes a split due with a
spare slot, so both paths apply. -/
theorem C16_split_paths_witness :
    (∃ r1, rehash 2 (fun x : Nat => x)
        { (ADS_set.mk [Bucket.last [0], Bucket.link [1, 5] (Bucket.last [9, 13]),
            Bucket.last [2], Bucket.last [3], Bucket.last [4]] 2 1 6 8) with
          table := [Bucket.last [0],
            Bucket.link [1, 5] (Bucket.link [9, 13] (Bucket.last [17])),
            Bucket.last [2], Bucket.last [3], Bucket.last [4]] } = some r1 ∧
      r1.currentTableSize = 6 ∧ 6 < r1.allocSize ∧ r1.nextToSplit = 2 ∧ r1.d = 2 ∧
      ((5 : Nat) < 6 →
        ∃ r2, rehash_noalloc 2 (fun x : Nat => x)
            { (ADS_set.mk [Bucket.last [0], Bucket.link [1, 5] (Bucket.last [9, 13]),
                Bucket.last [2], Bucket.last [3], Bucket.last [4]] 2 1 6 8) with
              table := [Bucket.last [0],
                Bucket.link [1, 5] (Bucket.link [9, 13] (Bucket.last [17])),
                Bucket.last [2], Bucket.last [3], Bucket.last [4]] } = some r2 ∧
          r1.table = r2.table ∧ r1.nextToSplit = r2.nextToSplit ∧ r1.d = r2.d ∧
          r1.numElements = r2.numElements ∧ r2.currentTableSize = 6 ∧ r2.allocSize = 6)) :=
  (C16_split_paths 2 (by decide) (fun x : Nat => x)
    (ADS_set.mk [Bucket.last [0], Bucket.link [1, 5] (Bucket.last [9, 13]),
      Bucket.last [2], Bucket.last [3], Bucket.last [4]] 2 1 6 8)
    (run_reachable 2 (fun x : Nat => x)
      [Op.insert 0, Op.insert 1, Op.insert 2, Op.insert 4, Op.insert 3, Op.insert 5,
        Op.insert 9, Op.insert 13] ADS_set.init _ Reachable.init (by decide))
    17 (Bucket.link [1, 5] (Bucket.last [9, 13]))
    (Bucket.link [1, 5] (Bucket.link [9, 13] (Bucket.last [17])))
    (by decide) (by decide)).1

/-- C17: on every reachable table and for every key, `count`, `find`, `insert` and `erase`
return a result (no table index is out of range). With at least one bucket, `h(key, d)` is
below `currentTableSize`, so is `h(key, d+1)` whenever the address is recomputed, hence the
resolved address is, and `nextToSplit` is below `currentTableSize`; when `insert_` takes the
incremental path `currentTableSize < allocSize` and `rehash_noalloc` yields a table. With no
bucket, `count`, `find` and `erase` return the not-found result. -/
theorem C17_in_bounds (N : Nat) (hN : 0 < N) (hash : Key → Nat) (t : ADS_set Key)
    (hr : Reachable N hash t) (k : Key) :
    ((∃ c, count hash t k = some c) ∧ (∃ it, find hash t k = some it) ∧
      (∃ r, insert N hash t k = some r) ∧ (∃ r, erase hash t k = some r)) ∧
    (0 < t.currentTableSize →
      h hash k t.d < t.currentTableSize ∧
      (h hash k t.d < t.nextToSplit → h hash k (t.d + 1) < t.currentTableSize) ∧
      resolve hash t k < t.currentTableSize ∧
      t.nextToSplit < t.currentTableSize) ∧
    (∀ b b1, t.table.get? (resolve hash t k) = some b → b.place N k = some (b1, true) →
      t.currentTableSize + 1 ≤ t.allocSize →
      t.currentTableSize < t.allocSize ∧
      ∃ r, rehash_noalloc N hash { t with table := t.table.set (resolve hash t k) b1 } =
        some r) ∧
    (t.currentTableSize = 0 →
      count hash t k = some 0 ∧ find hash t k = some (end_ t) ∧
      erase hash t k = some (t, 0)) := by
  have hi := hr.inv hN
  simp only [ADS_set.currentTableSize]
  refine ⟨⟨⟨_, count_spec N hash t k hi⟩, ?_, ?_, ?_⟩, ?_, ?_, ?_⟩
  · by_cases hk : k ∈ allKeys t
    · obtain ⟨_, _, _, _, _, _, _, _, _, _, _, _, hf⟩ := lookup_present N hash t k hi hk
      exact ⟨_, hf⟩
    · exact ⟨_, find_absent N hash t k hi hk⟩
  · by_cases hk : k ∈ allKeys t
    · obtain ⟨it, h1, _⟩ := insert_present N hash t k hi hk
      exact ⟨_, h1⟩
    · obtain ⟨t1, it, h1, _⟩ := insert_absent N hN hash t k hi hk
      exact ⟨_, h1⟩
  · by_cases hk : k ∈ allKeys t
    · obtain ⟨t1, h1, _⟩ := erase_present N hash t k hi hk
      exact ⟨_, h1⟩
    · exact ⟨_, erase_absent N hash t k hi hk⟩
  · intro hpos
    obtain ⟨hm, hlt, _⟩ := hi.mid (by omega)
    have h1 := h_lt hash k t.d
    have hs := hm.size_eq
    refine ⟨by omega, ?_, resolve_lt hash t k hs, by omega⟩
    intro hc
    rcases h_succ hash k t.d with e | e <;> omega
  · intro b b1 hb hp hroom
    rw [List.get?_eq_getElem?] at hb
    obtain ⟨t2, _, _, hpath, _⟩ := insert__split N hN hash t k hi b b1 hb hp
    simp only [hroom, if_true] at hpath
    exact ⟨by omega, t2, hpath⟩
  · intro h0
    have hk : k ∉ allKeys t := by rw [allKeys_nil_of_length t h0]; simp
    exact ⟨(count_eq_zero_iff N hash t k hi).2 hk, find_absent N hash t k hi hk,
      erase_absent N hash t k hi hk⟩

/-- Witness of C17: key 22 on `sampleSeven`; its address `22 mod 4 = 2` lies below
`nextToSplit = 3` and is recomputed as `22 mod 8 = 6`, below the seven buckets. -/
theorem C17_in_bounds_witness :
    ((∃ c, count (fun x : Nat => x) sampleSeven 22 = some c) ∧
      (∃ it, find (fun x : Nat => x) sampleSeven 22 = some it) ∧
      (∃ r, insert 2 (fun x : Nat => x) sampleSeven 22 = some r) ∧
      (∃ r, erase (fun x : Nat => x) sampleSeven 22 = some r)) ∧
    (0 < sampleSeven.currentTableSize →
      h (fun x : Nat => x) 22 sampleSeven.d < sampleSeven.currentTableSize ∧
      (h (fun x : Nat => x) 22 sampleSeven.d < sampleSeven.nextToSplit →
        h (fun x : Nat => x) 22 (sampleSeven.d + 1) < sampleSeven.currentTableSize) ∧
      resolve (fun x : Nat => x) sampleSeven 22 < sampleSeven.currentTableSize ∧
      sampleSeven.nextToSplit < sampleSeven.currentTableSize) ∧
    (∀ b b1, sampleSeven.table.get? (resolve (fun x : Nat => x) sampleSeven 22) = some b →
      b.place 2 22 = some (b1, true) →
      sampleSeven.currentTableSize + 1 ≤ sampleSeven.allocSize →
      sampleSeven.currentTableSize < sampleSeven.allocSize ∧
      ∃ r, rehash_noalloc 2 (fun x : Nat => x)
        { sampleSeven with
          table := sampleSeven.table.set (resolve (fun x : Nat => x) sampleSeven 22) b1 } =
        some r) ∧
    (sampleSeven.currentTableSize = 0 →
      count (fun x : Nat => x) sampleSeven 22 = some 0 ∧
      find (fun x : Nat => x) sampleSeven 22 = some (end_ sampleSeven) ∧
      erase (fun x : Nat => x) sampleSeven 22 = some (sampleSeven, 0)) :=
  C17_in_bounds 2 (by decide) (fun x : Nat => x) sampleSeven
    (run_reachable 2 (fun x : Nat => x) ((List.range 11).map Op.insert) ADS_set.init _
      Reachable.init (by decide)) 22

/-- Counterexample to C18: `insert(6)` on `sampleHole` (2 slots per bucket) completes and
leaves bucket 1 with the head segment [5], which has a successor and holds 1 key, not 2. -/
theorem C18_counterexample :
    Reachable 2 (fun x : Nat => x) sampleHole ∧
    insert 2 (fun x : Nat => x) sampleHole 6 =
      some (ADS_set.mk [Bucket.last [0], Bucket.link [5] (Bucket.last [9, 13]),
          Bucket.last [2, 6], Bucket.last [3], Bucket.last [4]] 2 1 6 8,
        { elem := some 6, currentBucket := some (2, 0), arrIndex := 2, elemIndex := 1 },
        true) ∧
    (Bucket.link [5] (Bucket.last [9, 13])).segments.get? 0 = some [5] ∧
    0 + 1 < (Bucket.link [5] (Bucket.last [9, 13])).segments.length ∧
    ([5] : List Nat).length ≠ 2 :=
  ⟨run_reachable 2 (fun x : Nat => x) sampleHoleOps ADS_set.init _ Reachable.init (by decide),
    by decide, by decide, by decide, by decide⟩

/-- C18 (amended): every sequence of `insert` and `clear` calls (no `erase`) on a fresh table
runs to completion and leaves a table in which every segment that has a successor holds exactly
`N` keys; and an `insert` on any table with that property leaves a table with that
property. -/
theorem C18_fill (N : Nat) (hN : 0 < N) (hash : Key → Nat) (ops : List (Op Key))
    (hops : ∀ op ∈ ops, op.notErase = true) :
    (∃ t, run N hash ADS_set.init ops = some t ∧
      ∀ b ∈ t.table, ∀ (j : Nat) (seg : List Key), b.segments.get? j = some seg →
        j + 1 < b.segments.length → seg.length = N) ∧
    (∀ (t : ADS_set Key) (key : Key) (r : ADS_set Key × Iterator Key × Bool),
      (∀ b ∈ t.table, Bucket.Packed N b) → insert N hash t key = some r →
        ∀ b ∈ r.1.table, Bucket.Packed N b) := by
  constructor
  · obtain ⟨t, h1, _, _⟩ := run_spec N hN hash ops ADS_set.init ∅ (inv_init N hash)
      (by intro k; simp [allKeys, ADS_set.init])
    refine ⟨t, h1, ?_⟩
    have hpk := run_packed N hash ops ADS_set.init t hops
      (by intro b hb; simp [ADS_set.init] at hb) h1
    intro b hb j seg hseg hj
    exact Bucket.packed_segments N b (hpk b hb) j seg hseg hj
  · intro t key r hpk h1
    exact insert_packed N hash t key r hpk h1

/-- Witness of C18 (amended): with 2 slots per bucket, insert 0, 1, 2, 4, 3, 5, 9, 13. -/
theorem C18_fill_witness :
    ∃ t, run 2 (fun x : Nat => x) ADS_set.init
        [Op.insert 0, Op.insert 1, Op.insert 2, Op.insert 4, Op.insert 3, Op.insert 5,
         Op.insert 9, Op.insert 13] = some t ∧
      ∀ b ∈ t.table, ∀ (j : Nat) (seg : List Nat), b.segments.get? j = some seg →
        j + 1 < b.segments.length → seg.length = 2 :=
  (C18_fill 2 (by decide) (fun x : Nat => x)
    [Op.insert 0, Op.insert 1, Op.insert 2, Op.insert 4, Op.insert 3, Op.insert 5,
     Op.insert 9, Op.insert 13] (by decide)).1

/-- C19: on a reachable table, for the chain `b` of the key's target bucket: either every
segment of `b` holds `N` keys, and then `insert_noexcept` and `insert_` link one fresh segment
holding the key behind the chain (`insert_` goes on to split); or the first segment in link
order with a free slot receives the key at its end and the chain keeps its segments. The same
holds for `insert_noexcept` on any table whose target chain has no segment above `N` keys, as
met during a redistribution. On the table without buckets `insert_` creates bucket 0 and stores
the key in its head segment. -/
theorem C19_placement (N : Nat) (hN : 0 < N) (hash : Key → Nat) (t : ADS_set Key)
    (hr : Reachable N hash t) (k : Key) (b : Bucket Key)
    (hb : t.table.get? (resolve hash t k) = some b) :
    (((∀ seg ∈ b.segments, seg.length = N) ∧
        ∃ b1, b.place N k = some (b1, true) ∧ b1.segments = b.segments ++ [[k]] ∧
          insert_noexcept N hash t k =
            some { t with table := t.table.set (resolve hash t k) b1 } ∧
          insert_ N hash t k =
            (if t.currentTableSize + 1 ≤ t.allocSize then
              rehash_noalloc N hash { t with table := t.table.set (resolve hash t k) b1 }
             else rehash N hash { t with table := t.table.set (resolve hash t k) b1 }).map
              roundCheck) ∨
      (∃ (pre : List (List Key)) (seg : List Key) (post : List (List Key)) (b1 : Bucket Key),
        b.segments = pre ++ seg :: post ∧ (∀ s ∈ pre, s.length = N) ∧ seg.length < N ∧
        b.place N k = some (b1, false) ∧ b1.segments = pre ++ (seg ++ [k]) :: post ∧
        b1.segments.length = b.segments.length ∧
        insert_noexcept N hash t k =
          some { t with table := t.table.set (resolve hash t k) b1 } ∧
        insert_ N hash t k =
          some { t with table := t.table.set (resolve hash t k) b1 })) ∧
    (∀ (s : ADS_set Key) (key : Key) (c : Bucket Key),
      s.table.get? (resolve hash s key) = some c → Bucket.Bounded N c →
      ((∀ seg ∈ c.segments, seg.length = N) ∧
        ∃ c1, c.place N key = some (c1, true) ∧ c1.segments = c.segments ++ [[key]] ∧
          insert_noexcept N hash s key =
            some { s with table := s.table.set (resolve hash s key) c1 }) ∨
      (∃ (pre : List (List Key)) (seg : List Key) (post : List (List Key)) (c1 : Bucket Key),
        c.segments = pre ++ seg :: post ∧ (∀ x ∈ pre, x.length = N) ∧ seg.length < N ∧
        c.place N key = some (c1, false) ∧ c1.segments = pre ++ (seg ++ [key]) :: post ∧
        insert_noexcept N hash s key =
          some { s with table := s.table.set (resolve hash s key) c1 })) ∧
    (∀ key : Key, insert_ N hash (ADS_set.init : ADS_set Key) key =
      some (ADS_set.mk [Bucket.last [key]] 0 0 1 0)) := by
  have hi := hr.inv hN
  refine ⟨?_, fun s key c hc hcb => insert_noexcept_placement N hN hash s key c hc hcb,
    fun key => insert__init N hN hash key⟩
  have hb1 := hb
  rw [List.get?_eq_getElem?] at hb1
  have hbd : Bucket.Bounded N b := hi.bounded b (List.mem_iff_getElem?.2 ⟨_, hb1⟩)
  rcases insert_noexcept_placement N hN hash t k b hb hbd with
    ⟨hall, b1, hp, hseg, hne⟩ | ⟨pre, seg, post, b1, h1, h2, h3, hp, h5, hne⟩
  · left
    obtain ⟨t2, _, _, hpath, hins, _⟩ := insert__split N hN hash t k hi b b1 hb1 hp
    refine ⟨hall, b1, hp, hseg, hne, ?_⟩
    simp only [ADS_set.currentTableSize]
    rw [hpath, hins]
    rfl
  · right
    refine ⟨pre, seg, post, b1, h1, h2, h3, hp, h5, by rw [h5, h1]; simp, hne,
      insert__nosplit N hash t k b b1 hb1 hp⟩

/-- Witness of C19: in `sampleHole`, key 17 goes to bucket 1, whose head segment [5] has a free
slot in front of the full segment [9, 13]. -/
theorem C19_placement_witness :
    (((∀ seg ∈ (Bucket.link [5] (Bucket.last [9, 13])).segments, seg.length = 2) ∧
        ∃ b1, (Bucket.link [5] (Bucket.last [9, 13])).place 2 17 = some (b1, true) ∧
          b1.segments = (Bucket.link [5] (Bucket.last [9, 13])).segments ++ [[17]] ∧
          insert_noexcept 2 (fun x : Nat => x) sampleHole 17 =
            some { sampleHole with
              table := sampleHole.table.set (resolve (fun x : Nat => x) sampleHole 17) b1 } ∧
          insert_ 2 (fun x : Nat => x) sampleHole 17 =
            (if sampleHole.currentTableSize + 1 ≤ sampleHole.allocSize then
              rehash_noalloc 2 (fun x : Nat => x) { sampleHole with
                table := sampleHole.table.set (resolve (fun x : Nat => x) sampleHole 17) b1 }
             else rehash 2 (fun x : Nat => x) { sampleHole with
                table := sampleHole.table.set (resolve (fun x : Nat => x) sampleHole 17)
                  b1 }).map roundCheck) ∨
      (∃ (pre : List (List Nat)) (seg : List Nat) (post : List (List Nat)) (b1 : Bucket Nat),
        (Bucket.link [5] (Bucket.last [9, 13])).segments = pre ++ seg :: post ∧
        (∀ s ∈ pre, s.length = 2) ∧ seg.length < 2 ∧
        (Bucket.link [5] (Bucket.last [9, 13])).place 2 17 = some (b1, false) ∧
        b1.segments = pre ++ (seg ++ [17]) :: post ∧
        b1.segments.length = (Bucket.link [5] (Bucket.last [9, 13])).segments.length ∧
        insert_noexcept 2 (fun x : Nat => x) sampleHole 17 =
          some { sampleHole with
            table := sampleHole.table.set (resolve (fun x : Nat => x) sampleHole 17) b1 } ∧
        insert_ 2 (fun x : Nat => x) sampleHole 17 =
          some { sampleHole with
            table := sampleHole.table.set (resolve (fun x : Nat => x) sampleHole 17) b1 })) :=
  (C19_placement 2 (by decide) (fun x : Nat => x) sampleHole
    (run_reachable 2 (fun x : Nat => x) sampleHoleOps ADS_set.init _ Reachable.init
      (by decide))
    17 (Bucket.link [5] (Bucket.last [9, 13])) (by decide)).1

/-- C20: on a reachable table `erase(k)` of a present key returns 1 and changes one segment
only: in the segment `seg` at position `j` of the chain of row `resolve k`, where `k` sits at
slot `i`, the slots before `i` stay, the slots after `i` move one place to the left in their
order, and the count drops by one. The chain keeps its number of segments and all other
segments, every other row keeps its chain, and `d`, `nextToSplit`, `currentTableSize` and
`allocSize` are unchanged. -/
theorem C20_erase_frame (N : Nat) (hN : 0 < N) (hash : Key → Nat) (t : ADS_set Key)
    (hr : Reachable N hash t) (k : Key) (hk : count hash t k = some 1) :
    ∃ (t1 : ADS_set Key) (b b1 : Bucket Key) (j i : Nat) (seg : List Key),
      erase hash t k = some (t1, 1) ∧
      t.table.get? (resolve hash t k) = some b ∧ b.segments.get? j = some seg ∧
      seg.get? i = some k ∧
      t1.table = t.table.set (resolve hash t k) b1 ∧
      b1.segments = b.segments.set j (seg.take i ++ seg.drop (i + 1)) ∧
      (seg.take i ++ seg.drop (i + 1)).length + 1 = seg.length ∧
      b1.segments.length = b.segments.length ∧
      (∀ j1, j1 ≠ j → b1.segments.get? j1 = b.segments.get? j1) ∧
      (∀ i1, i1 ≠ resolve hash t k → t1.table.get? i1 = t.table.get? i1) ∧
      t1.d = t.d ∧ t1.nextToSplit = t.nextToSplit ∧
      t1.currentTableSize = t.currentTableSize ∧ t1.allocSize = t.allocSize ∧
      t1.numElements + 1 = t.numElements := by
  have hi := hr.inv hN
  have hk1 : k ∈ allKeys t := (count_eq_one_iff N hash t k hi).1 hk
  obtain ⟨b, j, i, seg, hb, hseg, hslot, hnd, _, hofb, _, _, _⟩ :=
    lookup_present N hash t k hi hk1
  have hlen : i < seg.length := (List.getElem?_eq_some.1 hslot).1
  have hnum : t.numElements ≠ 0 := by
    have := hi.num
    have := List.length_pos_of_mem hk1
    omega
  refine ⟨{ t with
      table := t.table.set (resolve hash t k) (b.modifySegment (eraseSlots k) j)
      numElements := t.numElements - 1 }, b, b.modifySegment (eraseSlots k) j, j, i, seg,
    ?_, by rw [List.get?_eq_getElem?]; exact hb, by rw [List.get?_eq_getElem?]; exact hseg,
    by rw [List.get?_eq_getElem?]; exact hslot, rfl, ?_, ?_, ?_, ?_, ?_, rfl, rfl, ?_, rfl, ?_⟩
  · simp [erase, count_spec N hash t k hi, hk1, hofb, hb]
  · rw [Bucket.modifySegment_segments _ b j seg hseg, eraseSlots_eq_take_drop k seg i hnd hslot]
  · simp only [List.length_append, List.length_take, List.length_drop]
    omega
  · rw [Bucket.modifySegment_segments _ b j seg hseg]
    simp
  · intro j1 hj1
    rw [Bucket.modifySegment_segments _ b j seg hseg, List.get?_eq_getElem?,
      List.get?_eq_getElem?, List.getElem?_set]
    have hne : ¬ j = j1 := fun e => hj1 e.symm
    simp only [hne, if_false]
  · intro i1 hi1
    simp only [List.get?_eq_getElem?, List.getElem?_set]
    have hne : ¬ resolve hash t k = i1 := fun e => hi1 e.symm
    simp only [hne, if_false]
  · simp [ADS_set.currentTableSize]
  · simp only
    omega

/-- Witness of C20: erasing 9 from `sampleHole` shifts 13 to slot 0 of the overflow segment of
bucket 1 and leaves the head segment [5] and the link in place. -/
theorem C20_erase_frame_witness :
    ∃ (t1 : ADS_set Nat) (b b1 : Bucket Nat) (j i : Nat) (seg : List Nat),
      erase (fun x : Nat => x) sampleHole 9 = some (t1, 1) ∧
      sampleHole.table.get? (resolve (fun x : Nat => x) sampleHole 9) = some b ∧
      b.segments.get? j = some seg ∧ seg.get? i = some 9 ∧
      t1.table = sampleHole.table.set (resolve (fun x : Nat => x) sampleHole 9) b1 ∧
      b1.segments = b.segments.set j (seg.take i ++ seg.drop (i + 1)) ∧
      (seg.take i ++ seg.drop (i + 1)).length + 1 = seg.length ∧
      b1.segments.length = b.segments.length ∧
      (∀ j1, j1 ≠ j → b1.segments.get? j1 = b.segments.get? j1) ∧
      (∀ i1, i1 ≠ resolve (fun x : Nat => x) sampleHole 9 →
        t1.table.get? i1 = sampleHole.table.get? i1) ∧
      t1.d = sampleHole.d ∧ t1.nextToSplit = sampleHole.nextToSplit ∧
      t1.currentTableSize = sampleHole.currentTableSize ∧
      t1.allocSize = sampleHole.allocSize ∧
      t1.numElements + 1 = sampleHole.numElements :=
  C20_erase_frame 2 (by decide) (fun x : Nat => x) sampleHole
    (run_reachable 2 (fun x : Nat => x) sampleHoleOps ADS_set.init _ Reachable.init
      (by decide))
    9 (by decide)

end Claims2

/-! ## Slot bounds and the growth invariant -/

section BoundLemmas

variable {Key : Type} [DecidableEq Key]

theorem Bucket.bounded_iff (N : Nat) (b : Bucket Key) :
    Bucket.Bounded N b ↔ ∀ seg ∈ b.segments, seg.length ≤ N := by
  induction b with
  | last c => simp [Bucket.Bounded, Bucket.segments]
  | link c o ih => simp [Bucket.Bounded, Bucket.segments, ih]

theorem Mid.segments_le {N : Nat} {hash : Key → Nat} {t : ADS_set Key} (hm : Mid N hash t) :
    ∀ b ∈ t.table, ∀ seg ∈ b.segments, seg.length ≤ N :=
  fun b hb => (Bucket.bounded_iff N b).1 (hm.bounded b hb)

end BoundLemmas

section Claims3

variable {Key : Type} [DecidableEq Key]

/-- C21: in every reachable state every segment holds between 0 and `N` keys, so every
occupied slot (the slots read by the scans of `find`, `erase` and the iterator) has an index
below `N`, and the slot index a `find` iterator carries is below `N`. For a key whose target
bucket exists, `insert_noexcept` and `insert_` return a table whose segments again hold at most
`N` keys, and the slot they write is slot 0 of a fresh segment or slot `currentBucketSize < N`
of the first segment with a free slot. -/
theorem C21_slot_bounds (N : Nat) (hN : 0 < N) (hash : Key → Nat) (t : ADS_set Key)
    (hr : Reachable N hash t) :
    (∀ b ∈ t.table, ∀ seg ∈ b.segments, 0 ≤ seg.length ∧ seg.length ≤ N) ∧
    (∀ b ∈ t.table, ∀ seg ∈ b.segments, ∀ (i : Nat) (x : Key), seg.get? i = some x → i < N) ∧
    (∀ (k : Key) (it : Iterator Key), find hash t k = some it → it.elemIndex < (N : Int)) ∧
    (∀ (k : Key) (b : Bucket Key), t.table.get? (resolve hash t k) = some b →
      (∃ t1, insert_noexcept N hash t k = some t1 ∧
        ∀ c ∈ t1.table, ∀ seg ∈ c.segments, seg.length ≤ N) ∧
      (∃ t1, insert_ N hash t k = some t1 ∧
        ∀ c ∈ t1.table, ∀ seg ∈ c.segments, seg.length ≤ N) ∧
      (((∀ seg ∈ b.segments, seg.length = N) ∧
          ∃ b1, b.place N k = some (b1, true) ∧ b1.segments = b.segments ++ [[k]] ∧
            ([k] : List Key).length ≤ N) ∨
        (∃ (pre : List (List Key)) (seg : List Key) (post : List (List Key))
            (b1 : Bucket Key),
          b.segments = pre ++ seg :: post ∧ seg.length < N ∧
          b.place N k = some (b1, false) ∧ b1.segments = pre ++ (seg ++ [k]) :: post ∧
          (seg ++ [k]).get? seg.length = some k ∧ (seg ++ [k]).length ≤ N))) := by
  have hi := hr.inv hN
  have hseg : ∀ b ∈ t.table, ∀ seg ∈ b.segments, seg.length ≤ N :=
    fun b hb => (Bucket.bounded_iff N b).1 (hi.bounded b hb)
  refine ⟨fun b hb seg hs => ⟨Nat.zero_le _, hseg b hb seg hs⟩, ?_, ?_, ?_⟩
  · intro b hb seg hs i x hx
    rw [List.get?_eq_getElem?] at hx
    have := (List.getElem?_eq_some.1 hx).1
    have := hseg b hb seg hs
    omega
  · intro k it hf
    by_cases hk : k ∈ allKeys t
    · obtain ⟨b, j, i, seg, hb, hsg, hslot, _, _, _, _, _, hfind⟩ :=
        lookup_present N hash t k hi hk
      rw [hfind] at hf
      simp only [Option.some.injEq] at hf
      rw [← hf]
      have h1 := (List.getElem?_eq_some.1 hslot).1
      have h2 := hseg b (List.mem_iff_getElem?.2 ⟨_, hb⟩) seg (List.mem_iff_getElem?.2 ⟨_, hsg⟩)
      simp only
      omega
    · rw [find_absent N hash t k hi hk] at hf
      simp only [Option.some.injEq] at hf
      rw [← hf]
      simp only [end_]
      omega
  · intro k b hb
    have hb1 := hb
    rw [List.get?_eq_getElem?] at hb1
    have hne : t.table.length ≠ 0 := by
      intro e
      rw [List.getElem?_eq_none (by omega)] at hb1
      simp at hb1
    obtain ⟨hm, _, _⟩ := hi.mid hne
    obtain ⟨t0, h0, hm0, _⟩ := insert_noexcept_spec N hN hash t k hm
    obtain ⟨t1, h1, hm1, _⟩ := insert__spec N hN hash t k hi
    refine ⟨⟨t0, h0, hm0.segments_le⟩, ⟨t1, h1, hm1.segments_le⟩, ?_⟩
    have hbd : Bucket.Bounded N b := hi.bounded b (List.mem_iff_getElem?.2 ⟨_, hb1⟩)
    rcases Bucket.place_detail N hN k b hbd with
      ⟨hall, b1, hp, hsg⟩ | ⟨pre, seg, post, b1, e1, _, e3, hp, e5⟩
    · left
      exact ⟨hall, b1, hp, hsg, by simp; omega⟩
    · right
      refine ⟨pre, seg, post, b1, e1, e3, hp, e5, ?_, by simp; omega⟩
      rw [List.get?_eq_getElem?]
      simp

/-- Witness of C21: `sampleSeven` with 2 slots per bucket. -/
theorem C21_slot_bounds_witness :
    (∀ b ∈ sampleSeven.table, ∀ seg ∈ b.segments, 0 ≤ seg.length ∧ seg.length ≤ 2) ∧
    (∀ b ∈ sampleSeven.table, ∀ seg ∈ b.segments, ∀ (i : Nat) (x : Nat),
      seg.get? i = some x → i < 2) ∧
    (∀ (k : Nat) (it : Iterator Nat),
      find (fun x : Nat => x) sampleSeven k = some it → it.elemIndex < ((2 : Nat) : Int)) ∧
    (∀ (k : Nat) (b : Bucket Nat),
      sampleSeven.table.get? (resolve (fun x : Nat => x) sampleSeven k) = some b →
      (∃ t1, insert_noexcept 2 (fun x : Nat => x) sampleSeven k = some t1 ∧
        ∀ c ∈ t1.table, ∀ seg ∈ c.segments, seg.length ≤ 2) ∧
      (∃ t1, insert_ 2 (fun x : Nat => x) sampleSeven k = some t1 ∧
        ∀ c ∈ t1.table, ∀ seg ∈ c.segments, seg.length ≤ 2) ∧
      (((∀ seg ∈ b.segments, seg.length = 2) ∧
          ∃ b1, b.place 2 k = some (b1, true) ∧ b1.segments = b.segments ++ [[k]] ∧
            ([k] : List Nat).length ≤ 2) ∨
        (∃ (pre : List (List Nat)) (seg : List Nat) (post : List (List Nat))
            (b1 : Bucket Nat),
          b.segments = pre ++ seg :: post ∧ seg.length < 2 ∧
          b.place 2 k = some (b1, false) ∧ b1.segments = pre ++ (seg ++ [k]) :: post ∧
          (seg ++ [k]).get? seg.length = some k ∧ (seg ++ [k]).length ≤ 2))) :=
  C21_slot_bounds 2 (by decide) (fun x : Nat => x) sampleSeven
    (run_reachable 2 (fun x : Nat => x) ((List.range 11).map Op.insert) ADS_set.init _
      Reachable.init (by decide))

/-- C22: in every reachable state with at least one bucket
`currentTableSize = 2^d + nextToSplit` and `nextToSplit < 2^d`. An `insert` of an absent key
either leaves `currentTableSize`, `d` and `nextToSplit` as they were, or splits: then the new
bucket has index `currentTableSize = nextToSplit + 2^d`, and the round completes (`d + 1`,
`nextToSplit = 0`) exactly when the new `currentTableSize` is `2^(d+1)`; otherwise
`nextToSplit` advances by one. -/
theorem C22_growth (N : Nat) (hN : 0 < N) (hash : Key → Nat) (t : ADS_set Key)
    (hr : Reachable N hash t) :
    (0 < t.currentTableSize →
      t.currentTableSize = 2 ^ t.d + t.nextToSplit ∧ t.nextToSplit < 2 ^ t.d) ∧
    (∀ (k : Key) (b : Bucket Key), count hash t k = some 0 →
      t.table.get? (resolve hash t k) = some b →
      ∃ t1 it, insert N hash t k = some (t1, it, true) ∧
        t1.currentTableSize = 2 ^ t1.d + t1.nextToSplit ∧ t1.nextToSplit < 2 ^ t1.d ∧
        ((t1.currentTableSize = t.currentTableSize ∧ t1.d = t.d ∧
            t1.nextToSplit = t.nextToSplit) ∨
          (t1.currentTableSize = t.currentTableSize + 1 ∧
            t.currentTableSize = t.nextToSplit + 2 ^ t.d ∧
            ((t1.d = t.d + 1 ∧ t1.nextToSplit = 0) ↔
              t1.currentTableSize = 2 ^ (t.d + 1)) ∧
            (t1.currentTableSize ≠ 2 ^ (t.d + 1) →
              t1.d = t.d ∧ t1.nextToSplit = t.nextToSplit + 1)))) := by
  have hi := hr.inv hN
  simp only [ADS_set.currentTableSize]
  constructor
  · intro hpos
    obtain ⟨hm, hlt, _⟩ := hi.mid (by omega)
    exact ⟨hm.size_eq, hlt⟩
  · intro k b hk hb
    have hk1 : k ∉ allKeys t := (count_eq_zero_iff N hash t k hi).1 hk
    rw [List.get?_eq_getElem?] at hb
    have hne : t.table.length ≠ 0 := by
      intro e
      rw [List.getElem?_eq_none (by omega)] at hb
      simp at hb
    obtain ⟨hm, hlt, _⟩ := hi.mid hne
    have hbd : Bucket.Bounded N b := hi.bounded b (List.mem_iff_getElem?.2 ⟨_, hb⟩)
    rcases Bucket.place_detail N hN k b hbd with
      ⟨_, b1, hp, _⟩ | ⟨pre, seg, post, b1, _, _, _, hp, _⟩
    · obtain ⟨t2, _, _, _, hins, hm2, hd2, hn2, _, hl2, _, _, _, _, _, hsize⟩ :=
        insert__split N hN hash t k hi b b1 hb hp
      obtain ⟨hm3, hlt3, htab3, _, _⟩ := roundCheck_spec N hash t2 hm2
      obtain ⟨it, hinsert, _⟩ := insert_absent_eq N hN hash t (roundCheck t2) k hi hk1 hins
      have hpos : 0 < 2 ^ t.d := by positivity
      have hpow : 2 ^ (t.d + 1) = 2 ^ t.d + 2 ^ t.d := by rw [pow_succ]; omega
      refine ⟨_, it, hinsert, hm3.size_eq, hlt3, Or.inr ⟨?_, by omega, ?_, ?_⟩⟩
      · simp only [htab3, hl2]
      · simp only [htab3, hl2, hpow]
        by_cases he : t2.nextToSplit = 2 ^ t2.d
        · have e : roundCheck t2 = { t2 with d := t2.d + 1, nextToSplit := 0 } := by
            simp [roundCheck, he]
          rw [e]
          simp only [hd2, true_and]
          rw [hn2, hd2] at he
          constructor
          · intro _; omega
          · intro _; trivial
        · have e : roundCheck t2 = t2 := by simp [roundCheck, he]
          rw [e, hd2, hn2]
          rw [hn2, hd2] at he
          constructor
          · intro h1; omega
          · intro h1; omega
      · intro hne1
        simp only [htab3, hl2, hpow] at hne1
        have he : ¬ t2.nextToSplit = 2 ^ t2.d := by
          rw [hn2, hd2]; omega
        have e : roundCheck t2 = t2 := by simp [roundCheck, he]
        rw [e]
        exact ⟨hd2, hn2⟩
    · have hins := insert__nosplit N hash t k b b1 hb hp
      obtain ⟨it, hinsert, _⟩ := insert_absent_eq N hN hash t _ k hi hk1 hins
      refine ⟨_, it, hinsert, ?_, hlt, Or.inl ⟨?_, rfl, rfl⟩⟩
      · simp only [List.length_set]
        exact hm.size_eq
      · simp

/-- Witness of C22: `sampleSeven` has `7 = 2^2 + 3` buckets; inserting 15 splits bucket 3,
creates bucket 7 and, the table now having `8 = 2^3` buckets, completes the round. -/
theorem C22_growth_witness :
    (0 < sampleSeven.currentTableSize →
      sampleSeven.currentTableSize = 2 ^ sampleSeven.d + sampleSeven.nextToSplit ∧
      sampleSeven.nextToSplit < 2 ^ sampleSeven.d) ∧
    (∀ (k : Nat) (b : Bucket Nat), count (fun x : Nat => x) sampleSeven k = some 0 →
      sampleSeven.table.get? (resolve (fun x : Nat => x) sampleSeven k) = some b →
      ∃ t1 it, insert 2 (fun x : Nat => x) sampleSeven k = some (t1, it, true) ∧
        t1.currentTableSize = 2 ^ t1.d + t1.nextToSplit ∧ t1.nextToSplit < 2 ^ t1.d ∧
        ((t1.currentTableSize = sampleSeven.currentTableSize ∧ t1.d = sampleSeven.d ∧
            t1.nextToSplit = sampleSeven.nextToSplit) ∨
          (t1.currentTableSize = sampleSeven.currentTableSize + 1 ∧
            sampleSeven.currentTableSize = sampleSeven.nextToSplit + 2 ^ sampleSeven.d ∧
            ((t1.d = sampleSeven.d + 1 ∧ t1.nextToSplit = 0) ↔
              t1.currentTableSize = 2 ^ (sampleSeven.d + 1)) ∧
            (t1.currentTableSize ≠ 2 ^ (sampleSeven.d + 1) →
              t1.d = sampleSeven.d ∧ t1.nextToSplit = sampleSeven.nextToSplit + 1)))) :=
  C22_growth 2 (by decide) (fun x : Nat => x) sampleSeven
    (run_reachable 2 (fun x : Nat => x) ((List.range 11).map Op.insert) ADS_set.init _
      Reachable.init (by decide))

end Claims3

end ADS
